import Mathlib

/-!
A verification development for the `use-qs` query-string codec
(`src/index.ts`: `parse` / `stringify` plus their helpers).

JavaScript strings are embedded as `List Char` (Unicode scalar values).
The platform built-ins the source relies on (`JSON.parse`, `JSON.stringify`,
`encodeURIComponent`, `decodeURIComponent`, lodash collection helpers) are
modelled here by executable Lean functions that follow their standard
semantics on the fragments the source exercises.  Lodash's case-conversion
utilities (`camelCase`, `snakeCase`, `kebabCase`) are word-boundary string
rewriters that the repository treats as external black boxes, so they are
taken as an abstract bundle of functions (`CaseFuns`) that the whole
development is parametric in.
-/

namespace UseQs

/-- Characters of a JS string (one entry per Unicode scalar value). -/
abbrev Str := List Char

/-- Convert a Lean string literal to the `Str` embedding. -/
def lit (s : String) : Str := s.toList

/-! ## Small character/string utilities shared by the embedding -/

/-- ASCII decimal digit test. -/
def isDig (c : Char) : Bool := 48 ≤ c.toNat && c.toNat ≤ 57

/-- Maximal leading run of decimal digits, and the remainder. -/
def digSpan : Str → Str × Str
  | [] => ([], [])
  | c :: t =>
    if isDig c then
      let p := digSpan t
      (c :: p.1, p.2)
    else ([], c :: t)

/-- Numeric value of a digit string (most significant first). -/
def digVal (ds : Str) : Nat :=
  ds.foldl (fun a c => a * 10 + (c.toNat - 48)) 0

/-- Decimal digits of `n`, most significant first (`fu` is recursion fuel so
that the definition is structural and kernel-computable). -/
def natCharsF : Nat → Nat → Str
  | 0, _ => []
  | fu + 1, n =>
    if n < 10 then [Char.ofNat (48 + n)]
    else natCharsF fu (n / 10) ++ [Char.ofNat (48 + n % 10)]

/-- Decimal digit characters of `n`, most significant first. -/
def natChars (n : Nat) : Str := natCharsF (n + 1) n

theorem natCharsF_irr : ∀ (fu fu2 n : Nat), n < fu → n < fu2 →
    natCharsF fu n = natCharsF fu2 n
  | 0, _, _, h, _ => absurd h (by omega)
  | _ + 1, 0, _, _, h2 => absurd h2 (by omega)
  | fu + 1, fu2 + 1, n, h, h2 => by
    simp only [natCharsF]
    by_cases hn : n < 10
    · simp [hn]
    · rw [if_neg hn, if_neg hn,
        natCharsF_irr fu fu2 (n / 10) (by omega) (by omega)]

/-- The defining recursion of `natChars`. -/
theorem natChars_eq (n : Nat) : natChars n =
    if n < 10 then [Char.ofNat (48 + n)]
    else natChars (n / 10) ++ [Char.ofNat (48 + n % 10)] := by
  show natCharsF (n + 1) n = _
  rw [natCharsF]
  by_cases hn : n < 10
  · simp [hn]
  · rw [if_neg hn, if_neg hn,
      natCharsF_irr n (n / 10 + 1) (n / 10) (by omega) (by omega)]
    rfl

/-- `String(i)` for a JS integer: optional minus sign, then decimal digits. -/
def intChars (i : Int) : Str :=
  (if i < 0 then ['-'] else []) ++ natChars i.natAbs

/-! ## A model of the ECMAScript JSON value space

`JSON.parse` can return numbers that are not integers; the development keeps
such values abstract by carrying the numeric literal verbatim (`jnumNI`).
Every number the repository's own round trips produce is an integer
(`jnum`). -/

/-- A JSON-representable JS value.  `jnumNI` carries the source literal of a
number that has a fraction or exponent part (the embedding does not model
IEEE-754 arithmetic; such numbers never arise from the values this
development quantifies over). -/
inductive Json where
  | jnull
  | jbool (b : Bool)
  | jnum (n : Int)
  | jnumNI (litr : Str)
  | jstr (s : Str)
  | jarr (elems : List Json)
  | jobj (fields : List (Str × Json))

compile_inductive% Json

/-! ### `JSON.stringify` -/

/-- Lowercase hex digit. -/
def hexDig (n : Nat) : Char :=
  if n < 10 then Char.ofNat (48 + n) else Char.ofNat (97 + n - 10)

/-- How `JSON.stringify` emits one character inside a string literal. -/
def jescChar (c : Char) : Str :=
  if c = '"' then ['\\', '"']
  else if c = '\\' then ['\\', '\\']
  else if c = Char.ofNat 8 then ['\\', 'b']
  else if c = Char.ofNat 9 then ['\\', 't']
  else if c = Char.ofNat 10 then ['\\', 'n']
  else if c = Char.ofNat 12 then ['\\', 'f']
  else if c = Char.ofNat 13 then ['\\', 'r']
  else if c.toNat < 32 then
    ['\\', 'u', '0', '0', hexDig (c.toNat / 16), hexDig (c.toNat % 16)]
  else [c]

/-- A JSON string literal: quote, escaped body, quote. -/
def jstrChars (s : Str) : Str := '"' :: (s.flatMap jescChar ++ ['"'])

mutual
/-- `JSON.stringify` on the modelled value space (`fu` is recursion fuel so
that the definition is structural and kernel-computable). -/
def jprintF : Nat → Json → Str
  | 0, _ => []
  | fu + 1, j =>
    match j with
    | .jnull => ['n', 'u', 'l', 'l']
    | .jbool true => ['t', 'r', 'u', 'e']
    | .jbool false => ['f', 'a', 'l', 's', 'e']
    | .jnum n => intChars n
    | .jnumNI l => l
    | .jstr s => jstrChars s
    | .jarr es => '[' :: (jprintElemsF fu es ++ [']'])
    | .jobj fs => '\x7b' :: (jprintFieldsF fu fs ++ ['\x7d'])

/-- Comma-separated rendering of array elements. -/
def jprintElemsF : Nat → List Json → Str
  | 0, _ => []
  | fu + 1, es =>
    match es with
    | [] => []
    | [e] => jprintF fu e
    | e :: t => jprintF fu e ++ ',' :: jprintElemsF fu t

/-- Comma-separated rendering of object members. -/
def jprintFieldsF : Nat → List (Str × Json) → Str
  | 0, _ => []
  | fu + 1, fs =>
    match fs with
    | [] => []
    | [(k, v)] => jstrChars k ++ ':' :: jprintF fu v
    | (k, v) :: t => jstrChars k ++ ':' :: jprintF fu v ++ ',' :: jprintFieldsF fu t
end

/-- `JSON.stringify`. -/
def jprint (j : Json) : Str := jprintF (sizeOf j) j

def jprintElems (es : List Json) : Str := jprintElemsF (sizeOf es) es

def jprintFields (fs : List (Str × Json)) : Str := jprintFieldsF (sizeOf fs) fs

theorem json_sizeOf_pos (j : Json) : 0 < sizeOf j := by
  cases j <;> simp

theorem jsonList_sizeOf_pos (es : List Json) : 0 < sizeOf es := by
  cases es <;> simp

theorem jsonFields_sizeOf_pos (fs : List (Str × Json)) : 0 < sizeOf fs := by
  cases fs <;> simp

mutual
theorem jprintF_irr : ∀ (fu fu2 : Nat) (j : Json), sizeOf j ≤ fu → sizeOf j ≤ fu2 →
    jprintF fu j = jprintF fu2 j
  | 0, _, j, h, _ => absurd h (by have := json_sizeOf_pos j; omega)
  | _ + 1, 0, j, _, h2 => absurd h2 (by have := json_sizeOf_pos j; omega)
  | fu + 1, fu2 + 1, j, h, h2 => by
    cases j with
    | jarr es =>
      have hs : sizeOf (Json.jarr es) = 1 + sizeOf es := by simp
      rw [hs] at h h2
      simp only [jprintF]
      rw [jprintElemsF_irr fu fu2 es (by omega) (by omega)]
    | jobj fs =>
      have hs : sizeOf (Json.jobj fs) = 1 + sizeOf fs := by simp
      rw [hs] at h h2
      simp only [jprintF]
      rw [jprintFieldsF_irr fu fu2 fs (by omega) (by omega)]
    | jbool b => cases b <;> rfl
    | jnull => rfl
    | jnum n => rfl
    | jnumNI l => rfl
    | jstr s => rfl

theorem jprintElemsF_irr : ∀ (fu fu2 : Nat) (es : List Json), sizeOf es ≤ fu →
    sizeOf es ≤ fu2 → jprintElemsF fu es = jprintElemsF fu2 es
  | 0, _, es, h, _ => absurd h (by have := jsonList_sizeOf_pos es; omega)
  | _ + 1, 0, es, _, h2 => absurd h2 (by have := jsonList_sizeOf_pos es; omega)
  | fu + 1, fu2 + 1, es, h, h2 => by
    have hj : ∀ (e : Json) (t : List Json), sizeOf (e :: t) = 1 + sizeOf e + sizeOf t := by
      intro e t; simp
    cases es with
    | nil => rfl
    | cons e t =>
      rw [hj] at h h2
      have he := jprintF_irr fu fu2 e
        (by have := jsonList_sizeOf_pos t; omega)
        (by have := jsonList_sizeOf_pos t; omega)
      cases t with
      | nil => simp only [jprintElemsF, he]
      | cons e2 t2 =>
        have ht := jprintElemsF_irr fu fu2 (e2 :: t2)
          (by have := json_sizeOf_pos e; omega)
          (by have := json_sizeOf_pos e; omega)
        simp only [jprintElemsF, he, ht]

theorem jprintFieldsF_irr : ∀ (fu fu2 : Nat) (fs : List (Str × Json)), sizeOf fs ≤ fu →
    sizeOf fs ≤ fu2 → jprintFieldsF fu fs = jprintFieldsF fu2 fs
  | 0, _, fs, h, _ => absurd h (by have := jsonFields_sizeOf_pos fs; omega)
  | _ + 1, 0, fs, _, h2 => absurd h2 (by have := jsonFields_sizeOf_pos fs; omega)
  | fu + 1, fu2 + 1, fs, h, h2 => by
    cases fs with
    | nil => rfl
    | cons f t =>
      obtain ⟨k, v⟩ := f
      have hj : sizeOf ((k, v) :: t) = 1 + sizeOf (k, v) + sizeOf t := by simp
      have hkv : sizeOf (k, v) = 1 + sizeOf k + sizeOf v := by simp
      rw [hj, hkv] at h h2
      have he := jprintF_irr fu fu2 v
        (by have := jsonFields_sizeOf_pos t; omega)
        (by have := jsonFields_sizeOf_pos t; omega)
      cases t with
      | nil => simp only [jprintFieldsF, he]
      | cons f2 t2 =>
        have ht := jprintFieldsF_irr fu fu2 (f2 :: t2)
          (by have := json_sizeOf_pos v; omega)
          (by have := json_sizeOf_pos v; omega)
        simp only [jprintFieldsF, he, ht]
end

theorem jprint_arr (es : List Json) :
    jprint (.jarr es) = '[' :: (jprintElems es ++ [']']) := by
  show jprintF (sizeOf (Json.jarr es)) (.jarr es) = _
  have hs : sizeOf (Json.jarr es) = sizeOf es + 1 := by simp; omega
  rw [hs]
  have h1 : jprintF (sizeOf es + 1) (.jarr es) =
      '[' :: (jprintElemsF (sizeOf es) es ++ [']']) := rfl
  rw [h1]
  rfl

theorem jprint_obj (fs : List (Str × Json)) :
    jprint (.jobj fs) = '\x7b' :: (jprintFields fs ++ ['\x7d']) := by
  show jprintF (sizeOf (Json.jobj fs)) (.jobj fs) = _
  have hs : sizeOf (Json.jobj fs) = sizeOf fs + 1 := by simp; omega
  rw [hs]
  have h1 : jprintF (sizeOf fs + 1) (.jobj fs) =
      '\x7b' :: (jprintFieldsF (sizeOf fs) fs ++ ['\x7d']) := rfl
  rw [h1]
  rfl

theorem jprintElems_single (e : Json) : jprintElems [e] = jprint e := by
  show jprintElemsF (sizeOf [e]) [e] = _
  have hs : sizeOf [e] = (sizeOf e + 1) + 1 := by simp; omega
  rw [hs]
  have h1 : jprintElemsF ((sizeOf e + 1) + 1) [e] = jprintF (sizeOf e + 1) e := rfl
  rw [h1, jprintF_irr _ _ e (by omega) le_rfl]
  rfl

theorem jprintElems_cons (e e2 : Json) (t : List Json) :
    jprintElems (e :: e2 :: t) = jprint e ++ ',' :: jprintElems (e2 :: t) := by
  show jprintElemsF (sizeOf (e :: e2 :: t)) (e :: e2 :: t) = _
  have hs : sizeOf (e :: e2 :: t) = (sizeOf e + sizeOf (e2 :: t)) + 1 := by
    simp; omega
  rw [hs]
  have h1 : jprintElemsF ((sizeOf e + sizeOf (e2 :: t)) + 1) (e :: e2 :: t) =
      jprintF (sizeOf e + sizeOf (e2 :: t)) e ++
        ',' :: jprintElemsF (sizeOf e + sizeOf (e2 :: t)) (e2 :: t) := rfl
  rw [h1,
    jprintF_irr _ _ e (by have := jsonList_sizeOf_pos (e2 :: t); omega) le_rfl,
    jprintElemsF_irr _ _ (e2 :: t) (by have := json_sizeOf_pos e; omega) le_rfl]
  rfl

theorem jprintFields_single (k : Str) (v : Json) :
    jprintFields [(k, v)] = jstrChars k ++ ':' :: jprint v := by
  show jprintFieldsF (sizeOf [(k, v)]) [(k, v)] = _
  have hs : sizeOf [(k, v)] = (sizeOf k + sizeOf v + 2) + 1 := by simp; omega
  rw [hs]
  have h1 : jprintFieldsF ((sizeOf k + sizeOf v + 2) + 1) [(k, v)] =
      jstrChars k ++ ':' :: jprintF (sizeOf k + sizeOf v + 2) v := rfl
  rw [h1, jprintF_irr _ _ v (by omega) le_rfl]
  rfl

theorem jprintFields_cons (k : Str) (v : Json) (f2 : Str × Json) (t : List (Str × Json)) :
    jprintFields ((k, v) :: f2 :: t) =
      jstrChars k ++ ':' :: jprint v ++ ',' :: jprintFields (f2 :: t) := by
  show jprintFieldsF (sizeOf ((k, v) :: f2 :: t)) ((k, v) :: f2 :: t) = _
  have hs : sizeOf ((k, v) :: f2 :: t) =
      (sizeOf k + sizeOf v + sizeOf (f2 :: t) + 1) + 1 := by
    simp; omega
  rw [hs]
  have h1 : jprintFieldsF ((sizeOf k + sizeOf v + sizeOf (f2 :: t) + 1) + 1)
        ((k, v) :: f2 :: t) =
      jstrChars k ++ ':' :: jprintF (sizeOf k + sizeOf v + sizeOf (f2 :: t) + 1) v ++
        ',' :: jprintFieldsF (sizeOf k + sizeOf v + sizeOf (f2 :: t) + 1) (f2 :: t) := rfl
  rw [h1,
    jprintF_irr _ _ v (by have := jsonFields_sizeOf_pos (f2 :: t); omega) le_rfl,
    jprintFieldsF_irr _ _ (f2 :: t) (by have := json_sizeOf_pos v; omega) le_rfl]
  rfl

theorem jprintElems_nil : jprintElems [] = [] := rfl

theorem jprintFields_nil : jprintFields [] = [] := rfl

theorem jprint_num (n : Int) : jprint (.jnum n) = intChars n := by
  show jprintF (sizeOf (Json.jnum n)) (.jnum n) = _
  obtain ⟨g, hg⟩ : ∃ g, sizeOf (Json.jnum n) = g + 1 :=
    ⟨_, (Nat.succ_pred_eq_of_pos (json_sizeOf_pos _)).symm⟩
  rw [hg]
  rfl

theorem jprint_numNI (l : Str) : jprint (.jnumNI l) = l := by
  show jprintF (sizeOf (Json.jnumNI l)) (.jnumNI l) = _
  obtain ⟨g, hg⟩ : ∃ g, sizeOf (Json.jnumNI l) = g + 1 :=
    ⟨_, (Nat.succ_pred_eq_of_pos (json_sizeOf_pos _)).symm⟩
  rw [hg]
  rfl

theorem jprint_str (s : Str) : jprint (.jstr s) = jstrChars s := by
  show jprintF (sizeOf (Json.jstr s)) (.jstr s) = _
  obtain ⟨g, hg⟩ : ∃ g, sizeOf (Json.jstr s) = g + 1 :=
    ⟨_, (Nat.succ_pred_eq_of_pos (json_sizeOf_pos _)).symm⟩
  rw [hg]
  rfl

theorem jprint_bool (b : Bool) : jprint (.jbool b) =
    if b then ['t', 'r', 'u', 'e'] else ['f', 'a', 'l', 's', 'e'] := by
  cases b <;> rfl

/-! ### `JSON.parse` -/

/-- JSON whitespace. -/
def jws (c : Char) : Bool :=
  c = ' ' || c = Char.ofNat 9 || c = Char.ofNat 10 || c = Char.ofNat 13

/-- Drop leading JSON whitespace. -/
def wsDrop : Str → Str
  | [] => []
  | c :: t => if jws c then wsDrop t else c :: t

/-- Hex digit value, both cases. -/
def hexVal (c : Char) : Option Nat :=
  if '0' ≤ c && c ≤ '9' then some (c.toNat - 48)
  else if 'a' ≤ c && c ≤ 'f' then some (c.toNat - 87)
  else if 'A' ≤ c && c ≤ 'F' then some (c.toNat - 55)
  else none

/-- Four hex digits as a number. -/
def hex4 (a b c d : Char) : Option Nat := do
  let x ← hexVal a; let y ← hexVal b; let z ← hexVal c; let w ← hexVal d
  pure (((x * 16 + y) * 16 + z) * 16 + w)

/-- Scalar for a `\uXXXX` code unit; a lone surrogate (representable in a JS
string but not as a Unicode scalar) is approximated by U+FFFD. -/
def cuChar (n : Nat) : Char :=
  if n.isValidChar then Char.ofNat n else Char.ofNat 0xFFFD

/-- The single-character escapes `JSON.parse` accepts after a backslash. -/
def unesc : Char → Option Char
  | '"' => some '"'
  | '\\' => some '\\'
  | '/' => some '/'
  | 'b' => some (Char.ofNat 8)
  | 'f' => some (Char.ofNat 12)
  | 'n' => some (Char.ofNat 10)
  | 'r' => some (Char.ofNat 13)
  | 't' => some (Char.ofNat 9)
  | _ => none

mutual
/-- Body of a JSON string literal after the opening quote.  Raw control
characters are a syntax error (as in `JSON.parse`).  `fu` is recursion fuel
so that the definition is structural and kernel-computable. -/
def jstrBodyF : Nat → Str → Str → Option (Str × Str)
  | 0, _, _ => none
  | fu + 1, acc, s =>
    match s with
    | [] => none
    | c :: r =>
      if c = '"' then some (acc.reverse, r)
      else if c = '\\' then jescF fu acc r
      else if c.toNat < 32 then none
      else jstrBodyF fu (c :: acc) r

/-- After a backslash: `\uXXXX` escapes (combining surrogate pairs) or a
single-character escape. -/
def jescF : Nat → Str → Str → Option (Str × Str)
  | 0, _, _ => none
  | fu + 1, acc, s =>
    match s with
    | 'u' :: a :: b :: c :: d :: '\\' :: 'u' :: a2 :: b2 :: c2 :: d2 :: r2 =>
      (match hex4 a b c d with
      | none => none
      | some n =>
        if 0xD800 ≤ n && n ≤ 0xDBFF then
          match hex4 a2 b2 c2 d2 with
          | none => none
          | some m =>
            if 0xDC00 ≤ m && m ≤ 0xDFFF then
              jstrBodyF fu (cuChar (0x10000 + (n - 0xD800) * 0x400 + (m - 0xDC00)) :: acc) r2
            else jstrBodyF fu (cuChar m :: cuChar n :: acc) r2
        else jstrBodyF fu (cuChar n :: acc) ('\\' :: 'u' :: a2 :: b2 :: c2 :: d2 :: r2))
    | 'u' :: a :: b :: c :: d :: r' =>
      (match hex4 a b c d with
      | none => none
      | some n => jstrBodyF fu (cuChar n :: acc) r')
    | e :: r' =>
      (match unesc e with
      | some ch => jstrBodyF fu (ch :: acc) r'
      | none => none)
    | [] => none
end

/-- String-literal body scanner, with enough fuel for its whole input. -/
def jstrBody (acc s : Str) : Option (Str × Str) := jstrBodyF (s.length + 1) acc s

/-- The integer part of a JSON number literal: `0`, or a nonzero digit run. -/
def jintPart : Str → Option (Str × Str)
  | [] => none
  | c :: t =>
    if c = '0' then some (['0'], t)
    else if isDig c then
      let p := digSpan t
      some (c :: p.1, p.2)
    else none

/-- A JSON number token.  Integer-valued literals (no fraction, no exponent)
become `jnum`; anything else keeps its literal as `jnumNI`.  A missing digit
run after `.`, `e`, `E`, or a missing integer part, is a syntax error. -/
def jnumTok (s : Str) : Option (Json × Str) :=
  let sgn : Bool := s.head? = some '-'
  let s1 := if sgn then s.tail else s
  match jintPart s1 with
  | none => none
  | some (ip, s2) =>
    let fracRes : Option (Option Str × Str) :=
      if s2.head? = some '.' then
        match digSpan s2.tail with
        | ([], _) => none
        | (ds, r) => some (some ds, r)
      else some (none, s2)
    match fracRes with
    | none => none
    | some (fr, s3) =>
      let expRes : Option (Option Str × Str) :=
        if s3.head? = some 'e' || s3.head? = some 'E' then
          let eC := s3.head?.getD 'e'
          let r := s3.tail
          let esgn : Str :=
            if r.head? = some '+' then ['+']
            else if r.head? = some '-' then ['-'] else []
          let r1 := if r.head? = some '+' || r.head? = some '-' then r.tail else r
          match digSpan r1 with
          | ([], _) => none
          | (ds, r') => some (some (eC :: (esgn ++ ds)), r')
        else some (none, s3)
      match expRes with
      | none => none
      | some (ex, s4) =>
        match fr, ex with
        | none, none => some (.jnum ((if sgn then -1 else 1) * (digVal ip : Int)), s4)
        | _, _ =>
          some (.jnumNI ((if sgn then ['-'] else []) ++ ip ++
            (match fr with | none => [] | some ds => '.' :: ds) ++
            (match ex with | none => [] | some es => es)), s4)

/-- The binding of key `k` in an object's member list, if any. -/
def jfieldGet (fs : List (Str × Json)) (k : Str) : Option Json :=
  (fs.find? fun f => f.1 == k).map fun f => f.2

/-- Prepend the member `k : v` to the object built from the later members.
`JSON.parse` assigns members left to right on one object, so a duplicate
key keeps the position of its first occurrence but the value of its last:
when `k` recurs among the later members, that later value wins and the
later occurrence is dropped. -/
def jfieldPut (k : Str) (v : Json) (fs : List (Str × Json)) : List (Str × Json) :=
  match jfieldGet fs k with
  | some v2 => (k, v2) :: fs.filter fun f => !(f.1 == k)
  | none => (k, v) :: fs

mutual
/-- One JSON value, by recursive descent (fuel-indexed for totality). -/
def jval (fuel : Nat) (s : Str) : Option (Json × Str) :=
  match fuel with
  | 0 => none
  | fuel + 1 =>
    match wsDrop s with
    | 'n' :: 'u' :: 'l' :: 'l' :: r => some (.jnull, r)
    | 't' :: 'r' :: 'u' :: 'e' :: r => some (.jbool true, r)
    | 'f' :: 'a' :: 'l' :: 's' :: 'e' :: r => some (.jbool false, r)
    | '"' :: r =>
      match jstrBody [] r with
      | some (str, r') => some (.jstr str, r')
      | none => none
    | '[' :: r =>
      match wsDrop r with
      | ']' :: r' => some (.jarr [], r')
      | r' =>
        match jseq fuel r' with
        | some (es, r'') => some (.jarr es, r'')
        | none => none
    | '\x7b' :: r =>
      match wsDrop r with
      | '\x7d' :: r' => some (.jobj [], r')
      | r' =>
        match jmems fuel r' with
        | some (fs, r'') => some (.jobj fs, r'')
        | none => none
    | c :: r =>
      if c = '-' || isDig c then jnumTok (c :: r)
      else none
    | [] => none

/-- One-or-more comma-separated array elements, consuming the closing `]`. -/
def jseq (fuel : Nat) (s : Str) : Option (List Json × Str) :=
  match fuel with
  | 0 => none
  | fuel + 1 =>
    match jval fuel s with
    | none => none
    | some (v, r) =>
      match wsDrop r with
      | ',' :: r' =>
        match jseq fuel r' with
        | some (vs, r'') => some (v :: vs, r'')
        | none => none
      | ']' :: r' => some ([v], r')
      | _ => none

/-- One-or-more comma-separated members, consuming the closing brace. -/
def jmems (fuel : Nat) (s : Str) : Option (List (Str × Json) × Str) :=
  match fuel with
  | 0 => none
  | fuel + 1 =>
    match wsDrop s with
    | '"' :: r =>
      match jstrBody [] r with
      | none => none
      | some (k, r1) =>
        match wsDrop r1 with
        | ':' :: r2 =>
          match jval fuel r2 with
          | none => none
          | some (v, r3) =>
            match wsDrop r3 with
            | ',' :: r4 =>
              match jmems fuel r4 with
              | some (fs, r5) => some (jfieldPut k v fs, r5)
              | none => none
            | '\x7d' :: r4 => some ([(k, v)], r4)
            | _ => none
        | _ => none
    | _ => none
end

/-- `JSON.parse`: a whole-input JSON document, or `none` on any syntax
error. -/
def jparse (s : Str) : Option Json :=
  match jval (s.length + 1) s with
  | some (j, r) => if wsDrop r = [] then some j else none
  | none => none

/-! ### Wellformedness of JSON values produced by this repository

The repository only ever serialises JSON values whose numbers are integers
and whose strings stay in the printable ASCII range; the round-trip theorem
is proved for those. -/

/-- Printable ASCII character (no control characters, no DEL, no
non-ASCII). -/
def chOk (c : Char) : Bool := 32 ≤ c.toNat && c.toNat ≤ 126

/-- Printable-ASCII string. -/
def strOk (s : Str) : Bool := s.all chOk

mutual
/-- Values the repository's round trips range over: integer numbers,
printable-ASCII strings and pairwise-distinct object keys, everywhere. -/
def jgood : Json → Bool
  | .jnull => true
  | .jbool _ => true
  | .jnum _ => true
  | .jnumNI _ => false
  | .jstr s => strOk s
  | .jarr es => jgoodL es
  | .jobj fs => jgoodF fs
def jgoodL : List Json → Bool
  | [] => true
  | e :: t => jgood e && jgoodL t
def jgoodF : List (Str × Json) → Bool
  | [] => true
  | (k, v) :: t => strOk k && (!t.any fun f => f.1 == k) && jgood v && jgoodF t
end

mutual
/-- Fuel sufficient to parse a rendered value. -/
def jsize : Json → Nat
  | .jarr es => 1 + jsizeL es
  | .jobj fs => 1 + jsizeF fs
  | _ => 1
def jsizeL : List Json → Nat
  | [] => 0
  | e :: t => 1 + jsize e + jsizeL t
def jsizeF : List (Str × Json) → Nat
  | [] => 0
  | (_, v) :: t => 1 + jsize v + jsizeF t
end

/-- When the key is not bound among the later members, `jfieldPut` is a
plain cons. -/
theorem jfieldPut_fresh (k : Str) (v : Json) (fs : List (Str × Json))
    (h : (fs.any fun f => f.1 == k) = false) :
    jfieldPut k v fs = (k, v) :: fs := by
  have hg : jfieldGet fs k = none := by
    unfold jfieldGet
    rw [List.find?_eq_none.2]
    · rfl
    · intro x hx
      rw [List.any_eq_false] at h
      exact h x hx
  unfold jfieldPut
  rw [hg]

/-! ### Digit and integer-literal lemmas -/

theorem digit_char_spec (n : Nat) (h : n < 10) :
    (Char.ofNat (48 + n)).toNat = 48 + n ∧ isDig (Char.ofNat (48 + n)) = true := by
  interval_cases n <;> exact ⟨by decide, by decide⟩

theorem natChars_digits (n : Nat) : ∀ c ∈ natChars n, isDig c = true := by
  induction n using Nat.strongRecOn with
  | _ n ih =>
    intro c hc
    rw [natChars_eq] at hc
    by_cases h : n < 10
    · rw [if_pos h] at hc
      rw [List.mem_singleton] at hc
      exact hc ▸ (digit_char_spec n h).2
    · rw [if_neg h, List.mem_append] at hc
      rcases hc with hc | hc
      · exact ih (n / 10) (by omega) c hc
      · rw [List.mem_singleton] at hc
        exact hc ▸ (digit_char_spec (n % 10) (by omega)).2

theorem natChars_ne_nil (n : Nat) : natChars n ≠ [] := by
  rw [natChars_eq]
  by_cases h : n < 10
  · rw [if_pos h]; simp
  · rw [if_neg h]; simp

theorem digVal_append_digit (ds : Str) (c : Char) :
    digVal (ds ++ [c]) = digVal ds * 10 + (c.toNat - 48) := by
  simp [digVal]

theorem digVal_natChars (n : Nat) : digVal (natChars n) = n := by
  induction n using Nat.strongRecOn with
  | _ n ih =>
    rw [natChars_eq]
    by_cases h : n < 10
    · rw [if_pos h]
      simp [digVal, (digit_char_spec n h).1]
    · rw [if_neg h, digVal_append_digit, ih (n / 10) (by omega),
        (digit_char_spec (n % 10) (by omega)).1]
      omega

/-- Digit runs scan exactly across a digit block when the remainder does not
begin with a digit. -/
def digStop : Str → Prop
  | [] => True
  | c :: _ => isDig c = false

theorem digSpan_stop {s : Str} (h : digStop s) : digSpan s = ([], s) := by
  cases s with
  | nil => rfl
  | cons c t => simp only [digStop] at h; simp [digSpan, h]

theorem digSpan_block (ds : Str) (hds : ∀ c ∈ ds, isDig c = true)
    {rest : Str} (hr : digStop rest) : digSpan (ds ++ rest) = (ds, rest) := by
  induction ds with
  | nil => simpa using digSpan_stop hr
  | cons c t ih =>
    have hc : isDig c = true := hds c (by simp)
    have := ih (fun x hx => hds x (by simp [hx]))
    simp [digSpan, hc, this]

theorem natChars_head_pos (n : Nat) (hn : n ≠ 0) :
    ∀ c t, natChars n = c :: t → c ≠ '0' := by
  induction n using Nat.strongRecOn with
  | _ n ih =>
    intro c t hct
    rw [natChars_eq] at hct
    by_cases h : n < 10
    · rw [if_pos h] at hct
      obtain ⟨rfl, -⟩ := by simpa using hct
      intro hc
      have := (digit_char_spec n h).1
      rw [hc] at this
      simp only [Char.reduceToNat] at this
      omega
    · rw [if_neg h] at hct
      obtain ⟨c0, t0, h0⟩ : ∃ c0 t0, natChars (n / 10) = c0 :: t0 := by
        cases hh : natChars (n / 10) with
        | nil => exact absurd hh (natChars_ne_nil _)
        | cons a b => exact ⟨a, b, rfl⟩
      rw [h0] at hct
      simp only [List.cons_append, List.cons.injEq] at hct
      exact hct.1 ▸ ih (n / 10) (by omega) (by omega) c0 t0 h0

theorem jintPart_natChars (n : Nat) {rest : Str} (hr : digStop rest) :
    jintPart (natChars n ++ rest) = some (natChars n, rest) := by
  by_cases h0 : n = 0
  · subst h0
    have : natChars 0 = ['0'] := by rfl
    rw [this]
    simp [jintPart]
  · obtain ⟨c, t, hct⟩ : ∃ c t, natChars n = c :: t := by
      cases hh : natChars n with
      | nil => exact absurd hh (natChars_ne_nil _)
      | cons a b => exact ⟨a, b, rfl⟩
    have hcd : isDig c = true := natChars_digits n c (hct ▸ List.mem_cons_self ..)
    have hc0 : c ≠ '0' := natChars_head_pos n h0 c t hct
    have ht : digSpan (t ++ rest) = (t, rest) :=
      digSpan_block t (fun x hx => natChars_digits n x (hct ▸ List.mem_cons_of_mem _ hx)) hr
    rw [hct]
    simp [jintPart, hc0, hcd, ht]

/-- A remainder that cannot extend a number literal. -/
def numStop : Str → Prop
  | [] => True
  | c :: _ => isDig c = false ∧ c ≠ '.' ∧ c ≠ 'e' ∧ c ≠ 'E'

theorem numStop_digStop {s : Str} (h : numStop s) : digStop s := by
  cases s with
  | nil => trivial
  | cons c t => exact h.1

theorem jnumTok_int (n : Int) {rest : Str} (hr : numStop rest) :
    jnumTok (intChars n ++ rest) = some (.jnum n, rest) := by
  have hdot : rest.head? ≠ some '.' := by
    cases rest with
    | nil => simp
    | cons c t => simpa using fun h => absurd h hr.2.1
  have he : rest.head? ≠ some 'e' := by
    cases rest with
    | nil => simp
    | cons c t => simpa using fun h => absurd h hr.2.2.1
  have hE : rest.head? ≠ some 'E' := by
    cases rest with
    | nil => simp
    | cons c t => simpa using fun h => absurd h hr.2.2.2
  by_cases hneg : n < 0
  · have habs : intChars n ++ rest = '-' :: (natChars n.natAbs ++ rest) := by
      simp [intChars, hneg]
    rw [habs]
    simp only [jnumTok, List.head?_cons, List.tail_cons, decide_True, if_true]
    rw [jintPart_natChars _ (numStop_digStop hr)]
    have hv : (-1 : Int) * (digVal (natChars n.natAbs) : Int) = n := by
      rw [digVal_natChars]; omega
    simp [hdot, he, hE, hv]
  · obtain ⟨c, t, hct⟩ : ∃ c t, natChars n.natAbs = c :: t := by
      cases hh : natChars n.natAbs with
      | nil => exact absurd hh (natChars_ne_nil _)
      | cons a b => exact ⟨a, b, rfl⟩
    have hcd : isDig c = true := natChars_digits _ c (hct ▸ List.mem_cons_self ..)
    have hcm : c ≠ '-' := by
      intro h; rw [h] at hcd; exact absurd hcd (by decide)
    have habs : intChars n ++ rest = c :: (t ++ rest) := by
      simp [intChars, hneg, hct]
    have hip : jintPart (c :: (t ++ rest)) = some (c :: t, rest) := by
      have := @jintPart_natChars n.natAbs rest (numStop_digStop hr)
      rwa [hct, List.cons_append] at this
    have hv : (1 : Int) * (digVal (c :: t) : Int) = n := by
      rw [← hct, digVal_natChars]; omega
    rw [habs]
    simp only [jnumTok, List.head?_cons, hip]
    simp [hip, hcm, hdot, he, hE, hv]

/-! ### String-literal lemmas -/

theorem jescChar_plain {c : Char} (hc : chOk c = true) (hq : c ≠ '"') (hb : c ≠ '\\') :
    jescChar c = [c] := by
  have h32 : 32 ≤ c.toNat := by
    simp only [chOk, Bool.and_eq_true, decide_eq_true_eq] at hc
    exact hc.1
  have hlt : ¬c.toNat < 32 := by omega
  have h8 : c ≠ Char.ofNat 8 := fun h => by rw [h] at h32; simp at h32
  have h9 : c ≠ Char.ofNat 9 := fun h => by rw [h] at h32; simp at h32
  have h10 : c ≠ Char.ofNat 10 := fun h => by rw [h] at h32; simp at h32
  have h12 : c ≠ Char.ofNat 12 := fun h => by rw [h] at h32; simp at h32
  have h13 : c ≠ Char.ofNat 13 := fun h => by rw [h] at h32; simp at h32
  simp [jescChar, hq, hb, h8, h9, h10, h12, h13, hlt]

theorem jstrBodyF_block : ∀ (fu : Nat) (s : Str), strOk s = true →
    ∀ (acc rest : Str), (s.flatMap jescChar ++ '"' :: rest).length < fu →
    jstrBodyF fu acc (s.flatMap jescChar ++ '"' :: rest) = some (acc.reverse ++ s, rest)
  | 0, s, _, _, rest, h => absurd h (by omega)
  | fu + 1, [], _, acc, rest, h => by
    simp [jstrBodyF]
  | fu + 1, c :: t, hs, acc, rest, h => by
    simp only [strOk, List.all_cons, Bool.and_eq_true] at hs
    have h32 : 32 ≤ c.toNat ∧ c.toNat ≤ 126 := by
      have := hs.1
      simp only [chOk, Bool.and_eq_true, decide_eq_true_eq] at this
      exact this
    rw [List.flatMap_cons, List.append_assoc] at h ⊢
    by_cases hq : c = '"'
    · subst hq
      have e1 : jescChar '"' = ['\\', '"'] := by simp [jescChar]
      rw [e1] at h ⊢
      simp only [List.length_append, List.length_cons, List.length_flatMap] at h
      obtain ⟨g, rfl⟩ : ∃ g, fu = g + 1 := ⟨fu - 1, by omega⟩
      have ht := jstrBodyF_block g t (by simp [strOk, hs.2]) ('"' :: acc) rest
        (by simp only [List.length_append, List.length_cons, List.length_flatMap]; omega)
      simp only [List.cons_append, List.nil_append]
      rw [jstrBodyF]
      simp only [reduceIte]
      rw [jescF]
      · simp only [unesc]
        rw [ht]
        simp
      · intros
        rename_i heq _
        exact absurd heq (by decide)
      · intros
        rename_i heq _
        exact absurd heq (by decide)
    · by_cases hb : c = '\\'
      · subst hb
        have e1 : jescChar '\\' = ['\\', '\\'] := by simp [jescChar]
        rw [e1] at h ⊢
        simp only [List.length_append, List.length_cons, List.length_flatMap] at h
        obtain ⟨g, rfl⟩ : ∃ g, fu = g + 1 := ⟨fu - 1, by omega⟩
        have ht := jstrBodyF_block g t (by simp [strOk, hs.2]) ('\\' :: acc) rest
          (by simp only [List.length_append, List.length_cons, List.length_flatMap]; omega)
        simp only [List.cons_append, List.nil_append]
        rw [jstrBodyF]
        simp only [reduceIte]
        rw [jescF]
        · simp only [unesc]
          rw [ht]
          simp
        · intros
          rename_i heq _
          exact absurd heq (by decide)
        · intros
          rename_i heq _
          exact absurd heq (by decide)
      · rw [jescChar_plain hs.1 hq hb] at h ⊢
        simp only [List.length_append, List.length_cons, List.length_flatMap] at h
        have ht := jstrBodyF_block fu t (by simp [strOk, hs.2]) (c :: acc) rest
          (by simp only [List.length_append, List.length_cons, List.length_flatMap]; omega)
        simp only [List.cons_append, List.nil_append]
        rw [jstrBodyF]
        simp only [if_neg hq, if_neg hb, if_neg (by omega : ¬c.toNat < 32)]
        rw [ht]
        simp

theorem jstrBody_block {s : Str} (hs : strOk s = true) (acc rest : Str) :
    jstrBody acc (s.flatMap jescChar ++ '"' :: rest) = some (acc.reverse ++ s, rest) :=
  jstrBodyF_block _ s hs acc rest (by omega)

/-! ### The JSON codec round trip -/

theorem jsize_pos (j : Json) : 1 ≤ jsize j := by
  cases j <;> simp [jsize]

theorem wsDrop_cons {c : Char} {t : Str} (hc : jws c = false) :
    wsDrop (c :: t) = c :: t := by
  simp [wsDrop, hc]

/-- Character facts needed to steer `jval`'s dispatch around a digit head. -/
theorem dig_facts {c : Char} (hc : isDig c = true) :
    jws c = false ∧ c ≠ 'n' ∧ c ≠ 't' ∧ c ≠ 'f' ∧ c ≠ '"' ∧ c ≠ '[' ∧
      c ≠ '\x7b' ∧ c ≠ '-' ∧ c ≠ ']' ∧ c ≠ ',' ∧ c ≠ '\x7d' := by
  simp only [isDig, Bool.and_eq_true, decide_eq_true_eq] at hc
  have h1 : 48 ≤ c.toNat := hc.1
  have h2 : c.toNat ≤ 57 := hc.2
  refine ⟨?_, ?_, ?_, ?_, ?_, ?_, ?_, ?_, ?_, ?_, ?_⟩
  · simp only [jws, Bool.or_eq_false_iff, decide_eq_false_iff_not]
    refine ⟨⟨⟨fun h => ?_, fun h => ?_⟩, fun h => ?_⟩, fun h => ?_⟩ <;>
      (rw [h] at h1 h2; simp at h1 h2)
  all_goals (intro h; rw [h] at h1 h2; simp at h1 h2)

theorem intChars_cons (n : Int) :
    ∃ c t, intChars n = c :: t ∧ (isDig c = true ∨ c = '-') := by
  by_cases hneg : n < 0
  · exact ⟨'-', natChars n.natAbs, by simp [intChars, hneg], Or.inr rfl⟩
  · obtain ⟨c, t, hct⟩ : ∃ c t, natChars n.natAbs = c :: t := by
      cases hh : natChars n.natAbs with
      | nil => exact absurd hh (natChars_ne_nil _)
      | cons a b => exact ⟨a, b, rfl⟩
    refine ⟨c, t, by simp [intChars, hneg, hct], Or.inl ?_⟩
    exact natChars_digits _ c (hct ▸ List.mem_cons_self ..)

/-- `jval` hands a digit- or minus-headed input to the number tokenizer. -/
theorem jval_num_dispatch (fuel : Nat) {c : Char} (r : Str)
    (hc : isDig c = true ∨ c = '-') :
    jval (fuel + 1) (c :: r) = jnumTok (c :: r) := by
  have hfacts : jws c = false ∧ c ≠ 'n' ∧ c ≠ 't' ∧ c ≠ 'f' ∧ c ≠ '"' ∧ c ≠ '[' ∧
      c ≠ '\x7b' ∧ c ≠ ']' ∧ c ≠ ',' := by
    rcases hc with hc | hc
    · obtain ⟨a, b, c', d, e, f, g, -, i, j, -⟩ := dig_facts hc
      exact ⟨a, b, c', d, e, f, g, i, j⟩
    · subst hc
      exact ⟨by decide, by decide, by decide, by decide, by decide, by decide,
        by decide, by decide, by decide⟩
  obtain ⟨hws, hn, ht, hf, hq, hlb, hob, -, -⟩ := hfacts
  have hcond : (decide (c = '-') || isDig c) = true := by
    rcases hc with hc | hc <;> simp [hc]
  rw [jval.eq_def]
  simp only
  rw [wsDrop_cons hws]
  split
  · rename_i heq; rw [List.cons.injEq] at heq; exact absurd heq.1 hn
  · rename_i heq; rw [List.cons.injEq] at heq; exact absurd heq.1 ht
  · rename_i heq; rw [List.cons.injEq] at heq; exact absurd heq.1 hf
  · rename_i heq; rw [List.cons.injEq] at heq; exact absurd heq.1 hq
  · rename_i heq; rw [List.cons.injEq] at heq; exact absurd heq.1 hlb
  · rename_i heq; rw [List.cons.injEq] at heq; exact absurd heq.1 hob
  · rename_i c1 r1 heq
    rw [List.cons.injEq] at heq
    obtain ⟨rfl, rfl⟩ := heq
    rw [if_pos hcond]
  · rename_i heq; cases heq

/-- Heads of rendered values: never whitespace, `]`, or a closing brace. -/
theorem jprint_cons (j : Json) (hg : jgood j = true) :
    ∃ c t, jprint j = c :: t ∧ jws c = false ∧ c ≠ ']' ∧ c ≠ Char.ofNat 125 := by
  cases j with
  | jnull => exact ⟨'n', _, rfl, rfl, by decide, by decide⟩
  | jbool b =>
    cases b with
    | true => exact ⟨'t', _, rfl, rfl, by decide, by decide⟩
    | false => exact ⟨'f', _, rfl, rfl, by decide, by decide⟩
  | jnum n =>
    obtain ⟨c, t, hct, hc⟩ := intChars_cons n
    rcases hc with hc | hc
    · obtain ⟨a, -, -, -, -, -, -, -, i, -, k⟩ := dig_facts hc
      exact ⟨c, t, by rw [jprint_num, hct], a, i, k⟩
    · subst hc
      exact ⟨'-', t, by rw [jprint_num, hct], by decide, by decide, by decide⟩
  | jnumNI l => simp [jgood] at hg
  | jstr s =>
    exact ⟨'"', s.flatMap jescChar ++ ['"'], by rw [jprint_str]; rfl,
      by decide, by decide, by decide⟩
  | jarr es =>
    exact ⟨'[', jprintElems es ++ [']'], jprint_arr es,
      by decide, by decide, by decide⟩
  | jobj fs =>
    exact ⟨'\x7b', jprintFields fs ++ ['\x7d'], jprint_obj fs,
      by decide, by decide, by decide⟩

theorem jprintElems_decomp (e : Json) (t : List Json) :
    ∃ X, jprintElems (e :: t) = jprint e ++ X := by
  cases t with
  | nil => exact ⟨[], by rw [jprintElems_single]; simp⟩
  | cons e2 t2 => exact ⟨',' :: jprintElems (e2 :: t2), jprintElems_cons e e2 t2⟩

theorem jprintFields_decomp (k : Str) (v : Json) (t : List (Str × Json)) :
    ∃ X, jprintFields ((k, v) :: t) = '"' :: X := by
  cases t with
  | nil =>
    exact ⟨k.flatMap jescChar ++ '"' :: ':' :: jprint v,
      by rw [jprintFields_single]; simp [jstrChars]⟩
  | cons f2 t2 =>
    exact ⟨k.flatMap jescChar ++ '"' :: ':' :: (jprint v ++ ',' :: jprintFields (f2 :: t2)),
      by rw [jprintFields_cons]; simp [jstrChars]⟩

mutual
theorem jval_print : ∀ (fuel : Nat) (j : Json) (rest : Str),
    jgood j = true → jsize j ≤ fuel → numStop rest →
    jval fuel (jprint j ++ rest) = some (j, rest)
  | 0, j, _, _, hsz, _ => by
    have := jsize_pos j
    omega
  | fuel + 1, j, rest, hg, hsz, hr => by
    cases j with
    | jnull => rfl
    | jbool b => cases b <;> rfl
    | jnum n =>
      obtain ⟨c, t, hct, hc⟩ := intChars_cons n
      have hd : jval (fuel + 1) (c :: (t ++ rest)) = jnumTok (c :: (t ++ rest)) :=
        jval_num_dispatch fuel _ hc
      have he : jprint (.jnum n) ++ rest = c :: (t ++ rest) := by
        simp [jprint_num, hct]
      rw [he, hd, show c :: (t ++ rest) = intChars n ++ rest by simp [hct]]
      exact jnumTok_int n hr
    | jnumNI l => simp [jgood] at hg
    | jstr s =>
      have hs : strOk s = true := by simpa [jgood] using hg
      have hb := jstrBody_block hs [] rest
      have he : jprint (.jstr s) ++ rest =
          '"' :: (s.flatMap jescChar ++ '"' :: rest) := by
        simp [jprint_str, jstrChars]
      rw [he, jval.eq_def]
      simp only [wsDrop_cons (show jws '"' = false by decide)]
      rw [hb]
      simp
    | jarr es =>
      cases es with
      | nil =>
        have he : jprint (.jarr []) ++ rest = '[' :: ']' :: rest := by
          simp [jprint_arr, jprintElems_nil]
        rw [he]
        rfl
      | cons e t =>
        have hgL : jgoodL (e :: t) = true := by simpa [jgood] using hg
        have hge : jgood e = true := by
          simp only [jgoodL, Bool.and_eq_true] at hgL
          exact hgL.1
        have hsub : jseq fuel (jprintElems (e :: t) ++ ']' :: rest) = some (e :: t, rest) := by
          apply jseq_print fuel (e :: t) rest hgL
          · simp only [jsize] at hsz
            omega
          · simp
        obtain ⟨X, hX⟩ := jprintElems_decomp e t
        obtain ⟨c, ct, hct, hws, hrb, -⟩ := jprint_cons e hge
        have hE : jprintElems (e :: t) ++ ']' :: rest = c :: (ct ++ (X ++ ']' :: rest)) := by
          rw [hX, hct]
          simp
        have he : jprint (.jarr (e :: t)) ++ rest =
            '[' :: (jprintElems (e :: t) ++ ']' :: rest) := by
          simp [jprint_arr]
        rw [he, jval.eq_def]
        simp only [wsDrop_cons (show jws '[' = false by decide)]
        rw [hE, wsDrop_cons hws]
        split
        · rename_i heq
          rw [List.cons.injEq] at heq
          exact absurd heq.1 hrb
        · rw [← hE, hsub]
    | jobj fs =>
      cases fs with
      | nil =>
        have he : jprint (.jobj []) ++ rest =
            '\x7b' :: '\x7d' :: rest := by
          simp [jprint_obj, jprintFields_nil]
        rw [he]
        rfl
      | cons f t =>
        obtain ⟨k, v⟩ := f
        have hgF : jgoodF ((k, v) :: t) = true := by simpa [jgood] using hg
        have hsub : jmems fuel (jprintFields ((k, v) :: t) ++ '\x7d' :: rest) =
            some ((k, v) :: t, rest) := by
          apply jmems_print fuel ((k, v) :: t) rest hgF
          · simp only [jsize] at hsz
            omega
          · simp
        obtain ⟨X, hX⟩ := jprintFields_decomp k v t
        have hE : jprintFields ((k, v) :: t) ++ '\x7d' :: rest =
            '"' :: (X ++ '\x7d' :: rest) := by
          rw [hX]
          simp
        have he : jprint (.jobj ((k, v) :: t)) ++ rest =
            '\x7b' :: (jprintFields ((k, v) :: t) ++ '\x7d' :: rest) := by
          simp [jprint_obj]
        rw [he, jval.eq_def]
        simp only [wsDrop_cons (show jws '\x7b' = false by decide)]
        rw [hE, wsDrop_cons (show jws '"' = false by decide)]
        split
        · rename_i heq
          rw [List.cons.injEq] at heq
          exact absurd heq.1 (by decide)
        · rw [← hE, hsub]

theorem jseq_print : ∀ (fuel : Nat) (es : List Json) (rest : Str),
    jgoodL es = true → jsizeL es ≤ fuel → es ≠ [] →
    jseq fuel (jprintElems es ++ ']' :: rest) = some (es, rest)
  | 0, [], _, _, _, hne => absurd rfl hne
  | 0, e :: t, _, _, hsz, _ => by
    simp only [jsizeL] at hsz
    omega
  | fuel + 1, [], _, _, _, hne => absurd rfl hne
  | fuel + 1, e :: t, rest, hg, hsz, _ => by
    simp only [jgoodL, Bool.and_eq_true] at hg
    simp only [jsizeL] at hsz
    cases t with
    | nil =>
      have hv : jval fuel (jprint e ++ ']' :: rest) = some (e, ']' :: rest) :=
        jval_print fuel e (']' :: rest) hg.1 (by omega)
          ⟨by decide, by decide, by decide, by decide⟩
      have he : jprintElems [e] ++ ']' :: rest = jprint e ++ ']' :: rest := by
        rw [jprintElems_single]
      rw [he, jseq.eq_def]
      simp only [hv]
      rfl
    | cons e2 t2 =>
      have hv : jval fuel (jprint e ++ ',' :: (jprintElems (e2 :: t2) ++ ']' :: rest)) =
          some (e, ',' :: (jprintElems (e2 :: t2) ++ ']' :: rest)) :=
        jval_print fuel e _ hg.1 (by omega)
          ⟨by decide, by decide, by decide, by decide⟩
      have hrec : jseq fuel (jprintElems (e2 :: t2) ++ ']' :: rest) =
          some (e2 :: t2, rest) :=
        jseq_print fuel (e2 :: t2) rest hg.2 (by simp only [jsizeL] at *; omega) (by simp)
      have he : jprintElems (e :: e2 :: t2) ++ ']' :: rest =
          jprint e ++ ',' :: (jprintElems (e2 :: t2) ++ ']' :: rest) := by
        simp [jprintElems_cons]
      rw [he, jseq.eq_def]
      simp only [hv]
      rw [wsDrop_cons (show jws ',' = false by decide)]
      simp only [hrec]

theorem jmems_print : ∀ (fuel : Nat) (fs : List (Str × Json)) (rest : Str),
    jgoodF fs = true → jsizeF fs ≤ fuel → fs ≠ [] →
    jmems fuel (jprintFields fs ++ '\x7d' :: rest) = some (fs, rest)
  | 0, [], _, _, _, hne => absurd rfl hne
  | 0, (k, v) :: t, _, _, hsz, _ => by
    simp only [jsizeF] at hsz
    omega
  | fuel + 1, [], _, _, _, hne => absurd rfl hne
  | fuel + 1, (k, v) :: t, rest, hg, hsz, _ => by
    simp only [jgoodF, Bool.and_eq_true] at hg
    simp only [jsizeF] at hsz
    obtain ⟨⟨⟨hk, hfr⟩, hv⟩, ht⟩ := hg
    cases t with
    | nil =>
      have hval : jval fuel (jprint v ++ '\x7d' :: rest) =
          some (v, '\x7d' :: rest) :=
        jval_print fuel v _ hv (by omega)
          ⟨by decide, by decide, by decide, by decide⟩
      have he : jprintFields [(k, v)] ++ '\x7d' :: rest =
          '"' :: (k.flatMap jescChar ++ '"' :: (':' :: (jprint v ++ '\x7d' :: rest))) := by
        rw [jprintFields_single]
        simp [jstrChars]
      rw [he, jmems.eq_def]
      simp only [wsDrop_cons (show jws '"' = false by decide)]
      rw [jstrBody_block hk [] _]
      simp only [List.reverse_nil, List.nil_append,
        wsDrop_cons (show jws ':' = false by decide)]
      rw [hval]
      simp only [wsDrop_cons (show jws '\x7d' = false by decide)]
    | cons f2 t2 =>
      have hval : jval fuel
          (jprint v ++ ',' :: (jprintFields (f2 :: t2) ++ '\x7d' :: rest)) =
          some (v, ',' :: (jprintFields (f2 :: t2) ++ '\x7d' :: rest)) :=
        jval_print fuel v _ hv (by omega)
          ⟨by decide, by decide, by decide, by decide⟩
      have hrec : jmems fuel (jprintFields (f2 :: t2) ++ '\x7d' :: rest) =
          some (f2 :: t2, rest) :=
        jmems_print fuel (f2 :: t2) rest ht (by simp only [jsizeF] at *; omega) (by simp)
      have he : jprintFields ((k, v) :: f2 :: t2) ++ '\x7d' :: rest =
          '"' :: (k.flatMap jescChar ++ '"' ::
            (':' :: (jprint v ++ ',' :: (jprintFields (f2 :: t2) ++ '\x7d' :: rest)))) := by
        rw [jprintFields_cons]
        simp [jstrChars]
      rw [he, jmems.eq_def]
      simp only [wsDrop_cons (show jws '"' = false by decide)]
      rw [jstrBody_block hk [] _]
      simp only [List.reverse_nil, List.nil_append,
        wsDrop_cons (show jws ':' = false by decide)]
      rw [hval]
      simp only [wsDrop_cons (show jws ',' = false by decide)]
      rw [hrec]
      have hfr2 : ((f2 :: t2).any fun f => f.1 == k) = false := by
        cases hany : (f2 :: t2).any fun f => f.1 == k with
        | false => rfl
        | true => rw [hany] at hfr; exact absurd hfr (by decide)
      show some (jfieldPut k v (f2 :: t2), rest) = _
      rw [jfieldPut_fresh k v (f2 :: t2) hfr2]
end

mutual
theorem jsize_le : ∀ (j : Json), jgood j = true → jsize j ≤ (jprint j).length
  | .jnull, _ => by simp [jsize, show jprint .jnull = ['n', 'u', 'l', 'l'] from rfl]
  | .jbool b, _ => by cases b <;> simp [jsize, jprint_bool]
  | .jnum n, _ => by
    have := natChars_ne_nil n.natAbs
    simp only [jsize, jprint_num, intChars, List.length_append]
    cases h : natChars n.natAbs with
    | nil => exact absurd h this
    | cons a t =>
      simp only [h, List.length_cons]
      omega
  | .jnumNI l, hg => by simp [jgood] at hg
  | .jstr s, _ => by simp [jsize, jprint_str, jstrChars]
  | .jarr es, hg => by
    have h := jsizeL_le es (by simpa [jgood] using hg)
    simp only [jsize, jprint_arr, List.length_cons, List.length_append,
      List.length_singleton]
    omega
  | .jobj fs, hg => by
    have h := jsizeF_le fs (by simpa [jgood] using hg)
    simp only [jsize, jprint_obj, List.length_cons, List.length_append,
      List.length_singleton]
    omega

theorem jsizeL_le : ∀ (es : List Json), jgoodL es = true →
    jsizeL es ≤ (jprintElems es).length + 1
  | [], _ => by simp [jsizeL]
  | [e], hg => by
    have h := jsize_le e (by simpa [jgoodL] using hg)
    simp only [jsizeL, jprintElems_single]
    omega
  | e :: e2 :: t, hg => by
    simp only [jgoodL, Bool.and_eq_true] at hg
    have h1 := jsize_le e hg.1
    have h2 := jsizeL_le (e2 :: t) (by simp [jgoodL, hg.2.1, hg.2.2])
    simp only [jsizeL, jprintElems_cons, List.length_append, List.length_cons] at *
    omega

theorem jsizeF_le : ∀ (fs : List (Str × Json)), jgoodF fs = true →
    jsizeF fs ≤ (jprintFields fs).length + 1
  | [], _ => by simp [jsizeF]
  | [(k, v)], hg => by
    simp only [jgoodF, Bool.and_eq_true] at hg
    have h := jsize_le v hg.1.2
    simp only [jsizeF, jprintFields_single, jstrChars, List.length_append,
      List.length_cons]
    omega
  | (k, v) :: f2 :: t, hg => by
    simp only [jgoodF, Bool.and_eq_true] at hg
    have h1 := jsize_le v hg.1.2
    have h2 := jsizeF_le (f2 :: t)
      (by simp only [jgoodF, Bool.and_eq_true]; exact hg.2)
    simp only [jsizeF, jprintFields_cons, jstrChars, List.length_append,
      List.length_cons] at *
    omega
end

/-- The JSON codec round trip: parsing a rendered wellformed value recovers
it exactly. -/
theorem jparse_jprint (j : Json) (hg : jgood j = true) : jparse (jprint j) = some j := by
  have h2 := jval_print ((jprint j).length + 1) j [] hg
    (le_trans (jsize_le j hg) (by omega)) trivial
  rw [List.append_nil] at h2
  rw [jparse, h2]
  rfl

/-! ## Percent-coding: `encodeURIComponent` / `decodeURIComponent` -/

/-- The characters `encodeURIComponent` leaves unescaped. -/
def unreserved (c : Char) : Bool :=
  (65 ≤ c.toNat && c.toNat ≤ 90) || (97 ≤ c.toNat && c.toNat ≤ 122) ||
  (48 ≤ c.toNat && c.toNat ≤ 57) ||
  c = '-' || c = '_' || c = '.' || c = '!' || c = '~' || c = '*' ||
  c = Char.ofNat 39 || c = '(' || c = ')'

/-- Uppercase hex digit, as `encodeURIComponent` emits. -/
def hexU (n : Nat) : Char :=
  if n < 10 then Char.ofNat (48 + n) else Char.ofNat (55 + n)

/-- UTF-8 bytes of a scalar value. -/
def utf8Bytes (n : Nat) : List Nat :=
  if n < 0x80 then [n]
  else if n < 0x800 then [0xC0 + n / 64, 0x80 + n % 64]
  else if n < 0x10000 then [0xE0 + n / 4096, 0x80 + (n / 64) % 64, 0x80 + n % 64]
  else [0xF0 + n / 262144, 0x80 + (n / 4096) % 64, 0x80 + (n / 64) % 64, 0x80 + n % 64]

/-- `%XX` escape of one byte. -/
def pctHex (b : Nat) : Str := ['%', hexU (b / 16), hexU (b % 16)]

/-- `encodeURIComponent`. -/
def encURI (s : Str) : Str :=
  s.flatMap fun c =>
    if unreserved c then [c] else (utf8Bytes c.toNat).flatMap pctHex

/-- UTF-8 continuation byte. -/
def contB (n : Nat) : Bool := 0x80 ≤ n && n ≤ 0xBF

mutual
/-- `decodeURIComponent` worker: percent-escapes become UTF-8 bytes, decoded
and validated; `none` models the `URIError` throw on any malformed escape.
`fu` is recursion fuel so that the definition is structural. -/
def decURIF : Nat → Str → Option Str
  | 0, _ => none
  | fu + 1, s =>
    match s with
    | [] => some []
    | '%' :: a :: b :: r =>
      (match hexVal a, hexVal b with
      | some x, some y =>
        let b1 := x * 16 + y
        if b1 < 0x80 then (decURIF fu r).map (Char.ofNat b1 :: ·)
        else if 0xC2 ≤ b1 && b1 ≤ 0xDF then dec2F fu b1 r
        else if 0xE0 ≤ b1 && b1 ≤ 0xEF then dec3F fu b1 r
        else if 0xF0 ≤ b1 && b1 ≤ 0xF4 then dec4F fu b1 r
        else none
      | _, _ => none)
    | '%' :: _ => none
    | c :: r => (decURIF fu r).map (c :: ·)

/-- Second byte of a two-byte UTF-8 sequence. -/
def dec2F (fu : Nat) (b1 : Nat) : Str → Option Str
  | '%' :: a2 :: b2 :: r2 =>
    (match hexVal a2, hexVal b2 with
    | some x2, some y2 =>
      let v2 := x2 * 16 + y2
      if contB v2 then
        (decURIF fu r2).map (Char.ofNat ((b1 - 0xC0) * 64 + (v2 - 0x80)) :: ·)
      else none
    | _, _ => none)
  | _ => none

/-- Continuation bytes of a three-byte UTF-8 sequence (surrogate scalar
values are a `URIError`). -/
def dec3F (fu : Nat) (b1 : Nat) : Str → Option Str
  | '%' :: a2 :: b2 :: '%' :: a3 :: b3 :: r3 =>
    (match hexVal a2, hexVal b2, hexVal a3, hexVal b3 with
    | some x2, some y2, some x3, some y3 =>
      let v2 := x2 * 16 + y2
      let v3 := x3 * 16 + y3
      if contB v2 && contB v3 then
        let n := (b1 - 0xE0) * 4096 + (v2 - 0x80) * 64 + (v3 - 0x80)
        if 0x800 ≤ n && !(0xD800 ≤ n && n ≤ 0xDFFF) then
          (decURIF fu r3).map (Char.ofNat n :: ·)
        else none
      else none
    | _, _, _, _ => none)
  | _ => none

/-- Continuation bytes of a four-byte UTF-8 sequence. -/
def dec4F (fu : Nat) (b1 : Nat) : Str → Option Str
  | '%' :: a2 :: b2 :: '%' :: a3 :: b3 :: '%' :: a4 :: b4 :: r4 =>
    (match hexVal a2, hexVal b2, hexVal a3, hexVal b3, hexVal a4, hexVal b4 with
    | some x2, some y2, some x3, some y3, some x4, some y4 =>
      let v2 := x2 * 16 + y2
      let v3 := x3 * 16 + y3
      let v4 := x4 * 16 + y4
      if contB v2 && contB v3 && contB v4 then
        let n := (b1 - 0xF0) * 262144 + (v2 - 0x80) * 4096 +
          (v3 - 0x80) * 64 + (v4 - 0x80)
        if 0x10000 ≤ n && n ≤ 0x10FFFF then
          (decURIF fu r4).map (Char.ofNat n :: ·)
        else none
      else none
    | _, _, _, _, _, _ => none)
  | _ => none
end

/-- `decodeURIComponent`. -/
def decURI (s : Str) : Option Str := decURIF (s.length + 1) s

/-- `isEncoded` from the source: percent-decoding both succeeds and changes
the string. -/
def isEncoded (value : Str) : Bool :=
  match decURI value with
  | some t => t ≠ value
  | none => false

/-- `needsEncoding` from the source: `/[&=#]/.test(value)`. -/
def needsEncoding (value : Str) : Bool :=
  value.any fun c => c = '&' || c = '=' || c = '#'

/-! ### Percent-coding lemmas -/

theorem hexVal_hexU (k : Nat) (h : k < 16) : hexVal (hexU k) = some k := by
  interval_cases k <;> decide

theorem unres_ne_pct {c : Char} (h : unreserved c = true) : c ≠ '%' := by
  intro he
  subst he
  simp [unreserved] at h

theorem decURIF_no_pct : ∀ (fu : Nat) (s : Str), s.length < fu → '%' ∉ s →
    decURIF fu s = some s
  | 0, s, h, _ => absurd h (by omega)
  | fu + 1, [], _, _ => rfl
  | fu + 1, c :: t, h, hp => by
    have hc : c ≠ '%' := fun he => hp (he ▸ List.mem_cons_self ..)
    have ht := decURIF_no_pct fu t (by simp at h; omega)
      (fun hm => hp (List.mem_cons_of_mem _ hm))
    rw [decURIF.eq_def]
    simp only
    split
    · rename_i heq; cases heq
    · rename_i heq
      rw [List.cons.injEq] at heq
      exact absurd heq.1 hc
    · rename_i heq
      rw [List.cons.injEq] at heq
      exact absurd heq.1 hc
    · rename_i c1 r1 heq
      rw [List.cons.injEq] at heq
      obtain ⟨rfl, rfl⟩ := heq
      rw [ht]
      rfl

theorem decURI_no_pct {s : Str} (h : '%' ∉ s) : decURI s = some s :=
  decURIF_no_pct (s.length + 1) s (by omega) h

theorem isEncoded_no_pct {s : Str} (h : '%' ∉ s) : isEncoded s = false := by
  simp [isEncoded, decURI_no_pct h]

theorem encURI_block (c : Char) (t : Str) : encURI (c :: t) =
    (if unreserved c then [c]
     else (utf8Bytes c.toNat).flatMap pctHex) ++ encURI t := by
  simp [encURI]

/-- Percent-decoding inverts `encodeURIComponent` on printable ASCII. -/
theorem decURIF_encURI : ∀ (fu : Nat) (s : Str), strOk s = true →
    (encURI s).length < fu → decURIF fu (encURI s) = some s
  | 0, _, _, h => absurd h (by omega)
  | fu + 1, [], _, _ => rfl
  | fu + 1, c :: t, hs, h => by
    simp only [strOk, List.all_cons, Bool.and_eq_true] at hs
    have hc32 : 32 ≤ c.toNat ∧ c.toNat ≤ 126 := by
      have := hs.1
      simp only [chOk, Bool.and_eq_true, decide_eq_true_eq] at this
      exact this
    rw [encURI_block] at h ⊢
    by_cases hu : unreserved c = true
    · rw [if_pos hu] at h ⊢
      have ht := decURIF_encURI fu t (by simp [strOk, hs.2])
        (by simp at h; omega)
      rw [List.cons_append, List.nil_append, decURIF.eq_def]
      simp only
      split
      · rename_i heq; cases heq
      · rename_i heq
        rw [List.cons.injEq] at heq
        exact absurd heq.1 (unres_ne_pct hu)
      · rename_i heq
        rw [List.cons.injEq] at heq
        exact absurd heq.1 (unres_ne_pct hu)
      · rename_i c1 r1 heq
        rw [List.cons.injEq] at heq
        obtain ⟨rfl, rfl⟩ := heq
        rw [ht]
        rfl
    · rw [if_neg hu] at h ⊢
      have hb : utf8Bytes c.toNat = [c.toNat] := by
        simp only [utf8Bytes]
        rw [if_pos (by omega)]
      rw [hb] at h ⊢
      have hx1 := hexVal_hexU (c.toNat / 16) (by omega)
      have hx2 := hexVal_hexU (c.toNat % 16) (by omega)
      simp only [List.flatMap_cons, List.flatMap_nil, pctHex, List.append_nil,
        List.cons_append, List.nil_append] at h ⊢
      have ht := decURIF_encURI fu t (by simp [strOk, hs.2])
        (by simp only [List.length_cons] at h; omega)
      rw [decURIF]
      simp only [hx1, hx2]
      have hv : c.toNat / 16 * 16 + c.toNat % 16 = c.toNat := by omega
      rw [hv, if_pos (by omega : c.toNat < 0x80), ht]
      simp [Char.ofNat_toNat]

theorem decURI_encURI {s : Str} (hs : strOk s = true) : decURI (encURI s) = some s :=
  decURIF_encURI _ s hs (by omega)

/-- Every character's scalar value is below 0x110000. -/
theorem char_toNat_lt (c : Char) : c.toNat < 1114112 := by
  have h := c.valid
  simp only [UInt32.isValidChar, Nat.isValidChar] at h
  rcases h with h | h <;> (simp only [Char.toNat]; omega)

/-- UTF-8 bytes are bytes. -/
theorem utf8Bytes_lt {n : Nat} (hn : n < 1114112) :
    ∀ b ∈ utf8Bytes n, b < 256 := by
  intro b hb
  simp only [utf8Bytes] at hb
  split at hb
  · simp only [List.mem_singleton] at hb
    omega
  · split at hb
    · simp only [List.mem_cons, List.mem_singleton] at hb
      rcases hb with rfl | rfl | h
      · omega
      · omega
      · cases h
    · split at hb
      · simp only [List.mem_cons, List.mem_singleton] at hb
        rcases hb with rfl | rfl | rfl | h
        · omega
        · omega
        · omega
        · cases h
      · simp only [List.mem_cons, List.mem_singleton] at hb
        rcases hb with rfl | rfl | rfl | rfl | h
        · omega
        · omega
        · omega
        · omega
        · cases h

/-- Characters that can appear in `encodeURIComponent` output. -/
def encOK (c : Char) : Bool :=
  unreserved c || c = '%' || (65 ≤ c.toNat && c.toNat ≤ 70)

theorem hexU_encOK (k : Nat) (h : k < 16) : encOK (hexU k) = true := by
  interval_cases k <;> decide

theorem encURI_chars {s : Str} {c : Char} (h : c ∈ encURI s) : encOK c = true := by
  induction s with
  | nil => cases h
  | cons a t ih =>
    have hsplit : encURI (a :: t) =
        (if unreserved a then [a]
         else (utf8Bytes a.toNat).flatMap pctHex) ++ encURI t := by
      simp [encURI]
    rw [hsplit, List.mem_append] at h
    rcases h with h | h
    · by_cases hu : unreserved a = true
      · rw [if_pos hu, List.mem_singleton] at h
        subst h
        simp [encOK, hu]
      · rw [if_neg hu, List.mem_flatMap] at h
        obtain ⟨b, hbm, hb⟩ := h
        have hblt : b < 256 := utf8Bytes_lt (char_toNat_lt a) b hbm
        simp only [pctHex, List.mem_cons, List.mem_singleton] at hb
        rcases hb with rfl | rfl | rfl | hfalse
        · decide
        · exact hexU_encOK _ (by omega)
        · exact hexU_encOK _ (by omega)
        · cases hfalse
    · exact ih h

/-! ## The repository model (`src/index.ts`)

`Value` is the in-memory value space the repository's `stringify` consumes:
JS primitives, `Date` (carried as its `toISOString()` rendering), arrays,
plain objects, and `Map`/`Set` whose contents are JSON-representable (the
spec's MapLike/SetLike contract). -/

inductive Value where
  | vnull
  | vbool (b : Bool)
  | vnum (n : Int)
  | vstr (s : Str)
  | vdate (iso : Str)
  | varr (xs : List Value)
  | vobj (fs : List (Str × Value))
  | vmap (es : List (Json × Json))
  | vset (es : List Json)

compile_inductive% Value

/-- `'camelCase' | 'snake_case' | 'kebab-case'`. -/
inductive QsCase where
  | camel
  | snake
  | kebab
deriving DecidableEq

/-- The lodash case-conversion utilities, abstracted (the repository treats
them as external word-boundary rewriters). -/
structure CaseFuns where
  camel : Str → Str
  snake : Str → Str
  kebab : Str → Str

/-- `lodash` SameValueZero on the modelled values: primitives compare by
value; dates, arrays, objects, maps and sets compare by reference, and two
separately constructed literals are never reference-equal. -/
def svz : Value → Value → Bool
  | .vnull, .vnull => true
  | .vbool a, .vbool b => a == b
  | .vnum a, .vnum b => a == b
  | .vstr a, .vstr b => a == b
  | _, _ => false

/-- `omitValues?: any[] | ((value, key) => boolean)`. -/
inductive OmitSpec where
  | list (vs : List Value)
  | pred (f : Value → Str → Bool)

/-- `QsOptions` from the source.  `qcase` models the `case` field (a Lean
keyword); `pfx` models the `prefix` field.  `restoreCase : some none`
models an explicit `restoreCase: false`. -/
structure QsOptions where
  addQueryPrefix : Option Bool := none
  qcase : Option QsCase := none
  omitValues : Option OmitSpec := none
  pfx : Option Str := none
  restoreCase : Option (Option QsCase) := none

def applyCase (cf : CaseFuns) : QsCase → Str → Str
  | .camel => cf.camel
  | .snake => cf.snake
  | .kebab => cf.kebab

/-- One `.`-separated part of `transformKey`/`reverseTransformKey` (both
share this body in the source): split on `[`, case-convert the base when it
is truthy (nonempty), reattach the bracket groups unchanged; an empty base
collapses the whole part to the empty string. -/
def transformPart (cf : CaseFuns) (c : QsCase) (part : Str) : Str :=
  match part.splitOn '[' with
  | [] => []
  | basePart :: arrayParts =>
    if basePart ≠ [] then
      let casePart := applyCase cf c basePart
      if arrayParts.length > 0 then
        casePart ++ '[' :: List.intercalate ['['] arrayParts
      else casePart
    else []

/-- `transformKey(key, options)`. -/
def transformKey (cf : CaseFuns) (key : Str) (o : QsOptions) : Str :=
  match o.qcase with
  | none => key
  | some c => List.intercalate ['.'] ((key.splitOn '.').map (transformPart cf c))

/-- `options?.restoreCase ?? (options?.case ? 'camelCase' : false)`. -/
def resolvedRestore (o : QsOptions) : Option QsCase :=
  match o.restoreCase with
  | some r => r
  | none =>
    match o.qcase with
    | some _ => some .camel
    | none => none

/-- `reverseTransformKey(key, options)`. -/
def reverseTransformKey (cf : CaseFuns) (key : Str) (o : QsOptions) : Str :=
  match resolvedRestore o with
  | none => key
  | some c => List.intercalate ['.'] ((key.splitOn '.').map (transformPart cf c))

/-- The `prefix` option when it is truthy (a nonempty string). -/
def activePfx (o : QsOptions) : Option Str :=
  match o.pfx with
  | some p => if p = [] then none else some p
  | none => none

/-- `addPrefix(key, options)` from the source. -/
def addPfx (key : Str) (o : QsOptions) : Str :=
  match activePfx o with
  | none => key
  | some p => p ++ key

/-- `removePrefix(key, options)` from the source. -/
def removePfx (key : Str) (o : QsOptions) : Str :=
  match activePfx o with
  | none => key
  | some p => if p.isPrefixOf key then key.drop p.length else key

def isNilV : Value → Bool
  | .vnull => true
  | _ => false

def isObjectV : Value → Bool
  | .varr _ | .vobj _ | .vdate _ | .vmap _ | .vset _ => true
  | _ => false

def isDateV : Value → Bool
  | .vdate _ => true
  | _ => false

/-- `shouldOmitValue(value, key, options)`. -/
def shouldOmitValue (v : Value) (key : Str) (o : QsOptions) : Bool :=
  match o.omitValues with
  | none =>
    (match v with
    | .vnull => true
    | .vstr [] => true
    | .vmap [] => true
    | .vset [] => true
    | _ => false)
  | some (.list vs) => vs.any (svz v)
  | some (.pred f) => f v key

/-! ### `stringify` -/

/-- `[...map]` — the argument `JSON.stringify` receives for a Map: an array
of two-element `[key, value]` arrays. -/
def mapPayload (es : List (Json × Json)) : Json :=
  .jarr (es.map fun e => .jarr [e.1, e.2])

/-- `String(v)` on a non-nil primitive. -/
def strOfPrim : Value → Str
  | .vbool true => lit "true"
  | .vbool false => lit "false"
  | .vnum n => intChars n
  | .vstr s => s
  | _ => []

mutual

/-- `JSON.stringify` seen as a `Value → Json` coercion (dates via `toJSON`,
maps/sets to `{}`); only ever applied to plain objects: `processValue`
reaches its `isObject && !isArray` branch for no input produced by
`buildKeyValuePairs` (objects are recursed into, not emitted as leaves). -/
def jsonifyF : Nat → Value → Json
  | 0, _ => .jnull
  | fu + 1, v =>
    match v with
    | .vnull => .jnull
    | .vbool b => .jbool b
    | .vnum n => .jnum n
    | .vstr s => .jstr s
    | .vdate iso => .jstr iso
    | .vmap _ => .jobj []
    | .vset _ => .jobj []
    | .varr xs => .jarr (jsonifyListF fu xs)
    | .vobj fs => .jobj (jsonifyFieldsF fu fs)

def jsonifyListF : Nat → List Value → List Json
  | 0, _ => []
  | _, [] => []
  | fu + 1, x :: rest => jsonifyF fu x :: jsonifyListF fu rest

def jsonifyFieldsF : Nat → List (Str × Value) → List (Str × Json)
  | 0, _ => []
  | _, [] => []
  | fu + 1, f :: rest => (f.1, jsonifyF fu f.2) :: jsonifyFieldsF fu rest

end

def jsonify (v : Value) : Json := jsonifyF (sizeOf v) v

/-- `String(v)` on an array (`Array.prototype.toString`): elements joined
with `,`, nil elements blank; like `jsonify`, unreachable from
`buildKeyValuePairs` (arrays are expanded element-wise, never emitted as
leaves), so nested elements are coerced one level deep. -/
def strOfArr (xs : List Value) : Str :=
  List.intercalate [','] (xs.map strOfPrim)

/-- `processValue(value)` from `stringify`. -/
def processValue (v : Value) : Str :=
  match v with
  | .vnull => []
  | _ =>
    let sv : Str :=
      match v with
      | .vdate iso => iso
      | .vmap es => lit "map(" ++ jprint (mapPayload es) ++ [')']
      | .vset es => lit "set(" ++ jprint (.jarr es) ++ [')']
      | .vobj fs => jprint (jsonify (.vobj fs))
      | .varr xs => strOfArr xs
      | _ => strOfPrim v
    if needsEncoding sv then encURI sv else sv

mutual

/-- `buildKeyValuePairs(input, prefix)`, fuelled.  `lodash` `reduce`
iterates a plain object's fields in order and an array's items under their
index keys; on a `Map`, `Set`, `Date` or primitive it yields no entries, so
such an `input` (reachable via the array-item recursion at line 252 of the
source) contributes nothing. -/
def buildF : Nat → CaseFuns → QsOptions → Value → Str → List Str
  | 0, _, _, _, _ => []
  | fu + 1, cf, o, input, p =>
    match input with
    | .vobj fs => buildFieldsF fu cf o fs p
    | .varr xs => buildIdxEntriesF fu cf o xs 0 p
    | _ => []

def buildFieldsF : Nat → CaseFuns → QsOptions → List (Str × Value) → Str → List Str
  | 0, _, _, _, _ => []
  | _, _, _, [], _ => []
  | fu + 1, cf, o, f :: rest, p =>
    buildEntryF fu cf o f.1 f.2 p ++ buildFieldsF fu cf o rest p

/-- `reduce` over an array `input`: each item is visited as an entry keyed
by its decimal index. -/
def buildIdxEntriesF : Nat → CaseFuns → QsOptions → List Value → Nat → Str → List Str
  | 0, _, _, _, _, _ => []
  | _, _, _, [], _, _ => []
  | fu + 1, cf, o, x :: rest, i, p =>
    buildEntryF fu cf o (natChars i) x p ++ buildIdxEntriesF fu cf o rest (i + 1) p

/-- The body of the `reduce` callback (lines 236–272 of the source) for one
`(key, value)` entry. -/
def buildEntryF : Nat → CaseFuns → QsOptions → Str → Value → Str → List Str
  | 0, _, _, _, _, _ => []
  | fu + 1, cf, o, key, value, p =>
    let keyPath := if p = [] then key else p ++ '.' :: key
    if shouldOmitValue value keyPath o then []
    else
      match value with
      | .varr xs =>
        if xs.isEmpty then []
        else buildArrItemsF fu cf o xs 0 keyPath
      | .vobj fs =>
        if fs.isEmpty then []
        else buildF fu cf o (.vobj fs) keyPath
      | _ =>
        [addPfx (transformKey cf keyPath o) o ++ '=' :: processValue value]

/-- The `map` over array items at line 248: each item is emitted (or
recursed into) with no omission check, under `keyPath[index]`. -/
def buildArrItemsF : Nat → CaseFuns → QsOptions → List Value → Nat → Str → List Str
  | 0, _, _, _, _, _ => []
  | _, _, _, [], _, _ => []
  | fu + 1, cf, o, item :: rest, i, keyPath =>
    let arrayKey := transformKey cf (keyPath ++ '[' :: natChars i ++ [']']) o
    (if isObjectV item && !isDateV item then buildF fu cf o item arrayKey
     else [addPfx arrayKey o ++ '=' :: processValue item])
    ++ buildArrItemsF fu cf o rest (i + 1) keyPath

end

def buildKeyValuePairs (cf : CaseFuns) (o : QsOptions) (input : Value) (p : Str) : List Str :=
  buildF (sizeOf input) cf o input p

/-- `stringify(obj, options)`; the input type `Record<string, any>` is a
plain object, given here as its field list. -/
def stringify (cf : CaseFuns) (fs : List (Str × Value)) (o : QsOptions) : Str :=
  if fs.isEmpty then []
  else
    let pairs := buildKeyValuePairs cf o (.vobj fs) []
    if pairs.length ≠ 0 then
      (if o.addQueryPrefix.getD true then ['?'] else []) ++ List.intercalate ['&'] pairs
    else []

/-! ### `parse` -/

/-- A parsed primitive: what `decodeValue` can leave at a leaf.  `pstr`
covers both JSON string results and the raw-string fallback; `pnumNI`
carries a non-integral number by its literal. -/
inductive PVal where
  | pnull
  | pbool (b : Bool)
  | pnum (n : Int)
  | pnumNI (litr : Str)
  | pstr (s : Str)
  | pmap (es : List (Json × Json))
  | pset (es : List Json)

/-- The `parse` accumulator: the `Record<string, any>` that `lodash` `set`
grows.  Array slots may be holes (JS `undefined` from index growth). -/
inductive JVal where
  | prim (p : PVal)
  | arr (xs : List (Option JVal))
  | obj (fs : List (Str × JVal))

compile_inductive% JVal

/-- `lodash` `isIndex(value)`: a canonical decimal natural below
`MAX_SAFE_INTEGER`. -/
def isIndexStr (s : Str) : Bool :=
  !s.isEmpty && s.all isDig && (s == ['0'] || s.head? != some '0')
    && digVal s < 9007199254740991

mutual

/-- A parsed JSON tree as a `parse`-result value (arrays and objects become
mutable containers `lodash` `set` can descend into). -/
def jsonToJValF : Nat → Json → JVal
  | 0, _ => .prim .pnull
  | fu + 1, j =>
    match j with
    | .jnull => .prim .pnull
    | .jbool b => .prim (.pbool b)
    | .jnum n => .prim (.pnum n)
    | .jnumNI l => .prim (.pnumNI l)
    | .jstr s => .prim (.pstr s)
    | .jarr xs => .arr (jsonToJValListF fu xs)
    | .jobj fs => .obj (jsonToJValFieldsF fu fs)

def jsonToJValListF : Nat → List Json → List (Option JVal)
  | 0, _ => []
  | _, [] => []
  | fu + 1, x :: rest => some (jsonToJValF fu x) :: jsonToJValListF fu rest

def jsonToJValFieldsF : Nat → List (Str × Json) → List (Str × JVal)
  | 0, _ => []
  | _, [] => []
  | fu + 1, f :: rest => (f.1, jsonToJValF fu f.2) :: jsonToJValFieldsF fu rest

end

def jsonToJVal (j : Json) : JVal := jsonToJValF (sizeOf j) j

/-- SameValueZero on parsed JSON values, as `Map`/`Set` use for key
identity: primitives by value (non-integral numbers approximated by their
literal), freshly parsed arrays/objects by reference — never equal. -/
def primEqJ : Json → Json → Bool
  | .jnull, .jnull => true
  | .jbool a, .jbool b => a == b
  | .jnum a, .jnum b => a == b
  | .jnumNI a, .jnumNI b => a == b
  | .jstr a, .jstr b => a == b
  | _, _ => false

def mapHas (es : List (Json × Json)) (k : Json) : Bool :=
  es.any fun e => primEqJ e.1 k

def mapUpd (es : List (Json × Json)) (k v : Json) : List (Json × Json) :=
  es.map fun e => if primEqJ e.1 k then (e.1, v) else e

/-- `new Map(list)`: later entries overwrite earlier equal keys in place,
first-insertion order kept. -/
def mapFromList (es : List (Json × Json)) : List (Json × Json) :=
  es.foldl (fun acc e =>
    if mapHas acc e.1 then mapUpd acc e.1 e.2 else acc ++ [e]) []

/-- `new Set(list)` dedup, first-insertion order kept. -/
def setFromList (es : List Json) : List Json :=
  es.foldl (fun acc x => if acc.any (primEqJ x) then acc else acc ++ [x]) []

/-- One iterated entry for `new Map(_)`: any Object is accepted and its
`0` and `1` properties are read — for a `[k, v, ...]` array those are the
first two elements, for a plain object its `"0"`/`"1"` members; a missing
property is `undefined`, which the model folds to null.  A primitive entry
(null, boolean, number, string) throws. -/
def mapEntryDecode : Json → Option (Json × Json)
  | .jarr [] => some (.jnull, .jnull)
  | .jarr [a] => some (a, .jnull)
  | .jarr (a :: b :: _) => some (a, b)
  | .jobj fs => some ((jfieldGet fs ['0']).getD .jnull, (jfieldGet fs ['1']).getD .jnull)
  | _ => none

/-- Entry-decode a whole iterated list, failing if any entry throws. -/
def mapEntriesL : List Json → Option (List (Json × Json))
  | [] => some []
  | x :: t =>
    match mapEntryDecode x, mapEntriesL t with
    | some e, some es => some (e :: es)
    | _, _ => none

/-- The entry list `new Map(j)` iterates, or `none` when construction
throws: `null` (like `undefined`) makes an empty Map without iterating; an
array yields its elements; a string iterates per character, every
character being a primitive non-entry (throws) unless the string is
empty; booleans, numbers and plain objects are not iterable. -/
def mapEntries : Json → Option (List (Json × Json))
  | .jnull => some []
  | .jarr xs => mapEntriesL xs
  | .jstr [] => some []
  | _ => none

/-- The element list `new Set(j)` iterates, or `none` when construction
throws: `null` makes an empty Set; arrays element-wise, strings per
character; booleans, numbers and plain objects are not iterable. -/
def setElems : Json → Option (List Json)
  | .jnull => some []
  | .jarr xs => some xs
  | .jstr s => some (s.map fun c => .jstr [c])
  | _ => none

/-- `startsWith(value, 'map(') && endsWith(value, ')')`. -/
def mapShaped (value : Str) : Bool :=
  (lit "map(").isPrefixOf value && value.getLast? == some ')'

/-- `startsWith(value, 'set(') && endsWith(value, ')')`. -/
def setShaped (value : Str) : Bool :=
  (lit "set(").isPrefixOf value && value.getLast? == some ')'

/-- The `try`/`catch` classification of a decoded value (source lines
188–200): `map(…)`/`set(…)` wrappers, then `JSON.parse`, with the raw
string kept when anything throws. -/
def decodeValue (value : Str) : JVal :=
  if mapShaped value then
    match jparse (value.drop 4).dropLast with
    | some j =>
      match mapEntries j with
      | some es => .prim (.pmap (mapFromList es))
      | none => .prim (.pstr value)
    | none => .prim (.pstr value)
  else if setShaped value then
    match jparse (value.drop 4).dropLast with
    | some j =>
      match setElems j with
      | some es => .prim (.pset (setFromList es))
      | none => .prim (.pstr value)
    | none => .prim (.pstr value)
  else
    match jparse value with
    | some j => jsonToJVal j
    | none => .prim (.pstr value)

/-- `segment.replace(/\[(\d+)\]/g, '.$1')`, fuelled by the length: each
`[digits]` group becomes `.digits`, other characters pass through. -/
def replBrF : Nat → Str → Str
  | 0, s => s
  | fu + 1, s =>
    match s with
    | [] => []
    | '[' :: r =>
      (match digSpan r with
       | (d :: ds, ']' :: r2) => '.' :: ((d :: ds) ++ replBrF fu r2)
       | _ => '[' :: replBrF fu r)
    | c :: r => c :: replBrF fu r

def replBrackets (s : Str) : Str := replBrF s.length s

/-- `/\[(\d+)\]/g.test(segment)` (whether `segment.match` is non-null). -/
def hasGrF : Nat → Str → Bool
  | 0, _ => false
  | fu + 1, s =>
    match s with
    | [] => false
    | '[' :: r =>
      (match digSpan r with
       | (_ :: _, ']' :: _) => true
       | _ => hasGrF fu r)
    | _ :: r => hasGrF fu r

def hasGr (s : Str) : Bool := hasGrF s.length s

/-- One mapped segment of the key path (source lines 178–185). -/
def decodeSegment (seg : Str) : List Str :=
  if hasGr seg then (replBrackets seg).splitOn '.' else [seg]

/-- `flattenDeep(path)`: the flat path handed to `lodash` `set`. -/
def decodePath (key : Str) : List Str :=
  ((key.splitOn '.').map decodeSegment).flatten

/-- `lodash` `baseSet`'s replacement container when the current slot is not
already an object: an array when the next path key is an index, else an
object.  (A primitive in the slot is replaced; a `Map`/`Set` primitive is
in truth a JS object `set` would descend into, but `parse` never routes a
path through one.) -/
def contOf (old : Option JVal) (nextKey : Str) : JVal :=
  match old with
  | some (.arr xs) => .arr xs
  | some (.obj fs) => .obj fs
  | _ => if isIndexStr nextKey then .arr [] else .obj []

def lookupF (fs : List (Str × JVal)) (k : Str) : Option JVal :=
  (fs.find? fun f => f.1 == k).map fun f => f.2

/-- Assign a field: overwrite in place when present, else append.  (JS
object insertion order; `parse` keys that look like array indices cannot
reach an `.obj` container, so the integer-keys-first exotic order never
shows.) -/
def upsert (fs : List (Str × JVal)) (k : Str) (v : JVal) : List (Str × JVal) :=
  if fs.any (fun f => f.1 == k) then
    fs.map fun f => if f.1 == k then (k, v) else f
  else fs ++ [(k, v)]

/-- Array slot write, growing with holes (JS sparse growth). -/
def updAt (xs : List (Option JVal)) (i : Nat) (v : JVal) : List (Option JVal) :=
  (xs ++ List.replicate (i + 1 - xs.length) none).set i (some v)

/-- `lodash` `set(acc, path, v)`: walk/create containers along `path` and
write `v` at the end.  A non-index key met on an array writes a string
property invisible to the array's slots; an empty path returns the object
unchanged. -/
def setPath : JVal → List Str → JVal → JVal
  | acc, [], _ => acc
  | acc, k :: rest, v =>
    match acc with
    | .obj fs =>
      let child :=
        match rest with
        | [] => v
        | r1 :: _ => setPath (contOf (lookupF fs k) r1) rest v
      .obj (upsert fs k child)
    | .arr xs =>
      if isIndexStr k then
        let i := digVal k
        let child :=
          match rest with
          | [] => v
          | r1 :: _ => setPath (contOf (xs.getD i none) r1) rest v
        .arr (updAt xs i child)
      else acc
    | .prim _ => acc

/-- `trim(str, ' ')`: strip spaces (only) from both ends. -/
def trimSpaces (s : Str) : Str :=
  ((s.dropWhile fun c => c == ' ').reverse.dropWhile fun c => c == ' ').reverse

/-- `trimStart(·, '?')`. -/
def trimStartQ (s : Str) : Str := s.dropWhile fun c => c == '?'

/-- The `reduce` callback of `parse` (source lines 155–203) for one
`&`-separated param. -/
def parseStep (cf : CaseFuns) (o : QsOptions) (acc : JVal) (param : Str) : JVal :=
  if param.isEmpty then acc
  else
    let parts := param.splitOn '='
    let key := parts.headD []
    let valueParts := parts.drop 1
    if key.isEmpty then acc
    else if (match activePfx o with
             | some p => !p.isPrefixOf key
             | none => false) then acc
    else
      let rawValue := List.intercalate ['='] valueParts
      let value := if isEncoded rawValue then (decURI rawValue).getD rawValue else rawValue
      let transformedKey := reverseTransformKey cf (removePfx key o) o
      let flatPath := decodePath transformedKey
      setPath acc flatPath (decodeValue value)

/-- `parse(str, options)`. -/
def parse (cf : CaseFuns) (s : Str) (o : QsOptions) : JVal :=
  if s.isEmpty then .obj []
  else
    let cleanStr := trimStartQ (trimSpaces s)
    (cleanStr.splitOn '&').foldl (parseStep cf o) (.obj [])

/-! ## Split/join toolkit -/

theorem splitOn_no_sep {c : Char} {s : Str} (h : c ∉ s) : s.splitOn c = [s] := by
  apply List.splitOnP_eq_single
  intro x hx hbx
  exact h (by rwa [eq_of_beq hbx] at hx)

theorem splitOn_sep_first {c : Char} {k : Str} (rest : Str) (h : c ∉ k) :
    (k ++ c :: rest).splitOn c = k :: rest.splitOn c := by
  apply List.splitOnP_first
  · intro x hx hbx
    exact h (by rwa [eq_of_beq hbx] at hx)
  · simp

theorem intercalate_splitOn_char (c : Char) (s : Str) :
    List.intercalate [c] (s.splitOn c) = s :=
  List.intercalate_splitOn s c

/-- `idCF`: identity case functions (a trivial `CaseFuns` instantiation for
concrete evaluations). -/
def idCF : CaseFuns := ⟨id, id, id⟩

/-- `exCF`: case functions whose camel map appends `Z`, making base-segment
rewrites observable. -/
def exCF : CaseFuns := ⟨fun s => s ++ ['Z'], fun s => s, fun s => s⟩

/-! ## C5 -/

/-- C5 (amended): `parse` of an empty or space-only input returns the empty
mapping; `parse "?"` returns the empty mapping; `stringify` of an empty
object returns the empty string.  (Only the space character is trimmed:
other whitespace is kept — see the counterexample.) -/
theorem claim_C5 :
    (∀ cf o (s : Str), (∀ x ∈ s, x = ' ') → parse cf s o = .obj []) ∧
    (∀ cf o, parse cf (lit "?") o = .obj []) ∧
    (∀ cf o, stringify cf [] o = []) := by
  refine ⟨?_, fun cf o => rfl, fun cf o => rfl⟩
  intro cf o s hs
  by_cases h0 : s = []
  · subst h0; rfl
  · have h1 : s.dropWhile (fun c => c == ' ') = [] := by
      rw [List.dropWhile_eq_nil_iff]
      intro x hx
      simp [hs x hx]
    have h2 : s.isEmpty = false := by
      cases s with
      | nil => exact absurd rfl h0
      | cons a t => rfl
    unfold parse
    rw [h2]
    simp only [Bool.false_eq_true, if_false, trimSpaces, trimStartQ, h1]
    rfl

/-- C5 counterexample: a tab-only input is whitespace-only but yields a
nonempty mapping (the tab becomes a key with empty value) — only spaces are
trimmed. -/
theorem claim_C5_cex :
    parse idCF ['\t'] {} = .obj [(['\t'], .prim (.pstr []))] ∧
    JVal.obj [(['\t'], .prim (.pstr []))] ≠ .obj [] := by
  constructor
  · rfl
  · intro h
    injection h with h1
    cases h1

theorem claim_C5_wit :
    parse idCF [' ', ' '] {} = .obj [] ∧ parse idCF (lit "?") {} = .obj [] ∧
    stringify idCF [] {} = [] :=
  ⟨claim_C5.1 idCF {} [' ', ' '] (by decide), claim_C5.2.1 idCF {},
    claim_C5.2.2 idCF {}⟩

/-! ## C6 -/

/-- C6: if zero pairs remain after omission, `stringify` returns the empty
string (never a bare `?`); otherwise the `&`-joined pairs are prefixed with
`?` exactly when `addQueryPrefix` is not explicitly false (default true). -/
theorem claim_C6 :
    ∀ cf (fs : List (Str × Value)) o,
    (buildKeyValuePairs cf o (.vobj fs) [] = [] → stringify cf fs o = []) ∧
    (buildKeyValuePairs cf o (.vobj fs) [] ≠ [] →
      stringify cf fs o = (if o.addQueryPrefix.getD true then ['?'] else [])
        ++ List.intercalate ['&'] (buildKeyValuePairs cf o (.vobj fs) [])) := by
  intro cf fs o
  cases fs with
  | nil =>
    constructor
    · intro _; rfl
    · intro h; exact absurd rfl h
  | cons f t =>
    constructor
    · intro h
      unfold stringify
      simp only [List.isEmpty_cons, Bool.false_eq_true, if_false, h]
      rfl
    · intro h
      unfold stringify
      simp only [List.isEmpty_cons, Bool.false_eq_true, if_false]
      rw [if_pos]
      simpa using h

theorem claim_C6_wit :
    stringify idCF [(lit "a", .vnull)] {} = [] ∧
    stringify idCF [(lit "a", .vnum 1)] {} = lit "?a=1" := by
  constructor
  · exact (claim_C6 idCF [(lit "a", .vnull)] {}).1 (by decide)
  · exact ((claim_C6 idCF [(lit "a", .vnum 1)] {}).2 (by decide)).trans (by rfl)

theorem isEmpty_false_of_ne_nil {s : Str} (h : s ≠ []) : s.isEmpty = false := by
  cases s with
  | nil => exact absurd rfl h
  | cons a t => rfl

theorem rtk_nil (cf : CaseFuns) (o : QsOptions) : reverseTransformKey cf [] o = [] := by
  unfold reverseTransformKey
  cases resolvedRestore o with
  | none => rfl
  | some c => rfl

/-! ## C7 -/

/-- C7: in each `&`-separated pair, the key is everything before the first
`=` and the value everything after it (which may itself contain `=`); an
empty-key pair is discarded; a pair with no `=` at all is treated as that
key with an empty value. -/
theorem claim_C7 :
    ∀ cf o acc,
    (∀ (k rest : Str), '=' ∉ k → k ≠ [] →
      (∀ p, activePfx o = some p → p.isPrefixOf k = true) →
      parseStep cf o acc (k ++ '=' :: rest) =
        setPath acc (decodePath (reverseTransformKey cf (removePfx k o) o))
          (decodeValue (if isEncoded rest then (decURI rest).getD rest else rest))) ∧
    (∀ rest, parseStep cf o acc ('=' :: rest) = acc) ∧
    (∀ (k : Str), '=' ∉ k → k ≠ [] →
      (∀ p, activePfx o = some p → p.isPrefixOf k = true) →
      parseStep cf o acc k =
        setPath acc (decodePath (reverseTransformKey cf (removePfx k o) o))
          (.prim (.pstr []))) := by
  intro cf o acc
  refine ⟨?_, ?_, ?_⟩
  · intro k rest hk hk0 hpfx
    have hne : (k ++ '=' :: rest).isEmpty = false := by cases k <;> rfl
    unfold parseStep
    rw [hne]
    simp only [Bool.false_eq_true, if_false, splitOn_sep_first rest hk,
      List.headD_cons, List.drop_succ_cons, List.drop_zero,
      isEmpty_false_of_ne_nil hk0, intercalate_splitOn_char]
    cases hap : activePfx o with
    | none => rfl
    | some p => simp [hpfx p hap]
  · intro rest
    unfold parseStep
    have h1 : (('=' : Char) :: rest).splitOn '=' = [] :: rest.splitOn '=' := by
      simp [List.splitOn, List.splitOnP_cons]
    rw [show (('=' : Char) :: rest).isEmpty = false from rfl]
    simp only [Bool.false_eq_true, if_false, h1, List.headD_cons, List.isEmpty_nil,
      if_true]
  · intro k hk hk0 hpfx
    unfold parseStep
    rw [isEmpty_false_of_ne_nil hk0]
    simp only [Bool.false_eq_true, if_false, splitOn_no_sep hk, List.headD_cons,
      List.drop_succ_cons, List.drop_zero, isEmpty_false_of_ne_nil hk0]
    cases hap : activePfx o with
    | none => rfl
    | some p =>
      simp only [hpfx p hap, Bool.not_true, Bool.false_eq_true, if_false]
      rfl

theorem claim_C7_wit :
    parseStep idCF {} (.obj []) (lit "a=b=c") =
      .obj [(lit "a", .prim (.pstr (lit "b=c")))] ∧
    parseStep idCF {} (.obj []) (lit "=zz") = .obj [] ∧
    parseStep idCF {} (.obj []) (lit "solo") =
      .obj [(lit "solo", .prim (.pstr []))] := by
  refine ⟨?_, ?_, ?_⟩
  · exact ((claim_C7 idCF {} (.obj [])).1 (lit "a") (lit "b=c") (by decide)
      (by decide) (fun p hp => by simp [activePfx] at hp)).trans (by rfl)
  · exact (claim_C7 idCF {} (.obj [])).2.1 (lit "zz")
  · exact ((claim_C7 idCF {} (.obj [])).2.2 (lit "solo") (by decide) (by decide)
      (fun p hp => by simp [activePfx] at hp)).trans (by rfl)

/-! ## C10 -/

theorem isPrefixOf_self (p : Str) : p.isPrefixOf p = true := by
  simp [List.isPrefixOf_iff_prefix]

theorem activePfx_ne_nil {o : QsOptions} {p : Str} (h : activePfx o = some p) :
    p ≠ [] := by
  unfold activePfx at h
  split at h
  · split at h
    · cases h
    · injection h with h2
      subst h2
      assumption
  · cases h

/-- C10: with a prefix configured, a pair whose key is exactly the prefix
passes the empty-key check (done before prefix removal) and is stored
under the empty-string key. -/
theorem claim_C10 :
    ∀ cf o (fs : List (Str × JVal)) (p rest : Str),
    activePfx o = some p → '=' ∉ p →
    parseStep cf o (.obj fs) (p ++ '=' :: rest) =
      .obj (upsert fs []
        (decodeValue (if isEncoded rest then (decURI rest).getD rest else rest))) := by
  intro cf o fs p rest hap hp
  have hp0 : p ≠ [] := activePfx_ne_nil hap
  have hrm : removePfx p o = [] := by
    unfold removePfx
    rw [hap]
    simp [isPrefixOf_self]
  have h := (claim_C7 cf o (.obj fs)).1 p rest hp hp0 ?hpre
  case hpre =>
    intro q hq
    rw [hap] at hq
    injection hq with hq
    subst hq
    exact isPrefixOf_self p
  rw [h, hrm, rtk_nil]
  rfl

/-- `oPfx`: options with `prefix: "api_"` (for concrete evaluations). -/
def oPfx : QsOptions := ⟨none, none, none, some (lit "api_"), none⟩

theorem claim_C10_wit :
    parseStep idCF oPfx (.obj []) (lit "api_=1") = .obj [([], .prim (.pnum 1))] :=
  (claim_C10 idCF oPfx [] (lit "api_") (lit "1") (by rfl) (by decide)).trans (by rfl)

/-! ## C3 -/

/-- C3: `decodeValue` classifies a wire value in order — `map(…)` wrapper
(JSON payload whose iteration yields entry objects, built into a Map),
then `set(…)` wrapper, then whole-string JSON; any parse failure, or a
payload whose Map/Set construction throws, falls back to the raw decoded
string. -/
theorem claim_C3 :
    (∀ (v : Str) j es, mapShaped v = true →
      jparse ((v.drop 4).dropLast) = some j → mapEntries j = some es →
      decodeValue v = .prim (.pmap (mapFromList es))) ∧
    (∀ (v : Str), mapShaped v = true → jparse ((v.drop 4).dropLast) = none →
      decodeValue v = .prim (.pstr v)) ∧
    (∀ (v : Str) j, mapShaped v = true → jparse ((v.drop 4).dropLast) = some j →
      mapEntries j = none → decodeValue v = .prim (.pstr v)) ∧
    (∀ (v : Str) j es, mapShaped v = false → setShaped v = true →
      jparse ((v.drop 4).dropLast) = some j → setElems j = some es →
      decodeValue v = .prim (.pset (setFromList es))) ∧
    (∀ (v : Str), mapShaped v = false → setShaped v = true →
      jparse ((v.drop 4).dropLast) = none → decodeValue v = .prim (.pstr v)) ∧
    (∀ (v : Str) j, mapShaped v = false → setShaped v = true →
      jparse ((v.drop 4).dropLast) = some j → setElems j = none →
      decodeValue v = .prim (.pstr v)) ∧
    (∀ (v : Str) j, mapShaped v = false → setShaped v = false →
      jparse v = some j → decodeValue v = jsonToJVal j) ∧
    (∀ (v : Str), mapShaped v = false → setShaped v = false → jparse v = none →
      decodeValue v = .prim (.pstr v)) := by
  refine ⟨?_, ?_, ?_, ?_, ?_, ?_, ?_, ?_⟩
  · intro v j es h1 h2 h3
    unfold decodeValue
    simp [h1, h2, h3]
  · intro v h1 h2
    unfold decodeValue
    simp [h1, h2]
  · intro v j h1 h2 h3
    unfold decodeValue
    simp [h1, h2, h3]
  · intro v j es h1 h2 h3 h4
    unfold decodeValue
    simp [h1, h2, h3, h4]
  · intro v h1 h2 h3
    unfold decodeValue
    simp [h1, h2, h3]
  · intro v j h1 h2 h3 h4
    unfold decodeValue
    simp [h1, h2, h3, h4]
  · intro v j h1 h2 h3
    unfold decodeValue
    simp [h1, h2, h3]
  · intro v h1 h2 h3
    unfold decodeValue
    simp [h1, h2, h3]

theorem claim_C3_wit :
    decodeValue (lit "map([[1,2]])") = .prim (.pmap [(.jnum 1, .jnum 2)]) ∧
    decodeValue (lit "set([1,1,2])") = .prim (.pset [.jnum 1, .jnum 2]) ∧
    decodeValue (lit "true") = .prim (.pbool true) ∧
    decodeValue (lit "map(nope)") = .prim (.pstr (lit "map(nope)")) ∧
    decodeValue (lit "almost\x7bjson") = .prim (.pstr (lit "almost\x7bjson")) := by
  refine ⟨?_, ?_, ?_, ?_, ?_⟩
  · exact (claim_C3.1 (lit "map([[1,2]])") (.jarr [.jarr [.jnum 1, .jnum 2]])
      [(.jnum 1, .jnum 2)] (by rfl) (by rfl) (by rfl)).trans (by rfl)
  · exact (claim_C3.2.2.2.1 (lit "set([1,1,2])") (.jarr [.jnum 1, .jnum 1, .jnum 2])
      [.jnum 1, .jnum 1, .jnum 2] (by rfl) (by rfl) (by rfl) (by rfl)).trans (by rfl)
  · exact (claim_C3.2.2.2.2.2.2.1 (lit "true") (.jbool true) (by rfl) (by rfl)
      (by rfl)).trans (by rfl)
  · exact claim_C3.2.1 (lit "map(nope)") (by rfl) (by rfl)
  · exact claim_C3.2.2.2.2.2.2.2 (lit "almost\x7bjson") (by rfl) (by rfl) (by rfl)

/-! ## C4 -/

theorem setPath_obj (acc : JVal) (path : List Str) (v : JVal) (fs : List (Str × JVal))
    (h : acc = .obj fs) : ∃ gs, setPath acc path v = .obj gs := by
  subst h
  cases path with
  | nil => exact ⟨fs, rfl⟩
  | cons k rest => exact ⟨upsert fs k _, rfl⟩

theorem parseStep_obj (cf : CaseFuns) (o : QsOptions) (param : Str)
    (fs : List (Str × JVal)) : ∃ gs, parseStep cf o (.obj fs) param = .obj gs := by
  unfold parseStep
  dsimp only
  repeat' split
  all_goals first
    | exact ⟨fs, rfl⟩
    | exact setPath_obj _ _ _ fs rfl

theorem foldl_parseStep_obj (cf : CaseFuns) (o : QsOptions) :
    ∀ (params : List Str) (fs : List (Str × JVal)),
    ∃ gs, List.foldl (parseStep cf o) (.obj fs) params = .obj gs := by
  intro params
  induction params with
  | nil => exact fun fs => ⟨fs, rfl⟩
  | cons p t ih =>
    intro fs
    obtain ⟨gs, hg⟩ := parseStep_obj cf o p fs
    obtain ⟨hs, hh⟩ := ih gs
    exact ⟨hs, by rw [List.foldl_cons, hg, hh]⟩

/-- C4: `parse` always returns a keyed mapping (it never raises); a value
that is not valid JSON (and not a wrapper) decodes to the raw string; a
value whose percent-decoding fails is used literally without decoding. -/
theorem claim_C4 :
    (∀ cf (s : Str) o, ∃ fs, parse cf s o = .obj fs) ∧
    (∀ (v : Str), mapShaped v = false → setShaped v = false → jparse v = none →
      decodeValue v = .prim (.pstr v)) ∧
    (∀ (s : Str), decURI s = none →
      isEncoded s = false ∧ (if isEncoded s then (decURI s).getD s else s) = s) := by
  refine ⟨?_, ?_, ?_⟩
  · intro cf s o
    unfold parse
    split
    · exact ⟨[], rfl⟩
    · exact foldl_parseStep_obj cf o _ []
  · intro v h1 h2 h3
    unfold decodeValue
    simp [h1, h2, h3]
  · intro s h
    have he : isEncoded s = false := by
      unfold isEncoded
      rw [h]
    exact ⟨he, by rw [he]; simp⟩

theorem claim_C4_wit :
    (∃ fs, parse idCF (lit "?a=1&b") {} = .obj fs) ∧
    decodeValue (lit "[1,2") = .prim (.pstr (lit "[1,2")) ∧
    isEncoded (lit "%zz") = false ∧
    (if isEncoded (lit "%zz") then (decURI (lit "%zz")).getD (lit "%zz")
      else (lit "%zz")) = lit "%zz" := by
  refine ⟨claim_C4.1 idCF (lit "?a=1&b") {}, ?_, ?_, ?_⟩
  · exact claim_C4.2.1 (lit "[1,2") (by rfl) (by rfl) (by rfl)
  · exact (claim_C4.2.2 (lit "%zz") (by rfl)).1
  · exact (claim_C4.2.2 (lit "%zz") (by rfl)).2

/-! ## C2 -/

/-- C2 counterexample: a null element of an array is a leaf the default
policy omits (`shouldOmitValue` is true on it), yet `stringify` still
emits a pair for it — array elements are never omission-checked. -/
theorem claim_C2_cex :
    stringify idCF [(lit "a", .varr [.vnull])] {} = lit "?a[0]=" ∧
    shouldOmitValue .vnull (lit "a[0]") {} = true := ⟨rfl, rfl⟩

/-- C2 (amended): the omission policy is evaluated once per object entry
(leaf or not) with the accumulated un-transformed, un-prefixed dotted key
path, and an omitted entry contributes zero pairs; array elements are
emitted (or recursed into) without any omission check. -/
theorem claim_C2 :
    (∀ (fu : Nat) cf o (key : Str) v (p : Str),
      shouldOmitValue v (if p = [] then key else p ++ '.' :: key) o = true →
      buildEntryF (fu + 1) cf o key v p = []) ∧
    (∀ (fu : Nat) cf o item rest (i : Nat) (kp : Str),
      (isObjectV item && !isDateV item) = false →
      buildArrItemsF (fu + 1) cf o (item :: rest) i kp =
        (addPfx (transformKey cf (kp ++ '[' :: (natChars i ++ [']'])) o) o
            ++ '=' :: processValue item)
          :: buildArrItemsF fu cf o rest (i + 1) kp) := by
  constructor
  · intro fu cf o key v p h
    unfold buildEntryF
    dsimp only
    rw [h]
    rfl
  · intro fu cf o item rest i kp h
    conv_lhs => rw [buildArrItemsF]
    rw [h]
    simp

theorem claim_C2_wit :
    buildEntryF 1 idCF {} (lit "k") .vnull [] = [] ∧
    buildArrItemsF 1 idCF {} [.vnull] 0 (lit "a") = [lit "a[0]="] := by
  constructor
  · exact claim_C2.1 0 idCF {} (lit "k") .vnull [] (by rfl)
  · exact (claim_C2.2 0 idCF {} .vnull [] 0 (lit "a") (by rfl)).trans (by rfl)

/-! ## C8 -/

theorem digStop_cons {c : Char} (h : isDig c = false) (u : Str) : digStop (c :: u) := h

theorem dig_ne_dot {c : Char} (h : isDig c = true) : c ≠ '.' := by
  intro hc
  subst hc
  exact absurd h (by decide)

theorem dot_not_mem_digits {ds : Str} (hds : ∀ c ∈ ds, isDig c = true) :
    '.' ∉ ds := fun hm => dig_ne_dot (hds '.' hm) rfl

theorem replBrF_nil (fu : Nat) : replBrF fu [] = [] := by cases fu <;> rfl

theorem hasGrF_group (fu : Nat) (ds u : Str) (h0 : ds ≠ [])
    (hds : ∀ c ∈ ds, isDig c = true) :
    hasGrF (fu + 1) ('[' :: (ds ++ ']' :: u)) = true := by
  have hsp := digSpan_block ds hds (digStop_cons (c := ']') (by decide) u)
  rw [hasGrF.eq_def]
  simp only
  rw [hsp]
  cases ds with
  | nil => exact absurd rfl h0
  | cons d dt => rfl

theorem replBrF_group (fu : Nat) (ds u : Str) (h0 : ds ≠ [])
    (hds : ∀ c ∈ ds, isDig c = true) :
    replBrF (fu + 1) ('[' :: (ds ++ ']' :: u)) = '.' :: (ds ++ replBrF fu u) := by
  have hsp := digSpan_block ds hds (digStop_cons (c := ']') (by decide) u)
  rw [replBrF.eq_def]
  simp only
  rw [hsp]
  cases ds with
  | nil => exact absurd rfl h0
  | cons d dt => rfl

/-- `decodeSegment` of a pure bracket group `[digits]`: an empty base
element followed by the digits. -/
theorem decodeSegment_group (ds : Str) (h0 : ds ≠ [])
    (hds : ∀ c ∈ ds, isDig c = true) :
    decodeSegment ('[' :: (ds ++ [']'])) = [[], ds] := by
  have hlen : ('[' :: (ds ++ [']'])).length = (ds.length + 1) + 1 := by simp
  have hg : hasGr ('[' :: (ds ++ [']'])) = true := by
    unfold hasGr
    rw [hlen]
    exact hasGrF_group (ds.length + 1) ds [] h0 hds
  have hr : replBrackets ('[' :: (ds ++ [']'])) = '.' :: ds := by
    unfold replBrackets
    rw [hlen, replBrF_group (ds.length + 1) ds [] h0 hds, replBrF_nil,
      List.append_nil]
  unfold decodeSegment
  rw [hg, if_pos rfl, hr]
  have : (('.' : Char) :: ds).splitOn '.' = [] :: ds.splitOn '.' := by
    simp [List.splitOn, List.splitOnP_cons]
  rw [this, splitOn_no_sep (dot_not_mem_digits hds)]

/-- C8: a key segment with a bracket-index group but no base keeps the
empty base as an empty-string path element (it is not dropped, and
`decodePath` is total). -/
theorem claim_C8 :
    ∀ (ds r : Str), ds ≠ [] → (∀ d ∈ ds, isDig d = true) →
    (r = [] ∨ ∃ r2, r = '.' :: r2) →
    ∃ rest, decodePath ('[' :: (ds ++ ']' :: r)) = [] :: ds :: rest := by
  intro ds r h0 hds hr
  have hnd : ('.' : Char) ∉ '[' :: (ds ++ [']']) := by
    intro hm
    rcases List.mem_cons.1 hm with h | h
    · cases h
    · rcases List.mem_append.1 h with h | h
      · exact dot_not_mem_digits hds h
      · rcases List.mem_singleton.1 h with h
        cases h
  rcases hr with h | ⟨r2, h⟩
  · subst h
    refine ⟨[], ?_⟩
    unfold decodePath
    rw [splitOn_no_sep hnd]
    simp [decodeSegment_group ds h0 hds]
  · subst h
    refine ⟨(((r2.splitOn '.').map decodeSegment).flatten), ?_⟩
    unfold decodePath
    have hshape : ('[' : Char) :: (ds ++ ']' :: '.' :: r2)
        = ('[' :: (ds ++ [']'])) ++ '.' :: r2 := by simp
    rw [hshape, splitOn_sep_first r2 hnd]
    simp [decodeSegment_group ds h0 hds]

theorem claim_C8_wit :
    ∃ rest, decodePath (lit "[0]") = [] :: ['0'] :: rest :=
  claim_C8 ['0'] [] (by decide) (by decide) (Or.inl rfl)

/-! ## C9 -/

/-- One `.`-separated part of a key, as a base followed by bracket groups
(each group introduced by a `[`). -/
def renderPart (b : Str) (gs : List Str) : Str := b ++ gs.flatMap fun g => '[' :: g

/-- C9 counterexample: with a case transform configured, a segment whose
base is empty (a key beginning with a bracket group) is collapsed to the
empty string — its bracket contents are dropped, not left untouched. -/
theorem claim_C9_cex :
    transformKey idCF (lit "[0]") ⟨none, some .camel, none, none, none⟩ = [] ∧
    lit "[0]" ≠ ([] : Str) := ⟨rfl, by decide⟩

theorem splitOn_lb_render : ∀ (b : Str) (gs : List Str), '[' ∉ b →
    (∀ g ∈ gs, '[' ∉ g) → (renderPart b gs).splitOn '[' = b :: gs := by
  intro b gs
  induction gs generalizing b with
  | nil =>
    intro hb _
    simpa [renderPart] using splitOn_no_sep hb
  | cons g gt ih =>
    intro hb hgs
    have hr : renderPart b (g :: gt) = b ++ '[' :: renderPart g gt := by
      simp [renderPart]
    rw [hr, splitOn_sep_first _ hb,
      ih g (hgs g (by simp)) (fun x hx => hgs x (by simp [hx]))]

theorem intercalate_lb : ∀ (gs : List Str), gs ≠ [] →
    '[' :: List.intercalate ['['] gs = gs.flatMap fun g => '[' :: g := by
  intro gs
  induction gs with
  | nil => intro h; cases h rfl
  | cons g gt ih =>
    intro _
    cases gt with
    | nil => simp [List.intercalate]
    | cons g2 gt2 =>
      rw [List.flatMap_cons, ← ih (by simp)]
      simp [List.intercalate, List.intersperse_cons_cons]

theorem transformPart_render (cf : CaseFuns) (c : QsCase) (b : Str) (gs : List Str)
    (hb0 : b ≠ []) (hb : '[' ∉ b) (hgs : ∀ g ∈ gs, '[' ∉ g) :
    transformPart cf c (renderPart b gs) = renderPart (applyCase cf c b) gs := by
  unfold transformPart
  rw [splitOn_lb_render b gs hb hgs]
  simp only
  rw [if_pos hb0]
  cases gs with
  | nil => simp [renderPart]
  | cons g gt =>
    rw [if_pos (by simp)]
    show applyCase cf c b ++ '[' :: List.intercalate ['['] (g :: gt)
      = renderPart (applyCase cf c b) (g :: gt)
    rw [renderPart, intercalate_lb (g :: gt) (by simp)]

theorem dot_not_mem_render {b : Str} {gs : List Str} (hb : '.' ∉ b)
    (hgs : ∀ g ∈ gs, '.' ∉ g) : '.' ∉ renderPart b gs := by
  intro hm
  rcases List.mem_append.1 hm with h | h
  · exact hb h
  · rcases List.mem_flatMap.1 h with ⟨g, hg, hm2⟩
    rcases List.mem_cons.1 hm2 with h2 | h2
    · cases h2
    · exact hgs g hg h2

/-- C9 (amended): the key transforms rewrite only the non-bracket base of
each `.`-separated segment, keeping bracket-group contents untouched —
provided every segment has a nonempty base (a segment whose base is empty
is collapsed to the empty string, see the counterexample). -/
theorem claim_C9 :
    ∀ cf c o (parts : List (Str × List Str)),
    parts ≠ [] →
    (∀ pr ∈ parts, pr.1 ≠ [] ∧ '[' ∉ pr.1 ∧ '.' ∉ pr.1 ∧
      ∀ g ∈ pr.2, '[' ∉ g ∧ '.' ∉ g) →
    (o.qcase = some c →
      transformKey cf
          (List.intercalate ['.'] (parts.map fun pr => renderPart pr.1 pr.2)) o
        = List.intercalate ['.']
            (parts.map fun pr => renderPart (applyCase cf c pr.1) pr.2)) ∧
    (resolvedRestore o = some c →
      reverseTransformKey cf
          (List.intercalate ['.'] (parts.map fun pr => renderPart pr.1 pr.2)) o
        = List.intercalate ['.']
            (parts.map fun pr => renderPart (applyCase cf c pr.1) pr.2)) := by
  intro cf c o parts hne hsafe
  have hsplit : (List.intercalate ['.']
      (parts.map fun pr => renderPart pr.1 pr.2)).splitOn '.'
      = parts.map fun pr => renderPart pr.1 pr.2 := by
    apply List.splitOn_intercalate
    · intro l hl
      rcases List.mem_map.1 hl with ⟨pr, hpr, hrend⟩
      obtain ⟨-, -, hd, hg⟩ := hsafe pr hpr
      rw [← hrend]
      exact dot_not_mem_render hd (fun g hgm => (hg g hgm).2)
    · simpa using hne
  have hmap : (parts.map fun pr => renderPart pr.1 pr.2).map (transformPart cf c)
      = parts.map fun pr => renderPart (applyCase cf c pr.1) pr.2 := by
    rw [List.map_map]
    apply List.map_congr_left
    intro pr hpr
    obtain ⟨h1, h2, -, hg⟩ := hsafe pr hpr
    exact transformPart_render cf c pr.1 pr.2 h1 h2 (fun g hgm => (hg g hgm).1)
  constructor
  · intro hq
    unfold transformKey
    simp only [hq, hsplit, hmap]
  · intro hq
    unfold reverseTransformKey
    simp only [hq, hsplit, hmap]

theorem claim_C9_wit :
    transformKey exCF (lit "a[0]") ⟨none, some .camel, none, none, none⟩
      = lit "aZ[0]" ∧
    reverseTransformKey exCF (lit "a[0]")
        ⟨none, none, none, none, some (some .camel)⟩
      = lit "aZ[0]" := by
  constructor
  · exact ((claim_C9 exCF .camel ⟨none, some .camel, none, none, none⟩
      [(lit "a", [lit "0]"])] (by decide) (by decide)).1 rfl).trans (by rfl)
  · exact ((claim_C9 exCF .camel ⟨none, none, none, none, some (some .camel)⟩
      [(lit "a", [lit "0]"])] (by decide) (by decide)).2 rfl).trans (by rfl)

/-! ## C1 -/

/-- C1 counterexample: the object `{a: "1"}` satisfies the claim's key
conditions, but the string leaf `"1"` comes back as the number `1` — not
deep-equal modulo the allowed date/empty-leaf adjustments. -/
theorem claim_C1_cex :
    parse idCF (stringify idCF [(lit "a", .vstr (lit "1"))] {}) {}
      = .obj [(lit "a", .prim (.pnum 1))] ∧
    JVal.obj [(lit "a", .prim (.pnum 1))]
      ≠ .obj [(lit "a", .prim (.pstr (lit "1")))] := by
  constructor
  · rfl
  · intro h
    injection h with h1
    injection h1 with hhd htl
    injection hhd with hk hv
    injection hv with hp
    cases hp

/-- The default omission predicate of `shouldOmitValue` (options unset):
nil, empty string, empty Map, empty Set. -/
def dropV : Value → Bool
  | .vnull => true
  | .vstr [] => true
  | .vmap [] => true
  | .vset [] => true
  | _ => false

theorem shouldOmit_default (v : Value) (k : Str) :
    shouldOmitValue v k {} = dropV v := by
  cases v with
  | vstr s => cases s <;> rfl
  | vmap es => cases es <;> rfl
  | vset es => cases es <;> rfl
  | _ => rfl

/-- The wire token of a pre-encoding string value. -/
def wireOf (s : Str) : Str := if needsEncoding s then encURI s else s

/-- The pre-encoding `stringValue` of `processValue`. -/
def preStr : Value → Str
  | .vnull => []
  | .vdate iso => iso
  | .vmap es => lit "map(" ++ (jprint (mapPayload es) ++ [')'])
  | .vset es => lit "set(" ++ (jprint (.jarr es) ++ [')'])
  | .vobj fs => jprint (jsonify (.vobj fs))
  | .varr xs => strOfArr xs
  | .vbool b => strOfPrim (.vbool b)
  | .vnum n => strOfPrim (.vnum n)
  | .vstr s => s

theorem processValue_eq (v : Value) : processValue v = wireOf (preStr v) := by
  cases v <;> rfl

/-- The percent-decoding step of `parse` on one wire value. -/
def recoverVal (w : Str) : Str := if isEncoded w then (decURI w).getD w else w

/-- A pre-encoding string whose wire token survives the framing and
percent round trip. -/
def wireSafe (s : Str) : Bool :=
  strOk s && (needsEncoding s || !s.contains '%') && s.getLast? != some ' '

/-- A leaf string that additionally comes back from `decodeValue` verbatim. -/
def rawStr (s : Str) : Bool :=
  wireSafe s && (jparse s).isNone && !mapShaped s && !setShaped s

theorem not_enc_no_amp {s : Str} (h : needsEncoding s = false) :
    '&' ∉ s ∧ '=' ∉ s := by
  unfold needsEncoding at h
  rw [List.any_eq_false] at h
  constructor
  · intro hm
    have := h _ hm
    simp at this
  · intro hm
    have := h _ hm
    simp at this

theorem enc_ne {s : Str} (h : needsEncoding s = true) :
    encURI s ≠ s := by
  unfold needsEncoding at h
  rw [List.any_eq_true] at h
  obtain ⟨c, hc, hspec⟩ := h
  simp only [Bool.or_eq_true, decide_eq_true_eq] at hspec
  intro heq
  have hok : encOK c = true := encURI_chars (heq ▸ hc)
  rcases hspec with (h1 | h1) | h1 <;> subst h1 <;> exact absurd hok (by decide)

theorem recover_wireOf {s : Str} (h : wireSafe s = true) : recoverVal (wireOf s) = s := by
  unfold wireSafe at h
  rw [Bool.and_eq_true, Bool.and_eq_true] at h
  obtain ⟨⟨hok, hpct⟩, hlast⟩ := h
  unfold recoverVal wireOf
  cases he : needsEncoding s with
  | true =>
    rw [if_pos rfl]
    have hd : decURI (encURI s) = some s := decURI_encURI hok
    have hne : s ≠ encURI s := fun hh => enc_ne he hh.symm
    have hie : isEncoded (encURI s) = true := by
      unfold isEncoded
      rw [hd]
      exact decide_eq_true hne
    rw [hie, if_pos rfl, hd]
    rfl
  | false =>
    have hnp : '%' ∉ s := by
      rw [he, Bool.false_or] at hpct
      simpa using hpct
    simp only [Bool.false_eq_true, if_false]
    rw [isEncoded_no_pct hnp]
    simp

/-- Pairwise SameValueZero-distinct Map keys, in fold order. -/
def keysDistinct : List (Json × Json) → Bool
  | [] => true
  | e :: t => (!t.any fun e2 => primEqJ e.1 e2.1) && keysDistinct t

/-- Pairwise SameValueZero-distinct Set elements, in fold order. -/
def elemsDistinct : List Json → Bool
  | [] => true
  | x :: t => (!t.any fun y => primEqJ y x) && elemsDistinct t

theorem mapFromList_go : ∀ (es acc : List (Json × Json)), keysDistinct es = true →
    (∀ e ∈ es, mapHas acc e.1 = false) →
    List.foldl (fun acc e => if mapHas acc e.1 then mapUpd acc e.1 e.2 else acc ++ [e])
      acc es = acc ++ es := by
  intro es
  induction es with
  | nil => intro acc _ _; simp
  | cons e t ih =>
    intro acc hd hfresh
    rw [keysDistinct, Bool.and_eq_true] at hd
    obtain ⟨hd1, hd2⟩ := hd
    rw [Bool.not_eq_true', List.any_eq_false] at hd1
    rw [List.foldl_cons, hfresh e (by simp)]
    simp only [Bool.false_eq_true, if_false]
    rw [ih (acc ++ [e]) hd2 ?fresh2]
    · simp
    case fresh2 =>
      intro e2 he2
      unfold mapHas
      rw [List.any_append]
      have h1 : mapHas acc e2.1 = false := hfresh e2 (by simp [he2])
      unfold mapHas at h1
      rw [h1]
      simp only [Bool.false_or, List.any_cons, List.any_nil, Bool.or_false]
      simpa using hd1 e2 he2
  
theorem mapFromList_id {es : List (Json × Json)} (h : keysDistinct es = true) :
    mapFromList es = es := by
  have := mapFromList_go es [] h (fun e _ => rfl)
  simpa [mapFromList] using this

theorem setFromList_go : ∀ (es acc : List Json), elemsDistinct es = true →
    (∀ x ∈ es, acc.any (primEqJ x) = false) →
    List.foldl (fun acc x => if acc.any (primEqJ x) then acc else acc ++ [x]) acc es
      = acc ++ es := by
  intro es
  induction es with
  | nil => intro acc _ _; simp
  | cons x t ih =>
    intro acc hd hfresh
    rw [elemsDistinct, Bool.and_eq_true] at hd
    obtain ⟨hd1, hd2⟩ := hd
    rw [Bool.not_eq_true', List.any_eq_false] at hd1
    rw [List.foldl_cons, hfresh x (by simp)]
    simp only [Bool.false_eq_true, if_false]
    rw [ih (acc ++ [x]) hd2 ?fresh2]
    · simp
    case fresh2 =>
      intro x2 hx2
      rw [List.any_append]
      have h1 : acc.any (primEqJ x2) = false := hfresh x2 (by simp [hx2])
      rw [h1]
      simp only [Bool.false_or, List.any_cons, List.any_nil, Bool.or_false]
      simpa using hd1 x2 hx2

theorem setFromList_id {es : List Json} (h : elemsDistinct es = true) :
    setFromList es = es := by
  have := setFromList_go es [] h (fun x _ => rfl)
  simpa [setFromList] using this

theorem mapM_payload : ∀ (es : List (Json × Json)),
    mapEntriesL (es.map fun e => Json.jarr [e.1, e.2]) = some es := by
  intro es
  induction es with
  | nil => rfl
  | cons e t ih => simp [mapEntriesL, mapEntryDecode, ih]

theorem mapEntries_payload (es : List (Json × Json)) :
    mapEntries (mapPayload es) = some es := mapM_payload es

/-- `MAX_SAFE_INTEGER`. -/
def MAXI : Nat := 9007199254740991

/-- A key that survives the wire and the path codec verbatim. -/
def safeKey (k : Str) : Bool :=
  !k.isEmpty && !k.contains '.' && !k.contains '[' && !k.contains ']'
    && !k.contains '&' && !k.contains '=' && !k.contains '?' && !isIndexStr k

theorem value_sizeOf_pos (v : Value) : 0 < sizeOf v := by cases v <;> simp

theorem vfields_sizeOf_pos (fs : List (Str × Value)) : 0 < sizeOf fs := by
  cases fs <;> simp

theorem vitems_sizeOf_pos (xs : List Value) : 0 < sizeOf xs := by cases xs <;> simp

theorem str_sizeOf_pos (s : Str) : 0 < sizeOf s := by cases s <;> simp

mutual

/-- Safe values in object-entry position: guaranteed to emit pairs that
decode back to the entry (`fu` is structural fuel). -/
def safeEntryV : Nat → Value → Bool
  | 0, _ => false
  | fu + 1, v =>
    match v with
    | .vnull => false
    | .vbool _ => true
    | .vnum _ => true
    | .vstr s => rawStr s
    | .vdate iso => rawStr iso
    | .vmap es => !es.isEmpty && keysDistinct es && jgood (mapPayload es)
        && wireSafe (preStr (.vmap es))
    | .vset es => !es.isEmpty && elemsDistinct es && jgood (.jarr es)
        && wireSafe (preStr (.vset es))
    | .vobj fs => !fs.isEmpty && safeFieldsV fu fs && fs.any fun f => !dropV f.2
    | .varr xs => !xs.isEmpty && decide (xs.length ≤ MAXI) && safeItemsV fu xs

/-- Safe object field lists: safe distinct keys, each value droppable or
safe. -/
def safeFieldsV : Nat → List (Str × Value) → Bool
  | 0, _ => false
  | _ + 1, [] => true
  | fu + 1, f :: t =>
    safeKey f.1 && (!t.any fun g => g.1 == f.1) && (dropV f.2 || safeEntryV fu f.2)
      && safeFieldsV fu t

def safeItemsV : Nat → List Value → Bool
  | 0, _ => false
  | _ + 1, [] => true
  | fu + 1, x :: t => safeItemV fu x && safeItemsV fu t

/-- Safe values in bracket array-item position (emitted without omission
checks; Maps and Sets would vanish there and are excluded). -/
def safeItemV : Nat → Value → Bool
  | 0, _ => false
  | fu + 1, v =>
    match v with
    | .vnull => true
    | .vbool _ => true
    | .vnum _ => true
    | .vstr s => rawStr s
    | .vdate iso => rawStr iso
    | .vmap _ => false
    | .vset _ => false
    | .vobj fs => !fs.isEmpty && safeFieldsV fu fs && fs.any fun f => !dropV f.2
    | .varr xs => !xs.isEmpty && decide (xs.length ≤ MAXI) && safeIdxV fu xs

/-- Safe items of an array nested directly inside an array: such items are
visited as index-keyed entries, so droppable values are excluded. -/
def safeIdxV : Nat → List Value → Bool
  | 0, _ => false
  | _ + 1, [] => true
  | fu + 1, x :: t => !dropV x && safeEntryV fu x && safeIdxV fu t

end

def safeEntry (v : Value) : Bool := safeEntryV (sizeOf v) v

def safeFields (fs : List (Str × Value)) : Bool := safeFieldsV (sizeOf fs) fs

def safeItems (xs : List Value) : Bool := safeItemsV (sizeOf xs) xs

def safeItem (v : Value) : Bool := safeItemV (sizeOf v) v

def safeIdx (xs : List Value) : Bool := safeIdxV (sizeOf xs) xs

mutual
theorem safeEntryV_irr : ∀ (fu fu2 : Nat) (v : Value), sizeOf v ≤ fu →
    sizeOf v ≤ fu2 → safeEntryV fu v = safeEntryV fu2 v
  | 0, _, v, h, _ => absurd h (by have := value_sizeOf_pos v; omega)
  | _ + 1, 0, v, _, h2 => absurd h2 (by have := value_sizeOf_pos v; omega)
  | fu + 1, fu2 + 1, v, h, h2 => by
    cases v with
    | vobj fs =>
      have hs : sizeOf (Value.vobj fs) = 1 + sizeOf fs := by simp
      rw [hs] at h h2
      simp only [safeEntryV]
      rw [safeFieldsV_irr fu fu2 fs (by omega) (by omega)]
    | varr xs =>
      have hs : sizeOf (Value.varr xs) = 1 + sizeOf xs := by simp
      rw [hs] at h h2
      simp only [safeEntryV]
      rw [safeItemsV_irr fu fu2 xs (by omega) (by omega)]
    | _ => rfl

theorem safeFieldsV_irr : ∀ (fu fu2 : Nat) (fs : List (Str × Value)), sizeOf fs ≤ fu →
    sizeOf fs ≤ fu2 → safeFieldsV fu fs = safeFieldsV fu2 fs
  | 0, _, fs, h, _ => absurd h (by have := vfields_sizeOf_pos fs; omega)
  | _ + 1, 0, fs, _, h2 => absurd h2 (by have := vfields_sizeOf_pos fs; omega)
  | fu + 1, fu2 + 1, fs, h, h2 => by
    cases fs with
    | nil => rfl
    | cons f t =>
      obtain ⟨k, v⟩ := f
      have hj : sizeOf ((k, v) :: t) = 1 + (1 + sizeOf k + sizeOf v) + sizeOf t := by
        simp
      rw [hj] at h h2
      have h1 := safeEntryV_irr fu fu2 v
        (by have := vfields_sizeOf_pos t; omega)
        (by have := vfields_sizeOf_pos t; omega)
      have h3 := safeFieldsV_irr fu fu2 t
        (by have := value_sizeOf_pos v; have := str_sizeOf_pos k; omega)
        (by have := value_sizeOf_pos v; have := str_sizeOf_pos k; omega)
      simp only [safeFieldsV, h1, h3]

theorem safeItemsV_irr : ∀ (fu fu2 : Nat) (xs : List Value), sizeOf xs ≤ fu →
    sizeOf xs ≤ fu2 → safeItemsV fu xs = safeItemsV fu2 xs
  | 0, _, xs, h, _ => absurd h (by have := vitems_sizeOf_pos xs; omega)
  | _ + 1, 0, xs, _, h2 => absurd h2 (by have := vitems_sizeOf_pos xs; omega)
  | fu + 1, fu2 + 1, xs, h, h2 => by
    cases xs with
    | nil => rfl
    | cons x t =>
      have hj : sizeOf (x :: t) = 1 + sizeOf x + sizeOf t := by simp
      rw [hj] at h h2
      have h1 := safeItemV_irr fu fu2 x
        (by have := vitems_sizeOf_pos t; omega)
        (by have := vitems_sizeOf_pos t; omega)
      have h3 := safeItemsV_irr fu fu2 t
        (by have := value_sizeOf_pos x; omega)
        (by have := value_sizeOf_pos x; omega)
      simp only [safeItemsV, h1, h3]

theorem safeItemV_irr : ∀ (fu fu2 : Nat) (v : Value), sizeOf v ≤ fu →
    sizeOf v ≤ fu2 → safeItemV fu v = safeItemV fu2 v
  | 0, _, v, h, _ => absurd h (by have := value_sizeOf_pos v; omega)
  | _ + 1, 0, v, _, h2 => absurd h2 (by have := value_sizeOf_pos v; omega)
  | fu + 1, fu2 + 1, v, h, h2 => by
    cases v with
    | vobj fs =>
      have hs : sizeOf (Value.vobj fs) = 1 + sizeOf fs := by simp
      rw [hs] at h h2
      simp only [safeItemV]
      rw [safeFieldsV_irr fu fu2 fs (by omega) (by omega)]
    | varr xs =>
      have hs : sizeOf (Value.varr xs) = 1 + sizeOf xs := by simp
      rw [hs] at h h2
      simp only [safeItemV]
      rw [safeIdxV_irr fu fu2 xs (by omega) (by omega)]
    | _ => rfl

theorem safeIdxV_irr : ∀ (fu fu2 : Nat) (xs : List Value), sizeOf xs ≤ fu →
    sizeOf xs ≤ fu2 → safeIdxV fu xs = safeIdxV fu2 xs
  | 0, _, xs, h, _ => absurd h (by have := vitems_sizeOf_pos xs; omega)
  | _ + 1, 0, xs, _, h2 => absurd h2 (by have := vitems_sizeOf_pos xs; omega)
  | fu + 1, fu2 + 1, xs, h, h2 => by
    cases xs with
    | nil => rfl
    | cons x t =>
      have hj : sizeOf (x :: t) = 1 + sizeOf x + sizeOf t := by simp
      rw [hj] at h h2
      have h1 := safeEntryV_irr fu fu2 x
        (by have := vitems_sizeOf_pos t; omega)
        (by have := vitems_sizeOf_pos t; omega)
      have h3 := safeIdxV_irr fu fu2 t
        (by have := value_sizeOf_pos x; omega)
        (by have := value_sizeOf_pos x; omega)
      simp only [safeIdxV, h1, h3]
end

theorem safeEntry_obj (fs : List (Str × Value)) :
    safeEntry (.vobj fs)
      = (!fs.isEmpty && safeFields fs && fs.any fun f => !dropV f.2) := by
  show safeEntryV (sizeOf (Value.vobj fs)) _ = _
  have hs : sizeOf (Value.vobj fs) = sizeOf fs + 1 := by simp; omega
  rw [hs]
  rfl

theorem safeEntry_arr (xs : List Value) :
    safeEntry (.varr xs)
      = (!xs.isEmpty && decide (xs.length ≤ MAXI) && safeItems xs) := by
  show safeEntryV (sizeOf (Value.varr xs)) _ = _
  have hs : sizeOf (Value.varr xs) = sizeOf xs + 1 := by simp; omega
  rw [hs]
  rfl

theorem safeEntry_str (s : Str) : safeEntry (.vstr s) = rawStr s := by
  show safeEntryV (sizeOf (Value.vstr s)) _ = _
  have hs : sizeOf (Value.vstr s) = sizeOf s + 1 := by simp; omega
  rw [hs]
  rfl

theorem safeEntry_date (iso : Str) : safeEntry (.vdate iso) = rawStr iso := by
  show safeEntryV (sizeOf (Value.vdate iso)) _ = _
  have hs : sizeOf (Value.vdate iso) = sizeOf iso + 1 := by simp; omega
  rw [hs]
  rfl

theorem safeEntry_map (es : List (Json × Json)) :
    safeEntry (.vmap es)
      = (!es.isEmpty && keysDistinct es && jgood (mapPayload es)
          && wireSafe (preStr (.vmap es))) := by
  show safeEntryV (sizeOf (Value.vmap es)) _ = _
  have hs : sizeOf (Value.vmap es) = sizeOf es + 1 := by simp; omega
  rw [hs]
  rfl

theorem safeEntry_set (es : List Json) :
    safeEntry (.vset es)
      = (!es.isEmpty && elemsDistinct es && jgood (.jarr es)
          && wireSafe (preStr (.vset es))) := by
  show safeEntryV (sizeOf (Value.vset es)) _ = _
  have hs : sizeOf (Value.vset es) = sizeOf es + 1 := by simp; omega
  rw [hs]
  rfl

theorem safeFields_cons (f : Str × Value) (t : List (Str × Value)) :
    safeFields (f :: t)
      = (safeKey f.1 && (!t.any fun g => g.1 == f.1) && (dropV f.2 || safeEntry f.2)
          && safeFields t) := by
  show safeFieldsV (sizeOf (f :: t)) _ = _
  obtain ⟨k, v⟩ := f
  have hs : sizeOf ((k, v) :: t) = (sizeOf k + sizeOf v + sizeOf t + 1) + 1 := by
    simp
    omega
  rw [hs]
  simp only [safeFieldsV]
  rw [safeEntryV_irr _ (sizeOf v) v
      (by have := str_sizeOf_pos k; have := vfields_sizeOf_pos t; omega)
      (Nat.le_refl _),
    safeFieldsV_irr _ (sizeOf t) t
      (by have := str_sizeOf_pos k; have := value_sizeOf_pos v; omega)
      (Nat.le_refl _)]
  rfl

theorem safeItems_cons (x : Value) (t : List Value) :
    safeItems (x :: t) = (safeItem x && safeItems t) := by
  show safeItemsV (sizeOf (x :: t)) _ = _
  have hs : sizeOf (x :: t) = (sizeOf x + sizeOf t) + 1 := by simp; omega
  rw [hs]
  simp only [safeItemsV]
  rw [safeItemV_irr _ (sizeOf x) x (by have := vitems_sizeOf_pos t; omega)
      (Nat.le_refl _),
    safeItemsV_irr _ (sizeOf t) t (by have := value_sizeOf_pos x; omega)
      (Nat.le_refl _)]
  rfl

theorem safeIdx_cons (x : Value) (t : List Value) :
    safeIdx (x :: t) = (!dropV x && safeEntry x && safeIdx t) := by
  show safeIdxV (sizeOf (x :: t)) _ = _
  have hs : sizeOf (x :: t) = (sizeOf x + sizeOf t) + 1 := by simp; omega
  rw [hs]
  simp only [safeIdxV]
  rw [safeEntryV_irr _ (sizeOf x) x (by have := vitems_sizeOf_pos t; omega)
      (Nat.le_refl _),
    safeIdxV_irr _ (sizeOf t) t (by have := value_sizeOf_pos x; omega)
      (Nat.le_refl _)]
  rfl

theorem safeItem_obj (fs : List (Str × Value)) :
    safeItem (.vobj fs)
      = (!fs.isEmpty && safeFields fs && fs.any fun f => !dropV f.2) := by
  show safeItemV (sizeOf (Value.vobj fs)) _ = _
  have hs : sizeOf (Value.vobj fs) = sizeOf fs + 1 := by simp; omega
  rw [hs]
  rfl

theorem safeItem_arr (xs : List Value) :
    safeItem (.varr xs)
      = (!xs.isEmpty && decide (xs.length ≤ MAXI) && safeIdx xs) := by
  show safeItemV (sizeOf (Value.varr xs)) _ = _
  have hs : sizeOf (Value.varr xs) = sizeOf xs + 1 := by simp; omega
  rw [hs]
  rfl

theorem safeItem_str (s : Str) : safeItem (.vstr s) = rawStr s := by
  show safeItemV (sizeOf (Value.vstr s)) _ = _
  have hs : sizeOf (Value.vstr s) = sizeOf s + 1 := by simp; omega
  rw [hs]
  rfl

theorem safeItem_date (iso : Str) : safeItem (.vdate iso) = rawStr iso := by
  show safeItemV (sizeOf (Value.vdate iso)) _ = _
  have hs : sizeOf (Value.vdate iso) = sizeOf iso + 1 := by simp; omega
  rw [hs]
  rfl

mutual

/-- The expected `parse∘stringify` image of a safe object-entry value. -/
def normEntryV : Nat → Value → JVal
  | 0, _ => .prim .pnull
  | fu + 1, v =>
    match v with
    | .vnull => .prim .pnull
    | .vbool b => .prim (.pbool b)
    | .vnum n => .prim (.pnum n)
    | .vstr s => .prim (.pstr s)
    | .vdate iso => .prim (.pstr iso)
    | .vmap es => .prim (.pmap es)
    | .vset es => .prim (.pset es)
    | .vobj fs => .obj (normFieldsV fu fs)
    | .varr xs => .arr (normItemsV fu xs)

/-- Field-wise image: droppable entries are omitted. -/
def normFieldsV : Nat → List (Str × Value) → List (Str × JVal)
  | 0, _ => []
  | _ + 1, [] => []
  | fu + 1, f :: t =>
    if dropV f.2 then normFieldsV fu t
    else (f.1, normEntryV fu f.2) :: normFieldsV fu t

def normItemsV : Nat → List Value → List (Option JVal)
  | 0, _ => []
  | _ + 1, [] => []
  | fu + 1, x :: t => some (normItemV fu x) :: normItemsV fu t

/-- The image of a bracket array item (`null` becomes the empty string). -/
def normItemV : Nat → Value → JVal
  | 0, _ => .prim .pnull
  | fu + 1, v =>
    match v with
    | .vnull => .prim (.pstr [])
    | .vbool b => .prim (.pbool b)
    | .vnum n => .prim (.pnum n)
    | .vstr s => .prim (.pstr s)
    | .vdate iso => .prim (.pstr iso)
    | .vmap es => .prim (.pmap es)
    | .vset es => .prim (.pset es)
    | .vobj fs => .obj (normFieldsV fu fs)
    | .varr xs => .arr (normIdxV fu xs)

def normIdxV : Nat → List Value → List (Option JVal)
  | 0, _ => []
  | _ + 1, [] => []
  | fu + 1, x :: t => some (normEntryV fu x) :: normIdxV fu t

end

def normEntry (v : Value) : JVal := normEntryV (sizeOf v) v

def normFields (fs : List (Str × Value)) : List (Str × JVal) :=
  normFieldsV (sizeOf fs) fs

def normItems (xs : List Value) : List (Option JVal) := normItemsV (sizeOf xs) xs

def normItem (v : Value) : JVal := normItemV (sizeOf v) v

def normIdx (xs : List Value) : List (Option JVal) := normIdxV (sizeOf xs) xs

mutual
theorem normEntryV_irr : ∀ (fu fu2 : Nat) (v : Value), sizeOf v ≤ fu →
    sizeOf v ≤ fu2 → normEntryV fu v = normEntryV fu2 v
  | 0, _, v, h, _ => absurd h (by have := value_sizeOf_pos v; omega)
  | _ + 1, 0, v, _, h2 => absurd h2 (by have := value_sizeOf_pos v; omega)
  | fu + 1, fu2 + 1, v, h, h2 => by
    cases v with
    | vobj fs =>
      have hs : sizeOf (Value.vobj fs) = 1 + sizeOf fs := by simp
      rw [hs] at h h2
      simp only [normEntryV]
      rw [normFieldsV_irr fu fu2 fs (by omega) (by omega)]
    | varr xs =>
      have hs : sizeOf (Value.varr xs) = 1 + sizeOf xs := by simp
      rw [hs] at h h2
      simp only [normEntryV]
      rw [normItemsV_irr fu fu2 xs (by omega) (by omega)]
    | _ => rfl

theorem normFieldsV_irr : ∀ (fu fu2 : Nat) (fs : List (Str × Value)), sizeOf fs ≤ fu →
    sizeOf fs ≤ fu2 → normFieldsV fu fs = normFieldsV fu2 fs
  | 0, _, fs, h, _ => absurd h (by have := vfields_sizeOf_pos fs; omega)
  | _ + 1, 0, fs, _, h2 => absurd h2 (by have := vfields_sizeOf_pos fs; omega)
  | fu + 1, fu2 + 1, fs, h, h2 => by
    cases fs with
    | nil => rfl
    | cons f t =>
      obtain ⟨k, v⟩ := f
      have hj : sizeOf ((k, v) :: t) = 1 + (1 + sizeOf k + sizeOf v) + sizeOf t := by
        simp
      rw [hj] at h h2
      have h1 := normEntryV_irr fu fu2 v
        (by have := vfields_sizeOf_pos t; omega)
        (by have := vfields_sizeOf_pos t; omega)
      have h3 := normFieldsV_irr fu fu2 t
        (by have := value_sizeOf_pos v; have := str_sizeOf_pos k; omega)
        (by have := value_sizeOf_pos v; have := str_sizeOf_pos k; omega)
      simp only [normFieldsV, h1, h3]

theorem normItemsV_irr : ∀ (fu fu2 : Nat) (xs : List Value), sizeOf xs ≤ fu →
    sizeOf xs ≤ fu2 → normItemsV fu xs = normItemsV fu2 xs
  | 0, _, xs, h, _ => absurd h (by have := vitems_sizeOf_pos xs; omega)
  | _ + 1, 0, xs, _, h2 => absurd h2 (by have := vitems_sizeOf_pos xs; omega)
  | fu + 1, fu2 + 1, xs, h, h2 => by
    cases xs with
    | nil => rfl
    | cons x t =>
      have hj : sizeOf (x :: t) = 1 + sizeOf x + sizeOf t := by simp
      rw [hj] at h h2
      have h1 := normItemV_irr fu fu2 x
        (by have := vitems_sizeOf_pos t; omega)
        (by have := vitems_sizeOf_pos t; omega)
      have h3 := normItemsV_irr fu fu2 t
        (by have := value_sizeOf_pos x; omega)
        (by have := value_sizeOf_pos x; omega)
      simp only [normItemsV, h1, h3]

theorem normItemV_irr : ∀ (fu fu2 : Nat) (v : Value), sizeOf v ≤ fu →
    sizeOf v ≤ fu2 → normItemV fu v = normItemV fu2 v
  | 0, _, v, h, _ => absurd h (by have := value_sizeOf_pos v; omega)
  | _ + 1, 0, v, _, h2 => absurd h2 (by have := value_sizeOf_pos v; omega)
  | fu + 1, fu2 + 1, v, h, h2 => by
    cases v with
    | vobj fs =>
      have hs : sizeOf (Value.vobj fs) = 1 + sizeOf fs := by simp
      rw [hs] at h h2
      simp only [normItemV]
      rw [normFieldsV_irr fu fu2 fs (by omega) (by omega)]
    | varr xs =>
      have hs : sizeOf (Value.varr xs) = 1 + sizeOf xs := by simp
      rw [hs] at h h2
      simp only [normItemV]
      rw [normIdxV_irr fu fu2 xs (by omega) (by omega)]
    | _ => rfl

theorem normIdxV_irr : ∀ (fu fu2 : Nat) (xs : List Value), sizeOf xs ≤ fu →
    sizeOf xs ≤ fu2 → normIdxV fu xs = normIdxV fu2 xs
  | 0, _, xs, h, _ => absurd h (by have := vitems_sizeOf_pos xs; omega)
  | _ + 1, 0, xs, _, h2 => absurd h2 (by have := vitems_sizeOf_pos xs; omega)
  | fu + 1, fu2 + 1, xs, h, h2 => by
    cases xs with
    | nil => rfl
    | cons x t =>
      have hj : sizeOf (x :: t) = 1 + sizeOf x + sizeOf t := by simp
      rw [hj] at h h2
      have h1 := normEntryV_irr fu fu2 x
        (by have := vitems_sizeOf_pos t; omega)
        (by have := vitems_sizeOf_pos t; omega)
      have h3 := normIdxV_irr fu fu2 t
        (by have := value_sizeOf_pos x; omega)
        (by have := value_sizeOf_pos x; omega)
      simp only [normIdxV, h1, h3]
end

theorem normEntry_obj (fs : List (Str × Value)) :
    normEntry (.vobj fs) = .obj (normFields fs) := by
  show normEntryV (sizeOf (Value.vobj fs)) _ = _
  have hs : sizeOf (Value.vobj fs) = sizeOf fs + 1 := by simp; omega
  rw [hs]
  rfl

theorem normEntry_arr (xs : List Value) :
    normEntry (.varr xs) = .arr (normItems xs) := by
  show normEntryV (sizeOf (Value.varr xs)) _ = _
  have hs : sizeOf (Value.varr xs) = sizeOf xs + 1 := by simp; omega
  rw [hs]
  rfl

theorem normEntry_str (s : Str) : normEntry (.vstr s) = .prim (.pstr s) := by
  show normEntryV (sizeOf (Value.vstr s)) _ = _
  have hs : sizeOf (Value.vstr s) = sizeOf s + 1 := by simp; omega
  rw [hs]
  rfl

theorem normEntry_date (iso : Str) : normEntry (.vdate iso) = .prim (.pstr iso) := by
  show normEntryV (sizeOf (Value.vdate iso)) _ = _
  have hs : sizeOf (Value.vdate iso) = sizeOf iso + 1 := by simp; omega
  rw [hs]
  rfl

theorem normEntry_map (es : List (Json × Json)) :
    normEntry (.vmap es) = .prim (.pmap es) := by
  show normEntryV (sizeOf (Value.vmap es)) _ = _
  have hs : sizeOf (Value.vmap es) = sizeOf es + 1 := by simp; omega
  rw [hs]
  rfl

theorem normEntry_set (es : List Json) :
    normEntry (.vset es) = .prim (.pset es) := by
  show normEntryV (sizeOf (Value.vset es)) _ = _
  have hs : sizeOf (Value.vset es) = sizeOf es + 1 := by simp; omega
  rw [hs]
  rfl

theorem normFields_cons (f : Str × Value) (t : List (Str × Value)) :
    normFields (f :: t)
      = if dropV f.2 then normFields t else (f.1, normEntry f.2) :: normFields t := by
  show normFieldsV (sizeOf (f :: t)) _ = _
  obtain ⟨k, v⟩ := f
  have hs : sizeOf ((k, v) :: t) = (sizeOf k + sizeOf v + sizeOf t + 1) + 1 := by
    simp
    omega
  rw [hs]
  simp only [normFieldsV]
  rw [normEntryV_irr _ (sizeOf v) v
      (by have := str_sizeOf_pos k; have := vfields_sizeOf_pos t; omega)
      (Nat.le_refl _),
    normFieldsV_irr _ (sizeOf t) t
      (by have := str_sizeOf_pos k; have := value_sizeOf_pos v; omega)
      (Nat.le_refl _)]
  rfl

theorem normItems_cons (x : Value) (t : List Value) :
    normItems (x :: t) = some (normItem x) :: normItems t := by
  show normItemsV (sizeOf (x :: t)) _ = _
  have hs : sizeOf (x :: t) = (sizeOf x + sizeOf t) + 1 := by simp; omega
  rw [hs]
  simp only [normItemsV]
  rw [normItemV_irr _ (sizeOf x) x (by have := vitems_sizeOf_pos t; omega)
      (Nat.le_refl _),
    normItemsV_irr _ (sizeOf t) t (by have := value_sizeOf_pos x; omega)
      (Nat.le_refl _)]
  rfl

theorem normIdx_cons (x : Value) (t : List Value) :
    normIdx (x :: t) = some (normEntry x) :: normIdx t := by
  show normIdxV (sizeOf (x :: t)) _ = _
  have hs : sizeOf (x :: t) = (sizeOf x + sizeOf t) + 1 := by simp; omega
  rw [hs]
  simp only [normIdxV]
  rw [normEntryV_irr _ (sizeOf x) x (by have := vitems_sizeOf_pos t; omega)
      (Nat.le_refl _),
    normIdxV_irr _ (sizeOf t) t (by have := value_sizeOf_pos x; omega)
      (Nat.le_refl _)]
  rfl

theorem normItem_obj (fs : List (Str × Value)) :
    normItem (.vobj fs) = .obj (normFields fs) := by
  show normItemV (sizeOf (Value.vobj fs)) _ = _
  have hs : sizeOf (Value.vobj fs) = sizeOf fs + 1 := by simp; omega
  rw [hs]
  rfl

theorem normItem_arr (xs : List Value) :
    normItem (.varr xs) = .arr (normIdx xs) := by
  show normItemV (sizeOf (Value.varr xs)) _ = _
  have hs : sizeOf (Value.varr xs) = sizeOf xs + 1 := by simp; omega
  rw [hs]
  rfl

theorem normItem_str (s : Str) : normItem (.vstr s) = .prim (.pstr s) := by
  show normItemV (sizeOf (Value.vstr s)) _ = _
  have hs : sizeOf (Value.vstr s) = sizeOf s + 1 := by simp; omega
  rw [hs]
  rfl

theorem normItem_date (iso : Str) : normItem (.vdate iso) = .prim (.pstr iso) := by
  show normItemV (sizeOf (Value.vdate iso)) _ = _
  have hs : sizeOf (Value.vdate iso) = sizeOf iso + 1 := by simp; omega
  rw [hs]
  rfl

def buildFields (cf : CaseFuns) (o : QsOptions) (fs : List (Str × Value)) (p : Str) :
    List Str := buildFieldsF (sizeOf fs) cf o fs p

def buildIdxEntries (cf : CaseFuns) (o : QsOptions) (xs : List Value) (i : Nat)
    (p : Str) : List Str := buildIdxEntriesF (sizeOf xs) cf o xs i p

def buildEntry (cf : CaseFuns) (o : QsOptions) (k : Str) (v : Value) (p : Str) :
    List Str := buildEntryF (sizeOf v + 1) cf o k v p

def buildArrItems (cf : CaseFuns) (o : QsOptions) (xs : List Value) (i : Nat)
    (kp : Str) : List Str := buildArrItemsF (sizeOf xs) cf o xs i kp

mutual
theorem buildF_irr : ∀ (fu fu2 : Nat) (cf : CaseFuns) (o : QsOptions) (v : Value)
    (p : Str), sizeOf v ≤ fu → sizeOf v ≤ fu2 → buildF fu cf o v p = buildF fu2 cf o v p
  | 0, _, _, _, v, _, h, _ => absurd h (by have := value_sizeOf_pos v; omega)
  | _ + 1, 0, _, _, v, _, _, h2 => absurd h2 (by have := value_sizeOf_pos v; omega)
  | fu + 1, fu2 + 1, cf, o, v, p, h, h2 => by
    cases v with
    | vobj fs =>
      have hs : sizeOf (Value.vobj fs) = 1 + sizeOf fs := by simp
      rw [hs] at h h2
      simp only [buildF]
      rw [buildFieldsF_irr fu fu2 cf o fs p (by omega) (by omega)]
    | varr xs =>
      have hs : sizeOf (Value.varr xs) = 1 + sizeOf xs := by simp
      rw [hs] at h h2
      simp only [buildF]
      rw [buildIdxEntriesF_irr fu fu2 cf o xs 0 p (by omega) (by omega)]
    | _ => rfl

theorem buildFieldsF_irr : ∀ (fu fu2 : Nat) (cf : CaseFuns) (o : QsOptions)
    (fs : List (Str × Value)) (p : Str), sizeOf fs ≤ fu → sizeOf fs ≤ fu2 →
    buildFieldsF fu cf o fs p = buildFieldsF fu2 cf o fs p
  | 0, _, _, _, fs, _, h, _ => absurd h (by have := vfields_sizeOf_pos fs; omega)
  | _ + 1, 0, _, _, fs, _, _, h2 => absurd h2 (by have := vfields_sizeOf_pos fs; omega)
  | fu + 1, fu2 + 1, cf, o, fs, p, h, h2 => by
    cases fs with
    | nil => rfl
    | cons f t =>
      obtain ⟨k, v⟩ := f
      have hj : sizeOf ((k, v) :: t) = 1 + (1 + sizeOf k + sizeOf v) + sizeOf t := by
        simp
      rw [hj] at h h2
      have h1 := buildEntryF_irr fu fu2 cf o k v p
        (by have := vfields_sizeOf_pos t; have := str_sizeOf_pos k; omega)
        (by have := vfields_sizeOf_pos t; have := str_sizeOf_pos k; omega)
      have h3 := buildFieldsF_irr fu fu2 cf o t p
        (by have := value_sizeOf_pos v; have := str_sizeOf_pos k; omega)
        (by have := value_sizeOf_pos v; have := str_sizeOf_pos k; omega)
      simp only [buildFieldsF, h1, h3]

theorem buildIdxEntriesF_irr : ∀ (fu fu2 : Nat) (cf : CaseFuns) (o : QsOptions)
    (xs : List Value) (i : Nat) (p : Str), sizeOf xs ≤ fu → sizeOf xs ≤ fu2 →
    buildIdxEntriesF fu cf o xs i p = buildIdxEntriesF fu2 cf o xs i p
  | 0, _, _, _, xs, _, _, h, _ => absurd h (by have := vitems_sizeOf_pos xs; omega)
  | _ + 1, 0, _, _, xs, _, _, _, h2 => absurd h2 (by have := vitems_sizeOf_pos xs; omega)
  | fu + 1, fu2 + 1, cf, o, xs, i, p, h, h2 => by
    cases xs with
    | nil => rfl
    | cons x t =>
      have hj : sizeOf (x :: t) = 1 + sizeOf x + sizeOf t := by simp
      rw [hj] at h h2
      have h1 := buildEntryF_irr fu fu2 cf o (natChars i) x p
        (by have := vitems_sizeOf_pos t; omega)
        (by have := vitems_sizeOf_pos t; omega)
      have h3 := buildIdxEntriesF_irr fu fu2 cf o t (i + 1) p
        (by have := value_sizeOf_pos x; omega)
        (by have := value_sizeOf_pos x; omega)
      simp only [buildIdxEntriesF, h1, h3]

theorem buildEntryF_irr : ∀ (fu fu2 : Nat) (cf : CaseFuns) (o : QsOptions) (k : Str)
    (v : Value) (p : Str), sizeOf v < fu → sizeOf v < fu2 →
    buildEntryF fu cf o k v p = buildEntryF fu2 cf o k v p
  | 0, _, _, _, _, v, _, h, _ => absurd h (by omega)
  | _ + 1, 0, _, _, _, v, _, _, h2 => absurd h2 (by omega)
  | fu + 1, fu2 + 1, cf, o, k, v, p, h, h2 => by
    cases v with
    | vobj fs =>
      have hs : sizeOf (Value.vobj fs) = 1 + sizeOf fs := by simp
      rw [hs] at h h2
      simp only [buildEntryF]
      rw [buildF_irr fu fu2 cf o (.vobj fs) _ (by simp; omega) (by simp; omega)]
    | varr xs =>
      have hs : sizeOf (Value.varr xs) = 1 + sizeOf xs := by simp
      rw [hs] at h h2
      simp only [buildEntryF]
      rw [buildArrItemsF_irr fu fu2 cf o xs 0 _ (by omega) (by omega)]
    | _ => rfl

theorem buildArrItemsF_irr : ∀ (fu fu2 : Nat) (cf : CaseFuns) (o : QsOptions)
    (xs : List Value) (i : Nat) (kp : Str), sizeOf xs ≤ fu → sizeOf xs ≤ fu2 →
    buildArrItemsF fu cf o xs i kp = buildArrItemsF fu2 cf o xs i kp
  | 0, _, _, _, xs, _, _, h, _ => absurd h (by have := vitems_sizeOf_pos xs; omega)
  | _ + 1, 0, _, _, xs, _, _, _, h2 => absurd h2 (by have := vitems_sizeOf_pos xs; omega)
  | fu + 1, fu2 + 1, cf, o, xs, i, kp, h, h2 => by
    cases xs with
    | nil => rfl
    | cons x t =>
      have hj : sizeOf (x :: t) = 1 + sizeOf x + sizeOf t := by simp
      rw [hj] at h h2
      have h1 := buildF_irr fu fu2 cf o x
        (transformKey cf (kp ++ '[' :: natChars i ++ [']']) o)
        (by have := vitems_sizeOf_pos t; omega)
        (by have := vitems_sizeOf_pos t; omega)
      have h3 := buildArrItemsF_irr fu fu2 cf o t (i + 1) kp
        (by have := value_sizeOf_pos x; omega)
        (by have := value_sizeOf_pos x; omega)
      simp only [buildArrItemsF, h1, h3]
end

/-- The accumulated key path of one reduce entry. -/
def entryKeyPath (p k : Str) : Str := if p = [] then k else p ++ '.' :: k

theorem build_obj (cf : CaseFuns) (o : QsOptions) (fs : List (Str × Value)) (p : Str) :
    buildKeyValuePairs cf o (.vobj fs) p = buildFields cf o fs p := by
  show buildF (sizeOf (Value.vobj fs)) cf o _ p = _
  have hs : sizeOf (Value.vobj fs) = sizeOf fs + 1 := by simp; omega
  rw [hs]
  rfl

theorem build_arr (cf : CaseFuns) (o : QsOptions) (xs : List Value) (p : Str) :
    buildKeyValuePairs cf o (.varr xs) p = buildIdxEntries cf o xs 0 p := by
  show buildF (sizeOf (Value.varr xs)) cf o _ p = _
  have hs : sizeOf (Value.varr xs) = sizeOf xs + 1 := by simp; omega
  rw [hs]
  rfl

theorem buildFields_nil (cf : CaseFuns) (o : QsOptions) (p : Str) :
    buildFields cf o [] p = [] := rfl

theorem buildFields_cons (cf : CaseFuns) (o : QsOptions) (f : Str × Value)
    (t : List (Str × Value)) (p : Str) :
    buildFields cf o (f :: t) p = buildEntry cf o f.1 f.2 p ++ buildFields cf o t p := by
  show buildFieldsF (sizeOf (f :: t)) cf o _ p = _
  obtain ⟨k, v⟩ := f
  have hs : sizeOf ((k, v) :: t) = (sizeOf k + sizeOf v + sizeOf t + 1) + 1 := by
    simp
    omega
  rw [hs]
  simp only [buildFieldsF]
  rw [buildEntryF_irr _ (sizeOf v + 1) cf o k v p
      (by have := str_sizeOf_pos k; have := vfields_sizeOf_pos t; omega)
      (by omega),
    buildFieldsF_irr _ (sizeOf t) cf o t p
      (by have := str_sizeOf_pos k; have := value_sizeOf_pos v; omega)
      (Nat.le_refl _)]
  rfl

theorem buildIdxEntries_nil (cf : CaseFuns) (o : QsOptions) (i : Nat) (p : Str) :
    buildIdxEntries cf o [] i p = [] := rfl

theorem buildIdxEntries_cons (cf : CaseFuns) (o : QsOptions) (x : Value)
    (t : List Value) (i : Nat) (p : Str) :
    buildIdxEntries cf o (x :: t) i p
      = buildEntry cf o (natChars i) x p ++ buildIdxEntries cf o t (i + 1) p := by
  show buildIdxEntriesF (sizeOf (x :: t)) cf o _ i p = _
  have hs : sizeOf (x :: t) = (sizeOf x + sizeOf t) + 1 := by simp; omega
  rw [hs]
  simp only [buildIdxEntriesF]
  rw [buildEntryF_irr _ (sizeOf x + 1) cf o (natChars i) x p
      (by have := vitems_sizeOf_pos t; omega) (by omega),
    buildIdxEntriesF_irr _ (sizeOf t) cf o t (i + 1) p
      (by have := value_sizeOf_pos x; omega) (Nat.le_refl _)]
  rfl

theorem buildArrItems_nil (cf : CaseFuns) (o : QsOptions) (i : Nat) (kp : Str) :
    buildArrItems cf o [] i kp = [] := rfl

theorem buildArrItems_cons (cf : CaseFuns) (o : QsOptions) (x : Value)
    (t : List Value) (i : Nat) (kp : Str) :
    buildArrItems cf o (x :: t) i kp
      = (if isObjectV x && !isDateV x then
          buildKeyValuePairs cf o x (transformKey cf (kp ++ '[' :: natChars i ++ [']']) o)
        else [addPfx (transformKey cf (kp ++ '[' :: natChars i ++ [']']) o) o
          ++ '=' :: processValue x])
        ++ buildArrItems cf o t (i + 1) kp := by
  show buildArrItemsF (sizeOf (x :: t)) cf o _ i kp = _
  have hs : sizeOf (x :: t) = (sizeOf x + sizeOf t) + 1 := by simp; omega
  rw [hs]
  simp only [buildArrItemsF]
  rw [buildF_irr _ (sizeOf x) cf o x _ (by have := vitems_sizeOf_pos t; omega)
      (Nat.le_refl _),
    buildArrItemsF_irr _ (sizeOf t) cf o t (i + 1) kp
      (by have := value_sizeOf_pos x; omega) (Nat.le_refl _)]
  rfl

theorem buildEntry_omit (cf : CaseFuns) (o : QsOptions) (k : Str) (v : Value) (p : Str)
    (h : shouldOmitValue v (entryKeyPath p k) o = true) :
    buildEntry cf o k v p = [] := by
  show buildEntryF (sizeOf v + 1) cf o k v p = _
  simp only [buildEntryF]
  rw [show (if p = [] then k else p ++ '.' :: k) = entryKeyPath p k from rfl, h]
  rfl

theorem buildEntry_leaf (cf : CaseFuns) (o : QsOptions) (k : Str) (v : Value) (p : Str)
    (h : shouldOmitValue v (entryKeyPath p k) o = false)
    (hna : ∀ xs, v ≠ .varr xs) (hno : ∀ fs, v ≠ .vobj fs) :
    buildEntry cf o k v p
      = [addPfx (transformKey cf (entryKeyPath p k) o) o ++ '=' :: processValue v] := by
  show buildEntryF (sizeOf v + 1) cf o k v p = _
  cases v with
  | varr xs => exact absurd rfl (hna xs)
  | vobj fs => exact absurd rfl (hno fs)
  | vnull =>
    simp only [buildEntryF]
    rw [show (if p = [] then k else p ++ '.' :: k) = entryKeyPath p k from rfl, h]
    rfl
  | vbool b =>
    simp only [buildEntryF]
    rw [show (if p = [] then k else p ++ '.' :: k) = entryKeyPath p k from rfl, h]
    rfl
  | vnum n =>
    simp only [buildEntryF]
    rw [show (if p = [] then k else p ++ '.' :: k) = entryKeyPath p k from rfl, h]
    rfl
  | vstr s =>
    simp only [buildEntryF]
    rw [show (if p = [] then k else p ++ '.' :: k) = entryKeyPath p k from rfl, h]
    rfl
  | vdate iso =>
    simp only [buildEntryF]
    rw [show (if p = [] then k else p ++ '.' :: k) = entryKeyPath p k from rfl, h]
    rfl
  | vmap es =>
    simp only [buildEntryF]
    rw [show (if p = [] then k else p ++ '.' :: k) = entryKeyPath p k from rfl, h]
    rfl
  | vset es =>
    simp only [buildEntryF]
    rw [show (if p = [] then k else p ++ '.' :: k) = entryKeyPath p k from rfl, h]
    rfl

theorem buildEntry_arrE (cf : CaseFuns) (o : QsOptions) (k : Str) (xs : List Value)
    (p : Str) (h : shouldOmitValue (.varr xs) (entryKeyPath p k) o = false) :
    buildEntry cf o k (.varr xs) p
      = if xs.isEmpty then [] else buildArrItems cf o xs 0 (entryKeyPath p k) := by
  show buildEntryF (sizeOf (Value.varr xs) + 1) cf o k _ p = _
  simp only [buildEntryF]
  rw [show (if p = [] then k else p ++ '.' :: k) = entryKeyPath p k from rfl, h]
  simp only [Bool.false_eq_true, if_false]
  rw [buildArrItemsF_irr _ (sizeOf xs) cf o xs 0 (entryKeyPath p k)
      (by simp) (Nat.le_refl _)]
  rfl

theorem buildEntry_objE (cf : CaseFuns) (o : QsOptions) (k : Str)
    (fs : List (Str × Value)) (p : Str)
    (h : shouldOmitValue (.vobj fs) (entryKeyPath p k) o = false) :
    buildEntry cf o k (.vobj fs) p
      = if fs.isEmpty then []
        else buildKeyValuePairs cf o (.vobj fs) (entryKeyPath p k) := by
  show buildEntryF (sizeOf (Value.vobj fs) + 1) cf o k _ p = _
  simp only [buildEntryF]
  rw [show (if p = [] then k else p ++ '.' :: k) = entryKeyPath p k from rfl, h]
  rfl

theorem dig_not_special {c : Char} (h : isDig c = true) :
    c ≠ '&' ∧ c ≠ '=' ∧ c ≠ '#' ∧ c ≠ '%' ∧ c ≠ 'm' ∧ c ≠ 's' := by
  refine ⟨?_, ?_, ?_, ?_, ?_, ?_⟩ <;> intro he <;> subst he <;>
    exact absurd h (by decide)

theorem intChars_mem {n : Int} {c : Char} (hc : c ∈ intChars n) :
    isDig c = true ∨ c = '-' := by
  unfold intChars at hc
  rcases List.mem_append.1 hc with h | h
  · right
    by_cases hn : n < 0
    · rw [if_pos hn] at h
      simpa using h
    · rw [if_neg hn] at h
      cases h
  · exact Or.inl (natChars_digits _ c h)

theorem needsEnc_int (n : Int) : needsEncoding (intChars n) = false := by
  unfold needsEncoding
  rw [List.any_eq_false]
  intro c hc
  rcases intChars_mem hc with h | h
  · obtain ⟨h1, h2, h3, -, -, -⟩ := dig_not_special h
    simp [h1, h2, h3]
  · subst h
    decide

theorem pct_not_mem_int (n : Int) : '%' ∉ intChars n := by
  intro hc
  rcases intChars_mem hc with h | h
  · obtain ⟨-, -, -, h4, -, -⟩ := dig_not_special h
    exact h4 rfl
  · cases h

theorem mapShaped_head {c : Char} {t : Str} (h : c ≠ 'm') :
    mapShaped (c :: t) = false := by
  unfold mapShaped
  have h1 : (lit "map(").isPrefixOf (c :: t) = false := by
    show (('m' == c) && List.isPrefixOf (lit "ap(") t) = false
    rw [beq_eq_false_iff_ne.mpr (Ne.symm h)]
    rfl
  rw [h1]
  rfl

theorem setShaped_head {c : Char} {t : Str} (h : c ≠ 's') :
    setShaped (c :: t) = false := by
  unfold setShaped
  have h1 : (lit "set(").isPrefixOf (c :: t) = false := by
    show (('s' == c) && List.isPrefixOf (lit "et(") t) = false
    rw [beq_eq_false_iff_ne.mpr (Ne.symm h)]
    rfl
  rw [h1]
  rfl

theorem jsonToJVal_num (n : Int) : jsonToJVal (.jnum n) = .prim (.pnum n) := by
  show jsonToJValF (sizeOf (Json.jnum n)) _ = _
  have hs : sizeOf (Json.jnum n) = sizeOf n + 1 := by simp; omega
  rw [hs]
  rfl

/-- Wire round trip of a boolean leaf. -/
theorem leaf_bool (b : Bool) :
    decodeValue (recoverVal (processValue (.vbool b))) = .prim (.pbool b) := by
  cases b <;> rfl

/-- Wire round trip of a null array item. -/
theorem leaf_null :
    decodeValue (recoverVal (processValue .vnull)) = .prim (.pstr []) := rfl

/-- Wire round trip of a number leaf. -/
theorem leaf_num (n : Int) :
    decodeValue (recoverVal (processValue (.vnum n))) = .prim (.pnum n) := by
  rw [processValue_eq]
  have hpre : preStr (.vnum n) = intChars n := rfl
  rw [hpre]
  have hw : wireOf (intChars n) = intChars n := by
    unfold wireOf
    rw [needsEnc_int]
    rfl
  rw [hw]
  have hr : recoverVal (intChars n) = intChars n := by
    unfold recoverVal
    rw [isEncoded_no_pct (pct_not_mem_int n)]
    rfl
  rw [hr]
  obtain ⟨c, t, hct, hc⟩ := intChars_cons n
  have hm : mapShaped (intChars n) = false := by
    rw [hct]
    apply mapShaped_head
    rcases hc with h | h
    · exact (dig_not_special h).2.2.2.2.1
    · subst h; decide
  have hs : setShaped (intChars n) = false := by
    rw [hct]
    apply setShaped_head
    rcases hc with h | h
    · exact (dig_not_special h).2.2.2.2.2
    · subst h; decide
  have hj : jparse (intChars n) = some (.jnum n) := by
    have := jparse_jprint (.jnum n) (by rfl)
    rwa [jprint_num] at this
  unfold decodeValue
  rw [hm, hs, hj]
  simp only [Bool.false_eq_true, if_false]
  exact jsonToJVal_num n

/-- Wire round trip of a raw string leaf. -/
theorem leaf_str {s : Str} (h : rawStr s = true) :
    decodeValue (recoverVal (wireOf s)) = .prim (.pstr s) := by
  unfold rawStr at h
  rw [Bool.and_eq_true, Bool.and_eq_true, Bool.and_eq_true] at h
  obtain ⟨⟨⟨hws, hjp⟩, hm⟩, hs⟩ := h
  rw [recover_wireOf hws]
  unfold decodeValue
  rw [Bool.not_eq_true' ] at hm hs
  rw [hm, hs, Option.isNone_iff_eq_none.1 hjp]
  rfl

/-- Wire round trip of a Map leaf. -/
theorem preStr_map (es : List (Json × Json)) :
    preStr (.vmap es) = lit "map(" ++ (jprint (mapPayload es) ++ [')']) := rfl

theorem preStr_set (es : List Json) :
    preStr (.vset es) = lit "set(" ++ (jprint (.jarr es) ++ [')']) := rfl

theorem leaf_map {es : List (Json × Json)} (hkd : keysDistinct es = true)
    (hg : jgood (mapPayload es) = true)
    (hws : wireSafe (preStr (.vmap es)) = true) :
    decodeValue (recoverVal (processValue (.vmap es))) = .prim (.pmap es) := by
  rw [processValue_eq, recover_wireOf hws, preStr_map]
  have hm : mapShaped (lit "map(" ++ (jprint (mapPayload es) ++ [')'])) = true := by
    unfold mapShaped
    rw [Bool.and_eq_true]
    constructor
    · exact (List.isPrefixOf_iff_prefix).2 (List.prefix_append _ _)
    · rw [show lit "map(" ++ (jprint (mapPayload es) ++ [')'])
          = (lit "map(" ++ jprint (mapPayload es)) ++ [')'] from by simp,
        List.getLast?_concat]
      rfl
  have hdrop : (((lit "map(" ++ (jprint (mapPayload es) ++ [')'])).drop 4)).dropLast
      = jprint (mapPayload es) := by
    rw [show (4 : Nat) = (lit "map(").length from rfl, List.drop_left,
      List.dropLast_concat]
  unfold decodeValue
  rw [hm, if_pos rfl, hdrop, jparse_jprint _ hg]
  simp only [mapEntries_payload, mapFromList_id hkd]

/-- Wire round trip of a Set leaf. -/
theorem leaf_set {es : List Json} (hed : elemsDistinct es = true)
    (hg : jgood (.jarr es) = true)
    (hws : wireSafe (preStr (.vset es)) = true) :
    decodeValue (recoverVal (processValue (.vset es))) = .prim (.pset es) := by
  rw [processValue_eq, recover_wireOf hws, preStr_set]
  have hm : mapShaped (lit "set(" ++ (jprint (.jarr es) ++ [')'])) = false := by
    rw [show lit "set(" ++ (jprint (.jarr es) ++ [')'])
        = 's' :: (lit "et(" ++ (jprint (.jarr es) ++ [')'])) from rfl]
    exact mapShaped_head (by decide)
  have hs : setShaped (lit "set(" ++ (jprint (.jarr es) ++ [')'])) = true := by
    unfold setShaped
    rw [Bool.and_eq_true]
    constructor
    · exact (List.isPrefixOf_iff_prefix).2 (List.prefix_append _ _)
    · rw [show lit "set(" ++ (jprint (.jarr es) ++ [')'])
          = (lit "set(" ++ jprint (.jarr es)) ++ [')'] from by simp,
        List.getLast?_concat]
      rfl
  have hdrop : (((lit "set(" ++ (jprint (.jarr es) ++ [')'])).drop 4)).dropLast
      = jprint (.jarr es) := by
    rw [show (4 : Nat) = (lit "set(").length from rfl, List.drop_left,
      List.dropLast_concat]
  unfold decodeValue
  rw [hm]
  simp only [Bool.false_eq_true, if_false]
  rw [hs, if_pos rfl, hdrop, jparse_jprint _ hg]
  show JVal.prim (.pset (setFromList es)) = _
  rw [setFromList_id hed]

/-! ### Path-codec string lemmas -/

theorem digSpan_eq (s : Str) :
    digSpan s = (s.takeWhile isDig, s.dropWhile isDig) := by
  induction s with
  | nil => rfl
  | cons c t ih =>
    unfold digSpan
    cases hc : isDig c with
    | true => simp [List.takeWhile_cons, List.dropWhile_cons, hc, ih]
    | false => simp [List.takeWhile_cons, List.dropWhile_cons, hc]

theorem digSpan_parts {s a b : Str} (h : digSpan s = (a, b)) : a ++ b = s := by
  rw [digSpan_eq] at h
  injection h with h1 h2
  rw [← h1, ← h2]
  exact List.takeWhile_append_dropWhile isDig s

theorem modifyHead_append_left {α : Type} (f : List α → List α) :
    ∀ (l1 l2 : List (List α)), l1 ≠ [] →
    (l1 ++ l2).modifyHead f = l1.modifyHead f ++ l2 := by
  intro l1 l2 h
  cases l1 with
  | nil => exact absurd rfl h
  | cons x t => rfl

theorem splitOn_append_sep (c : Char) :
    ∀ (a b : Str), (a ++ c :: b).splitOn c = a.splitOn c ++ b.splitOn c := by
  intro a
  induction a with
  | nil =>
    intro b
    show ((c :: b).splitOn c) = _
    simp [List.splitOn, List.splitOnP_cons]
  | cons x t ih =>
    intro b
    show ((x :: (t ++ c :: b)).splitOn c) = (x :: t).splitOn c ++ b.splitOn c
    simp only [List.splitOn, List.splitOnP_cons] at ih ⊢
    cases hx : (x == c) with
    | true => simp [ih]
    | false =>
      simp only [Bool.false_eq_true, if_false]
      rw [ih b, modifyHead_append_left _ _ _ (List.splitOnP_ne_nil _ t)]

theorem mem_splitOn_not_sep {c : Char} :
    ∀ {s x : Str}, x ∈ s.splitOn c → c ∉ x := by
  intro s
  induction s with
  | nil =>
    intro x hx
    simp only [List.splitOn, List.splitOnP_nil, List.mem_singleton] at hx
    subst hx
    exact List.not_mem_nil c
  | cons a t ih =>
    intro x hx
    simp only [List.splitOn, List.splitOnP_cons] at hx
    by_cases ha : (a == c) = true
    · rw [if_pos ha] at hx
      rcases List.mem_cons.1 hx with h | h
      · subst h; exact List.not_mem_nil c
      · exact ih h
    · rw [if_neg ha] at hx
      rcases hsp : (t.splitOnP fun b => b == c) with _ | ⟨hd, tl⟩
      · exact absurd hsp (List.splitOnP_ne_nil _ t)
      · rw [hsp] at hx
        simp only [List.modifyHead] at hx
        rcases List.mem_cons.1 hx with h | h
        · subst h
          intro hm
          rcases List.mem_cons.1 hm with h2 | h2
          · exact ha (by simp [h2])
          · exact ih (x := hd)
              (by simp only [List.splitOn]; rw [hsp]; exact List.mem_cons_self hd tl) h2
        · exact ih (x := x)
              (by simp only [List.splitOn]; rw [hsp]; exact List.mem_cons_of_mem hd h)

theorem intercalate_extend_last (c : Char) :
    ∀ (init : List Str) (x y : Str),
    List.intercalate [c] (init ++ [x]) ++ y = List.intercalate [c] (init ++ [x ++ y]) := by
  intro init
  induction init with
  | nil => intro x y; simp [List.intercalate]
  | cons a t ih =>
    intro x y
    cases t with
    | nil =>
      simp only [List.nil_append, List.cons_append, List.intercalate,
        List.intersperse_cons_cons, List.flatten]
      simp [List.append_assoc]
    | cons a2 t2 =>
      have h1 := ih x y
      simp only [List.cons_append, List.intercalate, List.intersperse_cons_cons,
        List.flatten] at h1 ⊢
      simp [List.append_assoc, h1]

theorem replBrF_step_group {r : Str} {d : Char} {ds r2 : Str}
    (h : digSpan r = (d :: ds, ']' :: r2)) (fu : Nat) :
    replBrF (fu + 1) ('[' :: r) = '.' :: (d :: ds ++ replBrF fu r2) := by
  rw [replBrF.eq_def]
  simp only
  rw [h]
  rfl

theorem replBrF_step_nogroup {r : Str}
    (h : ∀ (d : Char) (ds r2 : Str), digSpan r ≠ (d :: ds, ']' :: r2)) (fu : Nat) :
    replBrF (fu + 1) ('[' :: r) = '[' :: replBrF fu r := by
  rw [replBrF.eq_def]
  simp only

theorem replBrF_step_other {c : Char} (hc : c ≠ '[') (r : Str) (fu : Nat) :
    replBrF (fu + 1) (c :: r) = c :: replBrF fu r := by
  rw [replBrF.eq_def]
  simp only

theorem hasGrF_step_group {r : Str} {d : Char} {ds r2 : Str}
    (h : digSpan r = (d :: ds, ']' :: r2)) (fu : Nat) :
    hasGrF (fu + 1) ('[' :: r) = true := by
  rw [hasGrF.eq_def]
  simp only
  rw [h]
  rfl

theorem hasGrF_step_nogroup {r : Str}
    (h : ∀ (d : Char) (ds r2 : Str), digSpan r ≠ (d :: ds, ']' :: r2)) (fu : Nat) :
    hasGrF (fu + 1) ('[' :: r) = hasGrF fu r := by
  rw [hasGrF.eq_def]
  simp only

theorem hasGrF_step_other {c : Char} (hc : c ≠ '[') (r : Str) (fu : Nat) :
    hasGrF (fu + 1) (c :: r) = hasGrF fu r := by
  rw [hasGrF.eq_def]
  simp only

theorem digSpan_cases (t : Str) :
    (∃ d ds r2, digSpan t = (d :: ds, ']' :: r2) ∧ (d :: ds) ++ ']' :: r2 = t) ∨
    (∀ (d : Char) (ds r2 : Str), digSpan t ≠ (d :: ds, ']' :: r2)) := by
  rcases hsp : digSpan t with ⟨a, b⟩
  cases a with
  | nil =>
    right
    intro d ds r2 hcon
    injection hcon with h1 h2
    cases h1
  | cons d0 ds0 =>
    cases b with
    | nil =>
      right
      intro d ds r2 hcon
      injection hcon with h1 h2
      cases h2
    | cons e r0 =>
      by_cases he : e = ']'
      · subst he
        left
        exact ⟨d0, ds0, r0, rfl, digSpan_parts hsp⟩
      · right
        intro d ds r2 hcon
        injection hcon with h1 h2
        injection h2 with he2 _
        exact he he2

theorem replBrF_irr : ∀ (fu fu2 : Nat) (s : Str), s.length ≤ fu → s.length ≤ fu2 →
    replBrF fu s = replBrF fu2 s
  | 0, fu2, s, h, _ => by
    have hz : s = [] := List.length_eq_zero.1 (Nat.le_zero.1 h)
    subst hz
    rw [replBrF_nil, replBrF_nil]
  | _ + 1, 0, s, _, h2 => by
    have hz : s = [] := List.length_eq_zero.1 (Nat.le_zero.1 h2)
    subst hz
    rw [replBrF_nil, replBrF_nil]
  | fu + 1, fu2 + 1, s, h, h2 => by
    cases s with
    | nil => rfl
    | cons c t =>
      simp only [List.length_cons] at h h2
      by_cases hc : c = '['
      · subst hc
        rcases digSpan_cases t with ⟨d, ds, r2, hsp, hab⟩ | hng
        · rw [replBrF_step_group hsp, replBrF_step_group hsp]
          have hlen : ds.length + 1 + (r2.length + 1) = t.length := by
            rw [← hab]
            simp
            omega
          rw [replBrF_irr fu fu2 r2 (by omega) (by omega)]
        · rw [replBrF_step_nogroup hng, replBrF_step_nogroup hng,
            replBrF_irr fu fu2 t (by omega) (by omega)]
      · rw [replBrF_step_other hc, replBrF_step_other hc,
          replBrF_irr fu fu2 t (by omega) (by omega)]

theorem digSpan_append : ∀ (t X a r : Str) (e : Char), digSpan t = (a, e :: r) →
    digSpan (t ++ X) = (a, e :: (r ++ X)) := by
  intro t
  induction t with
  | nil =>
    intro X a r e h
    injection h with h1 h2
    cases h2
  | cons c t ih =>
    intro X a r e h
    unfold digSpan at h
    by_cases hc : isDig c
    · rw [if_pos hc] at h
      rcases hsp : digSpan t with ⟨p1, p2⟩
      rw [hsp] at h
      simp only at h
      injection h with h1 h2
      subst h2
      have := ih X p1 r e hsp
      show digSpan (c :: (t ++ X)) = _
      unfold digSpan
      rw [if_pos hc, this]
      simp only
      rw [← h1]
    · rw [if_neg hc] at h
      injection h with h1 h2
      injection h2 with h3 h4
      subst h1
      subst h3
      subst h4
      show digSpan (c :: (t ++ X)) = _
      unfold digSpan
      rw [if_neg hc]

/-- After a failed scan position, appending a fresh `[…]` group cannot make
the position succeed. -/
theorem nogroup_append_grp {t ds : Str}
    (hng : ∀ (d : Char) (ds2 r2 : Str), digSpan t ≠ (d :: ds2, ']' :: r2)) :
    ∀ (d : Char) (ds2 r2 : Str),
    digSpan (t ++ '[' :: (ds ++ [']'])) ≠ (d :: ds2, ']' :: r2) := by
  intro d ds2 r2 hcon
  rcases hb : digSpan t with ⟨a, b⟩
  cases b with
  | nil =>
    have he := digSpan_eq t
    rw [hb] at he
    injection he with h1 h2
    have hall : ∀ c ∈ t, isDig c = true := by
      have h2s := h2.symm
      rw [List.dropWhile_eq_nil_iff] at h2s
      exact fun c hm => h2s c hm
    have hblk := digSpan_block t hall
      (digStop_cons (c := '[') (by decide) (ds ++ [']']))
    rw [hblk] at hcon
    injection hcon with h3 h4
    injection h4 with h5 _
    cases h5
  | cons e r =>
    have hap := digSpan_append t ('[' :: (ds ++ [']'])) a r e hb
    rw [hap] at hcon
    injection hcon with h1 h2
    injection h2 with he2 _
    subst he2
    cases a with
    | nil => cases h1
    | cons a0 a2 => exact hng a0 a2 r hb

theorem hasGrF_app_group : ∀ (fu : Nat) (s ds : Str), s.length < fu → ds ≠ [] →
    (∀ c ∈ ds, isDig c = true) →
    hasGrF fu (s ++ '[' :: (ds ++ [']'])) = true
  | 0, s, _, h, _, _ => absurd h (by omega)
  | fu + 1, s, ds, h, hne, hdig => by
    cases s with
    | nil => exact hasGrF_group fu ds [] hne hdig
    | cons c t =>
      simp only [List.length_cons] at h
      by_cases hc : c = '['
      · subst hc
        rcases digSpan_cases (t ++ '[' :: (ds ++ [']'])) with
          ⟨d, ds2, r2, hsp, hab⟩ | hng
        · rw [List.cons_append]
          exact hasGrF_step_group hsp fu
        · rw [List.cons_append, hasGrF_step_nogroup
            (fun d ds2 r2 => hng d ds2 r2)]
          exact hasGrF_app_group fu t ds (by omega) hne hdig
      · rw [List.cons_append, hasGrF_step_other hc]
        exact hasGrF_app_group fu t ds (by omega) hne hdig

theorem replBrF_app_group : ∀ (fu : Nat) (s ds : Str), s.length < fu → ds ≠ [] →
    (∀ c ∈ ds, isDig c = true) →
    replBrF fu (s ++ '[' :: (ds ++ [']'])) = replBrF fu s ++ '.' :: ds
  | 0, s, _, h, _, _ => absurd h (by omega)
  | fu + 1, s, ds, h, hne, hdig => by
    cases s with
    | nil =>
      cases ds with
      | nil => exact absurd rfl hne
      | cons d dt =>
        have hsp := digSpan_block (d :: dt) hdig
          (digStop_cons (c := ']') (by decide) [])
        rw [List.nil_append, replBrF_step_group hsp, replBrF_nil, replBrF_nil]
        simp
    | cons c t =>
      simp only [List.length_cons] at h
      by_cases hc : c = '['
      · subst hc
        rcases digSpan_cases t with ⟨d, ds2, r2, hsp, hab⟩ | hng
        · have hsp2 := digSpan_append t ('[' :: (ds ++ [']'])) (d :: ds2)
            r2 ']' hsp
          rw [List.cons_append, replBrF_step_group hsp2,
            replBrF_step_group hsp]
          have hlen : ds2.length + 1 + (r2.length + 1) = t.length := by
            rw [← hab]
            simp
            omega
          rw [replBrF_app_group fu r2 ds (by omega) hne hdig]
          simp
        · have hng2 := @nogroup_append_grp _ ds hng
          rw [List.cons_append, replBrF_step_nogroup hng2,
            replBrF_step_nogroup hng,
            replBrF_app_group fu t ds (by omega) hne hdig]
          rfl
      · rw [List.cons_append, replBrF_step_other hc, replBrF_step_other hc,
          replBrF_app_group fu t ds (by omega) hne hdig]
        rfl

theorem replBrF_id_of_no_group : ∀ (fu : Nat) (s : Str),
    hasGrF fu s = false → replBrF fu s = s
  | 0, _, _ => rfl
  | fu + 1, s, hG => by
    cases s with
    | nil => rfl
    | cons c t =>
      by_cases hc : c = '['
      · subst hc
        rcases digSpan_cases t with ⟨d, ds, r2, hsp, hab⟩ | hng
        · rw [hasGrF_step_group hsp] at hG
          cases hG
        · rw [hasGrF_step_nogroup hng] at hG
          rw [replBrF_step_nogroup hng, replBrF_id_of_no_group fu t hG]
      · rw [hasGrF_step_other hc] at hG
        rw [replBrF_step_other hc, replBrF_id_of_no_group fu t hG]

theorem hasGrF_no_lb : ∀ (fu : Nat) (s : Str), '[' ∉ s → hasGrF fu s = false
  | 0, _, _ => rfl
  | fu + 1, s, h => by
    cases s with
    | nil => rfl
    | cons c t =>
      have hc : c ≠ '[' := fun he => h (by rw [he]; exact List.mem_cons_self _ _)
      rw [hasGrF_step_other hc]
      exact hasGrF_no_lb fu t (fun hm => h (List.mem_cons_of_mem c hm))

theorem hasGr_no_lb {s : Str} (h : '[' ∉ s) : hasGr s = false :=
  hasGrF_no_lb _ _ h

theorem decodeSegment_plain {seg : Str} (h : '[' ∉ seg) : decodeSegment seg = [seg] := by
  unfold decodeSegment
  rw [hasGr_no_lb h]
  rfl

theorem decodePath_dot (a b : Str) :
    decodePath (a ++ '.' :: b) = decodePath a ++ decodePath b := by
  unfold decodePath
  rw [splitOn_append_sep, List.map_append, List.flatten_append]

theorem decodePath_single {k : Str} (hd : '.' ∉ k) (hb : '[' ∉ k) :
    decodePath k = [k] := by
  unfold decodePath
  rw [splitOn_no_sep hd]
  simp [decodeSegment_plain hb]

theorem decodeSegment_app_group {seg ds : Str} (hseg : '.' ∉ seg) (hne : ds ≠ [])
    (hdig : ∀ c ∈ ds, isDig c = true) :
    decodeSegment (seg ++ '[' :: (ds ++ [']'])) = decodeSegment seg ++ [ds] := by
  have hlen : (seg ++ '[' :: (ds ++ [']'])).length
      = seg.length + ds.length + 2 := by
    simp
    omega
  have hG : hasGr (seg ++ '[' :: (ds ++ [']'])) = true := by
    unfold hasGr
    exact hasGrF_app_group _ _ _ (by omega) hne hdig
  have hR : replBrackets (seg ++ '[' :: (ds ++ [']']))
      = replBrackets seg ++ '.' :: ds := by
    unfold replBrackets
    rw [replBrF_app_group _ _ _ (by omega) hne hdig]
    rw [replBrF_irr _ seg.length seg (by omega) (Nat.le_refl _)]
  unfold decodeSegment
  rw [hG, if_pos rfl, hR, splitOn_append_sep,
    splitOn_no_sep (dot_not_mem_digits hdig)]
  by_cases hg : hasGr seg = true
  · rw [hg, if_pos rfl]
  · have hg2 : hasGr seg = false := Bool.eq_false_iff.2 hg
    rw [hg2]
    rw [show replBrackets seg = seg from replBrF_id_of_no_group _ _ hg2,
      splitOn_no_sep hseg]
    rfl

theorem decodePath_intercalate (parts : List Str) (hne : parts ≠ [])
    (hdf : ∀ x ∈ parts, '.' ∉ x) :
    decodePath (List.intercalate ['.'] parts) = (parts.map decodeSegment).flatten := by
  unfold decodePath
  rw [List.splitOn_intercalate parts '.' hdf hne]

theorem decodePath_app_group (p ds : Str) (hne : ds ≠ [])
    (hdig : ∀ c ∈ ds, isDig c = true) :
    decodePath (p ++ '[' :: (ds ++ [']'])) = decodePath p ++ [ds] := by
  have hsegs := intercalate_splitOn_char '.' p
  rcases List.eq_nil_or_concat (p.splitOn '.') with hnil | ⟨init, lastseg, hcon0⟩
  · exact absurd hnil (List.splitOnP_ne_nil _ _)
  · have hconcat : p.splitOn '.' = init ++ [lastseg] := by
      rw [hcon0]
      simp [List.concat_eq_append]
    have hdf : ∀ x ∈ init ++ [lastseg], '.' ∉ x := by
      intro x hx
      exact mem_splitOn_not_sep (s := p) (by rw [hconcat]; exact hx)
    have hgrpdf : ('.' : Char) ∉ '[' :: (ds ++ [']']) := by
      intro hm
      rcases List.mem_cons.1 hm with h | h
      · cases h
      · rcases List.mem_append.1 h with h | h
        · exact dot_not_mem_digits hdig h
        · rcases List.mem_singleton.1 h with h
          cases h
    have hp2 : p ++ '[' :: (ds ++ [']'])
        = List.intercalate ['.'] (init ++ [lastseg ++ '[' :: (ds ++ [']'])]) := by
      rw [← intercalate_extend_last]
      rw [← hsegs, hconcat]
    rw [hp2, decodePath_intercalate _ (by simp) ?hdf2]
    case hdf2 =>
      intro x hx
      rcases List.mem_append.1 hx with h | h
      · exact hdf x (List.mem_append.2 (Or.inl h))
      · rcases List.mem_singleton.1 h with h
        subst h
        intro hm
        rcases List.mem_append.1 hm with h | h
        · exact hdf lastseg (List.mem_append.2 (Or.inr (List.mem_singleton.2 rfl))) h
        · exact hgrpdf h
    rw [List.map_append, List.flatten_append]
    rw [show [lastseg ++ '[' :: (ds ++ [']'])].map decodeSegment
        = [decodeSegment (lastseg ++ '[' :: (ds ++ [']']))] from rfl]
    rw [show List.flatten [decodeSegment (lastseg ++ '[' :: (ds ++ [']']))]
        = decodeSegment (lastseg ++ '[' :: (ds ++ [']'])) from by simp]
    rw [decodeSegment_app_group
      (hdf lastseg (List.mem_append.2 (Or.inr (List.mem_singleton.2 rfl)))) hne hdig]
    have hpd : decodePath p = (init.map decodeSegment).flatten ++ decodeSegment lastseg := by
      rw [show p = List.intercalate ['.'] (init ++ [lastseg]) from by rw [← hconcat, hsegs]]
      rw [decodePath_intercalate _ (by simp) hdf]
      simp
    rw [hpd]
    simp

/-! ### Accumulator machinery -/

/-- Descend along a path of existing containers. -/
def getAt : JVal → List Str → Option JVal
  | v, [] => some v
  | .obj fs, k :: rest =>
    (match lookupF fs k with
    | some c => getAt c rest
    | none => none)
  | .arr xs, k :: rest =>
    if isIndexStr k then
      match xs.getD (digVal k) none with
      | some c => getAt c rest
      | none => none
    else none
  | .prim _, _ :: _ => none

/-- Rewrite the subtree at the end of an existing path (mirroring
`setPath`'s write steps). -/
def mapAt : JVal → List Str → (JVal → JVal) → JVal
  | v, [], f => f v
  | .obj fs, k :: rest, f =>
    (match lookupF fs k with
    | some c => .obj (upsert fs k (mapAt c rest f))
    | none => .obj fs)
  | .arr xs, k :: rest, f =>
    if isIndexStr k then
      match xs.getD (digVal k) none with
      | some c => .arr (updAt xs (digVal k) (mapAt c rest f))
      | none => .arr xs
    else .arr xs
  | .prim p, _ :: _, _ => .prim p

def isCont : JVal → Bool
  | .obj _ => true
  | .arr _ => true
  | .prim _ => false

theorem contOf_some_cont {c : JVal} (h : isCont c = true) (k : Str) :
    contOf (some c) k = c := by
  cases c with
  | obj fs => rfl
  | arr xs => rfl
  | prim p => cases h

theorem getAt_cons_cont {c : JVal} {q : Str} {Q : List Str} {sub : JVal}
    (h : getAt c (q :: Q) = some sub) : isCont c = true := by
  cases c with
  | obj fs => rfl
  | arr xs => rfl
  | prim p => cases h

theorem find?_none_of_fresh {fs : List (Str × JVal)} {k : Str}
    (h : (fs.any fun f => f.1 == k) = false) :
    (fs.find? fun f => f.1 == k) = none := by
  rw [List.find?_eq_none]
  intro x hx hp
  rw [List.any_eq_false] at h
  exact h x hx hp

theorem lookupF_none_of_fresh {fs : List (Str × JVal)} {k : Str}
    (h : (fs.any fun f => f.1 == k) = false) : lookupF fs k = none := by
  unfold lookupF
  rw [find?_none_of_fresh h]
  rfl

theorem upsert_fresh {fs : List (Str × JVal)} {k : Str} (v : JVal)
    (h : (fs.any fun f => f.1 == k) = false) : upsert fs k v = fs ++ [(k, v)] := by
  unfold upsert
  rw [h]
  rfl

theorem lookupF_append_fresh {fs : List (Str × JVal)} {k : Str} (v : JVal)
    (h : (fs.any fun f => f.1 == k) = false) :
    lookupF (fs ++ [(k, v)]) k = some v := by
  unfold lookupF
  rw [List.find?_append, find?_none_of_fresh h]
  simp

theorem upsert_map_skip : ∀ (fs : List (Str × JVal)) (k : Str) (y : JVal),
    (fs.any fun f => f.1 == k) = false →
    (fs.map fun f => if f.1 == k then (k, y) else f) = fs
  | [], _, _, _ => rfl
  | f :: t, k, y, h => by
    simp only [List.any_cons, Bool.or_eq_false_iff] at h
    simp only [List.map_cons, h.1, Bool.false_eq_true, if_false,
      upsert_map_skip t k y h.2]

theorem upsert_append_last {fs : List (Str × JVal)} {k : Str} (x y : JVal)
    (h : (fs.any fun f => f.1 == k) = false) :
    upsert (fs ++ [(k, x)]) k y = fs ++ [(k, y)] := by
  unfold upsert
  rw [List.any_append]
  simp only [List.any_cons, List.any_nil, beq_self_eq_true, Bool.true_or,
    Bool.or_true, if_true]
  rw [List.map_append, upsert_map_skip fs k y h]
  simp

theorem any_map_upsert (fs : List (Str × JVal)) (k : Str) (x : JVal) :
    ((fs.map fun f => if f.1 == k then (k, x) else f).any fun f => f.1 == k)
      = (fs.any fun f => f.1 == k) := by
  induction fs with
  | nil => rfl
  | cons f t ih =>
    simp only [List.map_cons, List.any_cons, ih]
    by_cases hf : (f.1 == k) = true
    · rw [hf]
      simp
    · simp only [Bool.eq_false_iff.2 hf, Bool.false_eq_true, if_false]

theorem upsert_upsert (fs : List (Str × JVal)) (k : Str) (x y : JVal) :
    upsert (upsert fs k x) k y = upsert fs k y := by
  by_cases hany : (fs.any fun f => f.1 == k) = true
  · unfold upsert
    rw [hany, if_pos rfl, any_map_upsert, hany, if_pos rfl, List.map_map]
    congr 1
    funext f
    by_cases hf : (f.1 == k) = true
    · simp [Function.comp, hf]
    · simp [Function.comp, Bool.eq_false_iff.2 hf]
  · have hfr : (fs.any fun f => f.1 == k) = false := Bool.eq_false_iff.2 hany
    rw [upsert_fresh x hfr, upsert_append_last x y hfr, upsert_fresh y hfr]

theorem lookupF_upsert_self (fs : List (Str × JVal)) (k : Str) (v : JVal) :
    lookupF (upsert fs k v) k = some v := by
  by_cases hany : (fs.any fun f => f.1 == k) = true
  · unfold upsert
    rw [hany, if_pos rfl]
    unfold lookupF
    induction fs with
    | nil => cases hany
    | cons f t ih =>
      simp only [List.any_cons, Bool.or_eq_true] at hany
      by_cases hf : (f.1 == k) = true
      · rw [List.map_cons, if_pos hf]
        have hfound : List.find? (fun f => f.1 == k)
            ((k, v) :: List.map (fun f => if (f.1 == k) = true then (k, v) else f) t)
            = some (k, v) := by
          apply List.find?_cons_of_pos
          simp
        rw [hfound]
        rfl
      · have hf2 := Bool.eq_false_iff.2 hf
        simp only [List.map_cons, hf2, Bool.false_eq_true, if_false,
          List.find?_cons, hf2]
        exact ih (hany.resolve_left hf)
  · have hfr : (fs.any fun f => f.1 == k) = false := Bool.eq_false_iff.2 hany
    rw [upsert_fresh v hfr]
    exact lookupF_append_fresh v hfr

theorem updAt_getD (xs : List (Option JVal)) (i : Nat) (v : JVal) :
    (updAt xs i v).getD i none = some v := by
  unfold updAt
  rw [List.getD_eq_getElem?_getD, List.getElem?_set_self]
  · rfl
  · simp only [List.length_append, List.length_replicate]
    omega

theorem updAt_updAt (xs : List (Option JVal)) (i : Nat) (x y : JVal) :
    updAt (updAt xs i x) i y = updAt xs i y := by
  unfold updAt
  have h0 : i + 1 - ((xs ++ List.replicate (i + 1 - xs.length) none).set i
      (some x)).length = 0 := by
    rw [List.length_set, List.length_append, List.length_replicate]
    omega
  rw [h0, List.replicate_zero, List.append_nil, List.set_set]

theorem set_at_length {α : Type} (l1 l2 : List α) (a : α) :
    (l1 ++ l2).set l1.length a = l1 ++ l2.set 0 a := by
  induction l1 with
  | nil => simp
  | cons x t ih => simp [ih]

theorem updAt_at_length (xs : List (Option JVal)) (v : JVal) :
    updAt xs xs.length v = xs ++ [some v] := by
  unfold updAt
  rw [show xs.length + 1 - xs.length = 1 from by omega,
    show List.replicate 1 (none : Option JVal) = [none] from rfl,
    set_at_length]
  rfl

theorem getAt_nil (v : JVal) : getAt v [] = some v := by cases v <;> rfl

theorem getAt_obj_cons (fs : List (Str × JVal)) (k : Str) (P : List Str) :
    getAt (.obj fs) (k :: P)
      = match lookupF fs k with
        | some c => getAt c P
        | none => none := rfl

theorem getAt_arr_cons (xs : List (Option JVal)) (k : Str) (P : List Str) :
    getAt (.arr xs) (k :: P)
      = if isIndexStr k then
          match xs.getD (digVal k) none with
          | some c => getAt c P
          | none => none
        else none := rfl

theorem mapAt_nil (v : JVal) (f : JVal → JVal) : mapAt v [] f = f v := by
  cases v <;> rfl

theorem mapAt_obj_cons (fs : List (Str × JVal)) (k : Str) (P : List Str)
    (f : JVal → JVal) :
    mapAt (.obj fs) (k :: P) f
      = match lookupF fs k with
        | some c => .obj (upsert fs k (mapAt c P f))
        | none => .obj fs := rfl

theorem mapAt_arr_cons (xs : List (Option JVal)) (k : Str) (P : List Str)
    (f : JVal → JVal) :
    mapAt (.arr xs) (k :: P) f
      = if isIndexStr k then
          match xs.getD (digVal k) none with
          | some c => .arr (updAt xs (digVal k) (mapAt c P f))
          | none => .arr xs
        else .arr xs := rfl

theorem setPath_obj_one (fs : List (Str × JVal)) (k : Str) (v : JVal) :
    setPath (.obj fs) [k] v = .obj (upsert fs k v) := rfl

theorem setPath_obj_more (fs : List (Str × JVal)) (k r1 : Str) (rs : List Str)
    (v : JVal) :
    setPath (.obj fs) (k :: r1 :: rs) v
      = .obj (upsert fs k (setPath (contOf (lookupF fs k) r1) (r1 :: rs) v)) :=
  rfl

theorem setPath_arr_one (xs : List (Option JVal)) (k : Str) (v : JVal) :
    setPath (.arr xs) [k] v
      = if isIndexStr k then .arr (updAt xs (digVal k) v) else .arr xs := rfl

theorem setPath_arr_more (xs : List (Option JVal)) (k r1 : Str) (rs : List Str)
    (v : JVal) :
    setPath (.arr xs) (k :: r1 :: rs) v
      = if isIndexStr k then
          .arr (updAt xs (digVal k)
            (setPath (contOf (xs.getD (digVal k) none) r1) (r1 :: rs) v))
        else .arr xs := rfl

/-- `setPath` below an existing container path is a local rewrite. -/
theorem setPath_append : ∀ (P : List Str) (acc sub : JVal) (k : Str)
    (rest : List Str) (v : JVal), getAt acc P = some sub → isCont sub = true →
    setPath acc (P ++ k :: rest) v = mapAt acc P fun s => setPath s (k :: rest) v
  | [], acc, sub, k, rest, v, hget, _ => by
    rw [List.nil_append, mapAt_nil]
  | p0 :: P2, acc, sub, k, rest, v, hget, hcont => by
    cases acc with
    | prim p => cases hget
    | obj fs =>
      rw [getAt_obj_cons] at hget
      rcases hl : lookupF fs p0 with _ | c
      all_goals simp only [hl] at hget
      · cases hget
      · rw [List.cons_append]
        cases P2 with
        | nil =>
          rw [getAt_nil] at hget
          injection hget with hc
          subst hc
          rw [List.nil_append, setPath_obj_more, hl, contOf_some_cont hcont,
            mapAt_obj_cons]
          simp only [hl, mapAt_nil]
        | cons q Q =>
          have hcq : isCont c = true := getAt_cons_cont hget
          rw [List.cons_append, setPath_obj_more, hl, contOf_some_cont hcq,
            ← List.cons_append,
            setPath_append (q :: Q) c sub k rest v hget hcont, mapAt_obj_cons]
          simp only [hl]
    | arr xs =>
      rw [getAt_arr_cons] at hget
      by_cases hidx : isIndexStr p0 = true
      · rw [hidx, if_pos rfl] at hget
        rcases hl : xs.getD (digVal p0) none with _ | c
        all_goals simp only [hl] at hget
        · cases hget
        · rw [List.cons_append]
          cases P2 with
          | nil =>
            rw [getAt_nil] at hget
            injection hget with hc
            subst hc
            rw [List.nil_append, setPath_arr_more, if_pos hidx, hl,
              contOf_some_cont hcont, mapAt_arr_cons, if_pos hidx]
            simp only [hl, mapAt_nil]
          | cons q Q =>
            have hcq : isCont c = true := getAt_cons_cont hget
            rw [List.cons_append, setPath_arr_more, if_pos hidx, hl,
              contOf_some_cont hcq, ← List.cons_append,
              setPath_append (q :: Q) c sub k rest v hget hcont,
              mapAt_arr_cons, if_pos hidx]
            simp only [hl]
      · rw [Bool.eq_false_iff.2 hidx] at hget
        simp only [Bool.false_eq_true, if_false] at hget
        cases hget

/-- Reading back after a local rewrite. -/
theorem getAt_mapAt : ∀ (P : List Str) (acc sub : JVal) (f : JVal → JVal),
    getAt acc P = some sub → getAt (mapAt acc P f) P = some (f sub)
  | [], acc, sub, f, hget => by
    rw [getAt_nil] at hget
    injection hget with h
    subst h
    rw [mapAt_nil, getAt_nil]
  | p0 :: P2, acc, sub, f, hget => by
    cases acc with
    | prim p => cases hget
    | obj fs =>
      rw [getAt_obj_cons] at hget
      rcases hl : lookupF fs p0 with _ | c
      all_goals simp only [hl] at hget
      · cases hget
      · rw [mapAt_obj_cons]
        simp only [hl]
        rw [getAt_obj_cons, lookupF_upsert_self]
        exact getAt_mapAt P2 c sub f hget
    | arr xs =>
      rw [getAt_arr_cons] at hget
      by_cases hidx : isIndexStr p0 = true
      · rw [hidx, if_pos rfl] at hget
        rcases hl : xs.getD (digVal p0) none with _ | c
        all_goals simp only [hl] at hget
        · cases hget
        · rw [mapAt_arr_cons, if_pos hidx]
          simp only [hl]
          rw [getAt_arr_cons, if_pos hidx, updAt_getD]
          exact getAt_mapAt P2 c sub f hget
      · rw [Bool.eq_false_iff.2 hidx] at hget
        simp only [Bool.false_eq_true, if_false] at hget
        cases hget

/-- `mapAt` only looks at the subtree it finds. -/
theorem mapAt_congr : ∀ (P : List Str) (acc sub : JVal) (f g : JVal → JVal),
    getAt acc P = some sub → f sub = g sub → mapAt acc P f = mapAt acc P g
  | [], acc, sub, f, g, hget, hfg => by
    rw [getAt_nil] at hget
    injection hget with h
    subst h
    rw [mapAt_nil, mapAt_nil]
    exact hfg
  | p0 :: P2, acc, sub, f, g, hget, hfg => by
    cases acc with
    | prim p => cases hget
    | obj fs =>
      rw [getAt_obj_cons] at hget
      rcases hl : lookupF fs p0 with _ | c
      all_goals simp only [hl] at hget
      · cases hget
      · rw [mapAt_obj_cons, mapAt_obj_cons]
        simp only [hl]
        rw [mapAt_congr P2 c sub f g hget hfg]
    | arr xs =>
      rw [getAt_arr_cons] at hget
      by_cases hidx : isIndexStr p0 = true
      · rw [hidx, if_pos rfl] at hget
        rcases hl : xs.getD (digVal p0) none with _ | c
        all_goals simp only [hl] at hget
        · cases hget
        · rw [mapAt_arr_cons, mapAt_arr_cons, if_pos hidx, if_pos hidx]
          simp only [hl]
          rw [mapAt_congr P2 c sub f g hget hfg]
      · rw [Bool.eq_false_iff.2 hidx] at hget
        simp only [Bool.false_eq_true, if_false] at hget
        cases hget

/-- Two local rewrites at the same path compose. -/
theorem mapAt_mapAt : ∀ (P : List Str) (acc sub : JVal) (f g : JVal → JVal),
    getAt acc P = some sub →
    mapAt (mapAt acc P f) P g = mapAt acc P fun s => g (f s)
  | [], acc, sub, f, g, hget => by
    rw [mapAt_nil, mapAt_nil, mapAt_nil]
  | p0 :: P2, acc, sub, f, g, hget => by
    cases acc with
    | prim p => cases hget
    | obj fs =>
      rw [getAt_obj_cons] at hget
      rcases hl : lookupF fs p0 with _ | c
      all_goals simp only [hl] at hget
      · cases hget
      · rw [mapAt_obj_cons]
        simp only [hl]
        rw [mapAt_obj_cons, lookupF_upsert_self]
        simp only [upsert_upsert, mapAt_mapAt P2 c sub f g hget, mapAt_obj_cons,
          hl]
    | arr xs =>
      rw [getAt_arr_cons] at hget
      by_cases hidx : isIndexStr p0 = true
      · rw [hidx, if_pos rfl] at hget
        rcases hl : xs.getD (digVal p0) none with _ | c
        all_goals simp only [hl] at hget
        · cases hget
        · rw [mapAt_arr_cons, if_pos hidx]
          simp only [hl]
          rw [mapAt_arr_cons, if_pos hidx, updAt_getD]
          simp only [updAt_updAt, mapAt_mapAt P2 c sub f g hget, mapAt_arr_cons,
            if_pos hidx, hl]
      · rw [Bool.eq_false_iff.2 hidx] at hget
        simp only [Bool.false_eq_true, if_false] at hget
        cases hget

/-- A rewrite below an existing path splits into nested rewrites. -/
theorem mapAt_append : ∀ (P Q : List Str) (acc sub : JVal) (f : JVal → JVal),
    getAt acc P = some sub →
    mapAt acc (P ++ Q) f = mapAt acc P fun s => mapAt s Q f
  | [], Q, acc, sub, f, hget => by
    rw [mapAt_nil, List.nil_append]
  | p0 :: P2, Q, acc, sub, f, hget => by
    cases acc with
    | prim p => cases hget
    | obj fs =>
      rw [getAt_obj_cons] at hget
      rcases hl : lookupF fs p0 with _ | c
      all_goals simp only [hl] at hget
      · cases hget
      · rw [List.cons_append, mapAt_obj_cons, mapAt_obj_cons]
        simp only [hl]
        rw [mapAt_append P2 Q c sub f hget]
    | arr xs =>
      rw [getAt_arr_cons] at hget
      by_cases hidx : isIndexStr p0 = true
      · rw [hidx, if_pos rfl] at hget
        rcases hl : xs.getD (digVal p0) none with _ | c
        all_goals simp only [hl] at hget
        · cases hget
        · rw [List.cons_append, mapAt_arr_cons, mapAt_arr_cons, if_pos hidx,
            if_pos hidx]
          simp only [hl]
          rw [mapAt_append P2 Q c sub f hget]
      · rw [Bool.eq_false_iff.2 hidx] at hget
        simp only [Bool.false_eq_true, if_false] at hget
        cases hget

/-! ### Default-options facts and the per-pair `parse` step -/

theorem transformKey_default (cf : CaseFuns) (key : Str) :
    transformKey cf key {} = key := rfl

theorem rtk_default (cf : CaseFuns) (key : Str) :
    reverseTransformKey cf key {} = key := rfl

theorem addPfx_default (key : Str) : addPfx key {} = key := rfl

theorem removePfx_default (key : Str) : removePfx key {} = key := rfl

theorem shouldOmit_entry (v : Value) (p k : Str) :
    shouldOmitValue v (if p = [] then k else p ++ '.' :: k) {} = dropV v :=
  shouldOmit_default v _

/-- Under default options, one `key=value` param writes the decoded value at
the decoded path of the key. -/
theorem parseStep_pair (cf : CaseFuns) (acc : JVal) {k : Str} (w : Str)
    (hk0 : k ≠ []) (hk : '=' ∉ k) :
    parseStep cf {} acc (k ++ '=' :: w)
      = setPath acc (decodePath k) (decodeValue (recoverVal w)) := by
  have hne : (k ++ '=' :: w).isEmpty = false := by cases k <;> rfl
  unfold parseStep
  rw [hne]
  simp only [Bool.false_eq_true, if_false, splitOn_sep_first w hk,
    List.headD_cons, List.drop_succ_cons, List.drop_zero,
    isEmpty_false_of_ne_nil hk0, intercalate_splitOn_char]
  rfl

/-- The fold of `parseStep` under default options. -/
def runP (cf : CaseFuns) (acc : JVal) (ps : List Str) : JVal :=
  ps.foldl (parseStep cf {}) acc

theorem runP_nil (cf : CaseFuns) (acc : JVal) : runP cf acc [] = acc := rfl

theorem runP_cons (cf : CaseFuns) (acc : JVal) (q : Str) (t : List Str) :
    runP cf acc (q :: t) = runP cf (parseStep cf {} acc q) t := rfl

theorem runP_append (cf : CaseFuns) (acc : JVal) (a b : List Str) :
    runP cf acc (a ++ b) = runP cf (runP cf acc a) b :=
  List.foldl_append _ _ _ _

/-! ### Key-path character bookkeeping -/

theorem dig_ne {c : Char} (h : isDig c = true) :
    c ≠ '[' ∧ c ≠ ']' ∧ c ≠ '.' ∧ c ≠ ' ' ∧ c ≠ '?' := by
  refine ⟨?_, ?_, ?_, ?_, ?_⟩ <;> intro he <;> subst he <;>
    exact absurd h (by decide)

theorem isIndexStr_natChars {j : Nat} (h : j < MAXI) :
    isIndexStr (natChars j) = true := by
  by_cases h0 : j = 0
  · subst h0
    decide
  · obtain ⟨c, t, hct⟩ : ∃ c t, natChars j = c :: t := by
      cases hh : natChars j with
      | nil => exact absurd hh (natChars_ne_nil _)
      | cons a b => exact ⟨a, b, rfl⟩
    unfold isIndexStr
    rw [isEmpty_false_of_ne_nil (natChars_ne_nil j)]
    have hall : (natChars j).all isDig = true :=
      List.all_eq_true.2 fun c hc => natChars_digits j c hc
    have hh : ((natChars j).head? != some '0') = true := by
      rw [hct]
      simp only [List.head?_cons]
      have := natChars_head_pos j h0 c t hct
      simpa using this
    have hdv : decide (digVal (natChars j) < 9007199254740991) = true := by
      rw [digVal_natChars]
      exact decide_eq_true h
    rw [hall, hh, hdv]
    simp

/-- `=`, `&` and `?` never enter an accumulated key path. -/
def cleanK (s : Str) : Prop := '=' ∉ s ∧ '&' ∉ s ∧ '?' ∉ s

theorem cleanK_nil : cleanK [] := ⟨by simp, by simp, by simp⟩

theorem safeKey_facts {k : Str} (h : safeKey k = true) :
    k ≠ [] ∧ '.' ∉ k ∧ '[' ∉ k ∧ ']' ∉ k ∧ '=' ∉ k ∧ '&' ∉ k ∧ '?' ∉ k ∧
      isIndexStr k = false := by
  unfold safeKey at h
  simp only [Bool.and_eq_true, Bool.not_eq_true'] at h
  obtain ⟨⟨⟨⟨⟨⟨⟨h1, h3⟩, h4⟩, h5⟩, h6⟩, h7⟩, h8⟩, h9⟩ := h
  refine ⟨?_, ?_, ?_, ?_, ?_, ?_, ?_, h9⟩
  · intro he
    subst he
    cases h1
  all_goals intro hm
  · simp [List.contains_eq_any_beq] at h3; exact h3 hm
  · simp [List.contains_eq_any_beq] at h4; exact h4 hm
  · simp [List.contains_eq_any_beq] at h5; exact h5 hm
  · simp [List.contains_eq_any_beq] at h7; exact h7 hm
  · simp [List.contains_eq_any_beq] at h6; exact h6 hm
  · simp [List.contains_eq_any_beq] at h8; exact h8 hm

theorem entryKeyPath_ne_nil {k : Str} (p : Str) (hk : k ≠ []) :
    entryKeyPath p k ≠ [] := by
  unfold entryKeyPath
  split
  · exact hk
  · simp

theorem entryKeyPath_not_mem {p k : Str} {c : Char} (hp : c ∉ p) (hk : c ∉ k)
    (hd : c ≠ '.') : c ∉ entryKeyPath p k := by
  unfold entryKeyPath
  split
  · exact hk
  · intro hm
    rcases List.mem_append.1 hm with h | h
    · exact hp h
    · rcases List.mem_cons.1 h with h | h
      · exact hd h
      · exact hk h

theorem cleanK_entry {p k : Str} (hp : cleanK p) (hk : '=' ∉ k ∧ '&' ∉ k ∧ '?' ∉ k) :
    cleanK (entryKeyPath p k) :=
  ⟨entryKeyPath_not_mem hp.1 hk.1 (by decide),
   entryKeyPath_not_mem hp.2.1 hk.2.1 (by decide),
   entryKeyPath_not_mem hp.2.2 hk.2.2 (by decide)⟩

theorem digits_clean (j : Nat) : '=' ∉ natChars j ∧ '&' ∉ natChars j ∧ '?' ∉ natChars j := by
  refine ⟨?_, ?_, ?_⟩ <;> intro hm
  · exact absurd rfl (dig_not_special (natChars_digits j _ hm)).2.1
  · exact absurd rfl (dig_not_special (natChars_digits j _ hm)).1
  · exact absurd rfl (dig_ne (natChars_digits j _ hm)).2.2.2.2

theorem arrayKey_not_mem {kp : Str} {c : Char} (i : Nat) (hp : c ∉ kp)
    (hlb : c ≠ '[') (hrb : c ≠ ']') (hd : c ∉ natChars i) :
    c ∉ kp ++ '[' :: natChars i ++ [']'] := by
  intro hm
  rcases List.mem_append.1 hm with h | h
  · rcases List.mem_append.1 h with h | h
    · exact hp h
    · rcases List.mem_cons.1 h with h | h
      · exact hlb h
      · exact hd h
  · rcases List.mem_singleton.1 h with h
    exact hrb h

theorem cleanK_arrayKey {kp : Str} (i : Nat) (hp : cleanK kp) :
    cleanK (kp ++ '[' :: natChars i ++ [']']) :=
  ⟨arrayKey_not_mem i hp.1 (by decide) (by decide) (digits_clean i).1,
   arrayKey_not_mem i hp.2.1 (by decide) (by decide) (digits_clean i).2.1,
   arrayKey_not_mem i hp.2.2 (by decide) (by decide) (digits_clean i).2.2⟩

/-- How `p` relates to the flat path `P` it decodes to (`p = []` is the
initial call, whose key paths do not mention `p` at all). -/
def pathOK (p : Str) (P : List Str) : Prop :=
  (p = [] ∧ P = []) ∨ (p ≠ [] ∧ decodePath p = P)

theorem decodePath_entryKeyPath {p : Str} {P : List Str} (k : Str)
    (hd : '.' ∉ k) (hb : '[' ∉ k) (hpath : pathOK p P) :
    decodePath (entryKeyPath p k) = P ++ [k] := by
  rcases hpath with ⟨hp, hP⟩ | ⟨hp, hP⟩
  · subst hp
    subst hP
    rw [show entryKeyPath [] k = k from rfl, decodePath_single hd hb,
      List.nil_append]
  · rw [show entryKeyPath p k = p ++ '.' :: k from by unfold entryKeyPath; rw [if_neg hp],
      decodePath_dot, hP, decodePath_single hd hb]

theorem decodePath_arrayKey {kp : Str} {Q : List Str} (i : Nat)
    (hQ : decodePath kp = Q) :
    decodePath (kp ++ '[' :: natChars i ++ [']']) = Q ++ [natChars i] := by
  have h := decodePath_app_group kp (natChars i) (natChars_ne_nil i)
    (natChars_digits i)
  rw [hQ] at h
  rw [List.append_assoc, List.cons_append]
  exact h

/-! ### Wire-value character facts -/

theorem wire_facts {s : Str} (h : wireSafe s = true) :
    '&' ∉ wireOf s ∧ (wireOf s).getLast? ≠ some ' ' := by
  unfold wireSafe at h
  rw [Bool.and_eq_true, Bool.and_eq_true] at h
  obtain ⟨⟨-, -⟩, hlast⟩ := h
  unfold wireOf
  cases he : needsEncoding s with
  | true =>
    rw [if_pos rfl]
    constructor
    · intro hm
      exact absurd (encURI_chars hm) (by decide)
    · intro hl
      exact absurd (encURI_chars (List.mem_of_mem_getLast? hl)) (by decide)
  | false =>
    simp only [Bool.false_eq_true, if_false]
    refine ⟨(not_enc_no_amp he).1, ?_⟩
    simpa using hlast

theorem pv_facts_bool (b : Bool) :
    '&' ∉ processValue (.vbool b) ∧ (processValue (.vbool b)).getLast? ≠ some ' ' := by
  cases b <;> exact ⟨by decide, by decide⟩

theorem pv_int (n : Int) : processValue (.vnum n) = intChars n := by
  rw [processValue_eq]
  show wireOf (intChars n) = _
  unfold wireOf
  rw [needsEnc_int]
  rfl

theorem pv_facts_num (n : Int) :
    '&' ∉ processValue (.vnum n) ∧ (processValue (.vnum n)).getLast? ≠ some ' ' := by
  rw [pv_int]
  constructor
  · intro hm
    rcases intChars_mem hm with h | h
    · exact absurd rfl (dig_not_special h).1
    · cases h
  · intro hl
    rcases intChars_mem (List.mem_of_mem_getLast? hl) with h | h
    · exact absurd rfl (dig_ne h).2.2.2.1
    · cases h

theorem rawStr_wireSafe {s : Str} (h : rawStr s = true) : wireSafe s = true := by
  unfold rawStr at h
  rw [Bool.and_eq_true, Bool.and_eq_true, Bool.and_eq_true] at h
  exact h.1.1.1

/-! ### Pair-shape bookkeeping -/

/-- Facts about one emitted `key=value` pair: how it splits on the first
`=`, which wire characters it avoids, and where its decoded path descends
relative to the enclosing container path `base`. -/
def pairFacts (base : List Str) (idx : Bool) (q : Str) : Prop :=
  ∃ kq w r1 R, q = kq ++ '=' :: w ∧ kq ≠ [] ∧ '=' ∉ kq ∧ '&' ∉ kq ∧ '?' ∉ kq ∧
    '&' ∉ w ∧ w.getLast? ≠ some ' ' ∧ decodePath kq = base ++ r1 :: R ∧
    isIndexStr r1 = idx

theorem pairFacts_ne_nil {base : List Str} {idx : Bool} {q : Str}
    (h : pairFacts base idx q) : q ≠ [] := by
  obtain ⟨kq, w, r1, R, hq, hne, -⟩ := h
  subst hq
  cases kq with
  | nil => exact absurd rfl hne
  | cons a t => simp

theorem pairFacts_no_amp {base : List Str} {idx : Bool} {q : Str}
    (h : pairFacts base idx q) : '&' ∉ q := by
  obtain ⟨kq, w, r1, R, hq, -, -, hak, -, haw, -⟩ := h
  subst hq
  intro hm
  rcases List.mem_append.1 hm with h | h
  · exact hak h
  · rcases List.mem_cons.1 h with h | h
    · cases h
    · exact haw h

theorem pairFacts_head {base : List Str} {idx : Bool} {q : Str}
    (h : pairFacts base idx q) : q.head? ≠ some '?' := by
  obtain ⟨kq, w, r1, R, hq, hne, -, -, hqk, -⟩ := h
  subst hq
  cases kq with
  | nil => exact absurd rfl hne
  | cons a t =>
    simp only [List.cons_append, List.head?_cons]
    intro he
    injection he with he
    exact hqk (he ▸ List.mem_cons_self a t)

theorem pairFacts_last {base : List Str} {idx : Bool} {q : Str}
    (h : pairFacts base idx q) : q.getLast? ≠ some ' ' := by
  obtain ⟨kq, w, r1, R, hq, -, -, -, -, -, hlw, -⟩ := h
  subst hq
  rw [List.getLast?_append_of_ne_nil _ (by simp)]
  cases w with
  | nil =>
    intro he
    injection he with he
    cases he
  | cons a t =>
    rw [show ('=' : Char) :: a :: t = ['='] ++ a :: t from rfl,
      List.getLast?_append_of_ne_nil _ (by simp)]
    exact hlw

theorem pairFacts_widen {P : List Str} {k : Str} {idx : Bool} {q : Str}
    (hk : isIndexStr k = false) (h : pairFacts (P ++ [k]) idx q) :
    pairFacts P false q := by
  obtain ⟨kq, w, r1, R, hq, hne, h3, h4, h5, h6, h7, hdp, -⟩ := h
  exact ⟨kq, w, k, r1 :: R, hq, hne, h3, h4, h5, h6, h7,
    by rw [hdp, List.append_assoc, List.singleton_append], hk⟩

theorem pairFacts_widen_idx {Q : List Str} {kk : Str} {idx : Bool} {q : Str}
    (hk : isIndexStr kk = true) (h : pairFacts (Q ++ [kk]) idx q) :
    pairFacts Q true q := by
  obtain ⟨kq, w, r1, R, hq, hne, h3, h4, h5, h6, h7, hdp, -⟩ := h
  exact ⟨kq, w, kk, r1 :: R, hq, hne, h3, h4, h5, h6, h7,
    by rw [hdp, List.append_assoc, List.singleton_append], hk⟩

/-! ### Fresh-slot writes, slot pre-creation, and slot rewrite composition -/

theorem isCont_contOf_none (r1 : Str) : isCont (contOf none r1) = true := by
  show isCont (if isIndexStr r1 then .arr [] else .obj []) = true
  split <;> rfl

theorem contOf_none_obj {r1 : Str} (h : isIndexStr r1 = false) :
    contOf none r1 = .obj [] := by
  show (if isIndexStr r1 then JVal.arr [] else .obj []) = _
  rw [h]
  rfl

theorem contOf_none_arr {r1 : Str} (h : isIndexStr r1 = true) :
    contOf none r1 = .arr [] := by
  show (if isIndexStr r1 then JVal.arr [] else .obj []) = _
  rw [h]
  rfl

theorem getAt_append_ex : ∀ (P Q : List Str) (acc sub : JVal),
    getAt acc P = some sub → getAt acc (P ++ Q) = getAt sub Q
  | [], Q, acc, sub, hget => by
    rw [getAt_nil] at hget
    injection hget with h
    subst h
    rw [List.nil_append]
  | p0 :: P2, Q, acc, sub, hget => by
    cases acc with
    | prim p => cases hget
    | obj fs =>
      rw [getAt_obj_cons] at hget
      rcases hl : lookupF fs p0 with _ | c
      all_goals simp only [hl] at hget
      · cases hget
      · rw [List.cons_append, getAt_obj_cons]
        simp only [hl]
        exact getAt_append_ex P2 Q c sub hget
    | arr xs =>
      rw [getAt_arr_cons] at hget
      by_cases hidx : isIndexStr p0 = true
      · rw [hidx, if_pos rfl] at hget
        rcases hl : xs.getD (digVal p0) none with _ | c
        all_goals simp only [hl] at hget
        · cases hget
        · rw [List.cons_append, getAt_arr_cons, if_pos hidx]
          simp only [hl]
          exact getAt_append_ex P2 Q c sub hget
      · rw [Bool.eq_false_iff.2 hidx] at hget
        simp only [Bool.false_eq_true, if_false] at hget
        cases hget

theorem writeFresh_obj {acc : JVal} {P : List Str} {gs : List (Str × JVal)}
    {k : Str} (w : JVal) (hget : getAt acc P = some (.obj gs))
    (hfr : (gs.any fun g => g.1 == k) = false) :
    setPath acc (P ++ [k]) w = mapAt acc P fun _ => .obj (gs ++ [(k, w)]) := by
  cases P with
  | nil =>
    rw [getAt_nil] at hget
    injection hget with h
    subst h
    rw [List.nil_append, mapAt_nil, setPath_obj_one, upsert_fresh w hfr]
  | cons p0 P2 =>
    rw [setPath_append (p0 :: P2) acc (.obj gs) k [] w hget rfl]
    exact mapAt_congr (p0 :: P2) acc (.obj gs) _ _ hget
      (by rw [setPath_obj_one, upsert_fresh w hfr])

theorem writeFresh_arr {acc : JVal} {Q : List Str} {ys : List (Option JVal)}
    {kk : Str} (w : JVal) (hget : getAt acc Q = some (.arr ys))
    (hidx : isIndexStr kk = true) (hdv : digVal kk = ys.length) :
    setPath acc (Q ++ [kk]) w = mapAt acc Q fun _ => .arr (ys ++ [some w]) := by
  have hstep : setPath (.arr ys) [kk] w = .arr (ys ++ [some w]) := by
    rw [setPath_arr_one, if_pos hidx, hdv, updAt_at_length]
  cases Q with
  | nil =>
    rw [getAt_nil] at hget
    injection hget with h
    subst h
    rw [List.nil_append, mapAt_nil, hstep]
  | cons p0 P2 =>
    rw [setPath_append (p0 :: P2) acc (.arr ys) kk [] w hget rfl]
    exact mapAt_congr (p0 :: P2) acc (.arr ys) _ _ hget hstep

theorem preCreate_obj {acc : JVal} {P : List Str} {gs : List (Str × JVal)}
    {k : Str} (r1 : Str) (R : List Str) (w : JVal)
    (hget : getAt acc P = some (.obj gs))
    (hfr : (gs.any fun g => g.1 == k) = false) :
    setPath acc (P ++ k :: r1 :: R) w
      = setPath (mapAt acc P fun _ => .obj (gs ++ [(k, contOf none r1)]))
          (P ++ k :: r1 :: R) w := by
  have hget2 : getAt (mapAt acc P fun _ => .obj (gs ++ [(k, contOf none r1)])) P
      = some (.obj (gs ++ [(k, contOf none r1)])) := getAt_mapAt P acc _ _ hget
  rw [setPath_append P acc (.obj gs) k (r1 :: R) w hget rfl,
    setPath_append P _ (.obj (gs ++ [(k, contOf none r1)])) k (r1 :: R) w hget2
      rfl,
    mapAt_mapAt P acc (.obj gs) _ _ hget]
  apply mapAt_congr P acc (.obj gs) _ _ hget
  rw [setPath_obj_more, setPath_obj_more, lookupF_none_of_fresh hfr,
    lookupF_append_fresh _ hfr, contOf_some_cont (isCont_contOf_none r1),
    upsert_fresh _ hfr, upsert_append_last _ _ hfr]

theorem preCreate_arr {acc : JVal} {Q : List Str} {ys : List (Option JVal)}
    {kk : Str} (r1 : Str) (R : List Str) (w : JVal)
    (hget : getAt acc Q = some (.arr ys))
    (hidx : isIndexStr kk = true) (hdv : digVal kk = ys.length) :
    setPath acc (Q ++ kk :: r1 :: R) w
      = setPath (mapAt acc Q fun _ => .arr (ys ++ [some (contOf none r1)]))
          (Q ++ kk :: r1 :: R) w := by
  have hget2 : getAt (mapAt acc Q fun _ => .arr (ys ++ [some (contOf none r1)])) Q
      = some (.arr (ys ++ [some (contOf none r1)])) := getAt_mapAt Q acc _ _ hget
  rw [setPath_append Q acc (.arr ys) kk (r1 :: R) w hget rfl,
    setPath_append Q _ (.arr (ys ++ [some (contOf none r1)])) kk (r1 :: R) w
      hget2 rfl,
    mapAt_mapAt Q acc (.arr ys) _ _ hget]
  apply mapAt_congr Q acc (.arr ys) _ _ hget
  rw [setPath_arr_more, setPath_arr_more, if_pos hidx, if_pos hidx, hdv,
    List.getD_eq_default _ _ (Nat.le_refl _),
    show ys ++ [some (contOf none r1)] = updAt ys ys.length (contOf none r1)
      from (updAt_at_length _ _).symm,
    updAt_getD, contOf_some_cont (isCont_contOf_none r1), updAt_updAt]

theorem compose_slot_obj {acc : JVal} {P : List Str} {gs : List (Str × JVal)}
    {k : Str} (C0 C1 : JVal) (hget : getAt acc P = some (.obj gs))
    (hfr : (gs.any fun g => g.1 == k) = false) :
    mapAt (mapAt acc P fun _ => .obj (gs ++ [(k, C0)])) (P ++ [k]) (fun _ => C1)
      = mapAt acc P fun _ => .obj (gs ++ [(k, C1)]) := by
  have hget2 : getAt (mapAt acc P fun _ => .obj (gs ++ [(k, C0)])) P
      = some (.obj (gs ++ [(k, C0)])) := getAt_mapAt P acc _ _ hget
  rw [mapAt_append P [k] _ (.obj (gs ++ [(k, C0)])) _ hget2,
    mapAt_mapAt P acc (.obj gs) _ _ hget]
  apply mapAt_congr P acc (.obj gs) _ _ hget
  rw [mapAt_obj_cons]
  simp only [lookupF_append_fresh C0 hfr]
  rw [mapAt_nil, upsert_append_last _ _ hfr]

theorem compose_slot_arr {acc : JVal} {Q : List Str} {ys : List (Option JVal)}
    {kk : Str} (C0 C1 : JVal) (hget : getAt acc Q = some (.arr ys))
    (hidx : isIndexStr kk = true) (hdv : digVal kk = ys.length) :
    mapAt (mapAt acc Q fun _ => .arr (ys ++ [some C0])) (Q ++ [kk]) (fun _ => C1)
      = mapAt acc Q fun _ => .arr (ys ++ [some C1]) := by
  have hget2 : getAt (mapAt acc Q fun _ => .arr (ys ++ [some C0])) Q
      = some (.arr (ys ++ [some C0])) := getAt_mapAt Q acc _ _ hget
  rw [mapAt_append Q [kk] _ (.arr (ys ++ [some C0])) _ hget2,
    mapAt_mapAt Q acc (.arr ys) _ _ hget]
  apply mapAt_congr Q acc (.arr ys) _ _ hget
  rw [mapAt_arr_cons, if_pos hidx, hdv,
    show ys ++ [some C0] = updAt ys ys.length C0 from (updAt_at_length _ _).symm]
  simp only [updAt_getD]
  rw [mapAt_nil, updAt_updAt, updAt_at_length]


/-! ### Remaining leaf equations -/

theorem normEntry_bool (b : Bool) : normEntry (.vbool b) = .prim (.pbool b) := by
  show normEntryV (sizeOf (Value.vbool b)) _ = _
  have hs : sizeOf (Value.vbool b) = sizeOf b + 1 := by simp
  rw [hs]
  rfl

theorem normEntry_num (n : Int) : normEntry (.vnum n) = .prim (.pnum n) := by
  show normEntryV (sizeOf (Value.vnum n)) _ = _
  have hs : sizeOf (Value.vnum n) = sizeOf n + 1 := by simp; omega
  rw [hs]
  rfl

theorem normItem_null : normItem .vnull = .prim (.pstr []) := rfl

theorem normItem_bool (b : Bool) : normItem (.vbool b) = .prim (.pbool b) := by
  show normItemV (sizeOf (Value.vbool b)) _ = _
  have hs : sizeOf (Value.vbool b) = sizeOf b + 1 := by simp
  rw [hs]
  rfl

theorem normItem_num (n : Int) : normItem (.vnum n) = .prim (.pnum n) := by
  show normItemV (sizeOf (Value.vnum n)) _ = _
  have hs : sizeOf (Value.vnum n) = sizeOf n + 1 := by simp; omega
  rw [hs]
  rfl

/-- Entry-position leaf: decoded image and wire-character facts. -/
theorem leafEntry_decode {v : Value} (hdrop : dropV v = false)
    (hsafe : safeEntry v = true) (hna : ∀ xs, v ≠ .varr xs)
    (hno : ∀ fs, v ≠ .vobj fs) :
    decodeValue (recoverVal (processValue v)) = normEntry v ∧
      '&' ∉ processValue v ∧ (processValue v).getLast? ≠ some ' ' := by
  cases v with
  | vnull => simp [dropV] at hdrop
  | vbool b =>
    exact ⟨(leaf_bool b).trans (normEntry_bool b).symm, pv_facts_bool b⟩
  | vnum n =>
    exact ⟨(leaf_num n).trans (normEntry_num n).symm, pv_facts_num n⟩
  | vstr s =>
    rw [safeEntry_str] at hsafe
    have hpv : processValue (.vstr s) = wireOf s := processValue_eq _
    rw [hpv, normEntry_str]
    exact ⟨leaf_str hsafe, wire_facts (rawStr_wireSafe hsafe)⟩
  | vdate iso =>
    rw [safeEntry_date] at hsafe
    have hpv : processValue (.vdate iso) = wireOf iso := processValue_eq _
    rw [hpv, normEntry_date]
    exact ⟨leaf_str hsafe, wire_facts (rawStr_wireSafe hsafe)⟩
  | vmap es =>
    rw [safeEntry_map, Bool.and_eq_true, Bool.and_eq_true, Bool.and_eq_true]
      at hsafe
    obtain ⟨⟨⟨-, hkd⟩, hg⟩, hws⟩ := hsafe
    refine ⟨(leaf_map hkd hg hws).trans (normEntry_map es).symm, ?_⟩
    rw [processValue_eq]
    exact wire_facts hws
  | vset es =>
    rw [safeEntry_set, Bool.and_eq_true, Bool.and_eq_true, Bool.and_eq_true]
      at hsafe
    obtain ⟨⟨⟨-, hed⟩, hg⟩, hws⟩ := hsafe
    refine ⟨(leaf_set hed hg hws).trans (normEntry_set es).symm, ?_⟩
    rw [processValue_eq]
    exact wire_facts hws
  | varr xs => exact absurd rfl (hna xs)
  | vobj fs => exact absurd rfl (hno fs)

/-- Item-position leaf: decoded image and wire-character facts. -/
theorem leafItem_decode {v : Value} (hsafe : safeItem v = true)
    (hleaf : (isObjectV v && !isDateV v) = false) :
    decodeValue (recoverVal (processValue v)) = normItem v ∧
      '&' ∉ processValue v ∧ (processValue v).getLast? ≠ some ' ' := by
  cases v with
  | vnull =>
    exact ⟨leaf_null.trans normItem_null.symm, by simp [processValue], by
      simp [processValue]⟩
  | vbool b =>
    exact ⟨(leaf_bool b).trans (normItem_bool b).symm, pv_facts_bool b⟩
  | vnum n =>
    exact ⟨(leaf_num n).trans (normItem_num n).symm, pv_facts_num n⟩
  | vstr s =>
    rw [safeItem_str] at hsafe
    have hpv : processValue (.vstr s) = wireOf s := processValue_eq _
    rw [hpv, normItem_str]
    exact ⟨leaf_str hsafe, wire_facts (rawStr_wireSafe hsafe)⟩
  | vdate iso =>
    rw [safeItem_date] at hsafe
    have hpv : processValue (.vdate iso) = wireOf iso := processValue_eq _
    rw [hpv, normItem_date]
    exact ⟨leaf_str hsafe, wire_facts (rawStr_wireSafe hsafe)⟩
  | vmap es => simp [isObjectV, isDateV] at hleaf
  | vset es => simp [isObjectV, isDateV] at hleaf
  | varr xs => simp [isObjectV, isDateV] at hleaf
  | vobj fs => simp [isObjectV, isDateV] at hleaf

/-! ### Leaf steps of the round-trip induction -/

/-- One leaf entry of an object: its single pair writes the normalized value
under the fresh key. -/
theorem entry_leaf_total (cf : CaseFuns) {k : Str} {v : Value} {p : Str}
    {P : List Str} {acc : JVal} {gs : List (Str × JVal)}
    (hk : safeKey k = true) (hdrop : dropV v = false)
    (hsafe : safeEntry v = true) (hna : ∀ xs, v ≠ .varr xs)
    (hno : ∀ fs, v ≠ .vobj fs) (hget : getAt acc P = some (.obj gs))
    (hfr : (gs.any fun g => g.1 == k) = false)
    (hpath : pathOK p P) (hcl : cleanK p) :
    runP cf acc (buildEntry cf {} k v p)
        = mapAt acc P (fun _ => .obj (gs ++ [(k, normEntry v)])) ∧
      (∀ q ∈ buildEntry cf {} k v p, pairFacts P false q) ∧
      buildEntry cf {} k v p ≠ [] := by
  obtain ⟨hk0, hkd, hkb, hkrb, hke, hka, hkq, hki⟩ := safeKey_facts hk
  have homit : shouldOmitValue v (entryKeyPath p k) {} = false := by
    rw [shouldOmit_default]
    exact hdrop
  have hbe : buildEntry cf {} k v p
      = [addPfx (transformKey cf (entryKeyPath p k) {}) {}
          ++ '=' :: processValue v] :=
    buildEntry_leaf cf {} k v p homit hna hno
  rw [transformKey_default, addPfx_default] at hbe
  obtain ⟨hdec, hwa, hwl⟩ := leafEntry_decode hdrop hsafe hna hno
  have hkpne : entryKeyPath p k ≠ [] := entryKeyPath_ne_nil p hk0
  have hkpcl : cleanK (entryKeyPath p k) := cleanK_entry hcl ⟨hke, hka, hkq⟩
  have hdp : decodePath (entryKeyPath p k) = P ++ [k] :=
    decodePath_entryKeyPath k hkd hkb hpath
  refine ⟨?_, ?_, ?_⟩
  · rw [hbe, runP_cons, runP_nil,
      parseStep_pair cf acc (processValue v) hkpne hkpcl.1, hdp, hdec,
      writeFresh_obj (normEntry v) hget hfr]
  · intro q hq
    rw [hbe, List.mem_singleton] at hq
    subst hq
    exact ⟨entryKeyPath p k, processValue v, k, [], rfl, hkpne, hkpcl.1,
      hkpcl.2.1, hkpcl.2.2, hwa, hwl, hdp, hki⟩
  · rw [hbe]
    simp

/-- One leaf entry of a directly nested array: its single pair appends the
normalized value at the next index. -/
theorem idx_leaf_total (cf : CaseFuns) {j : Nat} {v : Value} {kp : Str}
    {Q : List Str} {acc : JVal} {ys : List (Option JVal)}
    (hj : j < MAXI) (hdrop : dropV v = false) (hsafe : safeEntry v = true)
    (hna : ∀ xs, v ≠ .varr xs) (hno : ∀ fs, v ≠ .vobj fs)
    (hget : getAt acc Q = some (.arr ys)) (hlen : ys.length = j)
    (hkp0 : kp ≠ []) (hQ : decodePath kp = Q) (hcl : cleanK kp) :
    runP cf acc (buildEntry cf {} (natChars j) v kp)
        = mapAt acc Q (fun _ => .arr (ys ++ [some (normEntry v)])) ∧
      (∀ q ∈ buildEntry cf {} (natChars j) v kp, pairFacts Q true q) ∧
      buildEntry cf {} (natChars j) v kp ≠ [] := by
  have homit : shouldOmitValue v (entryKeyPath kp (natChars j)) {} = false := by
    rw [shouldOmit_default]
    exact hdrop
  have hbe : buildEntry cf {} (natChars j) v kp
      = [addPfx (transformKey cf (entryKeyPath kp (natChars j)) {}) {}
          ++ '=' :: processValue v] :=
    buildEntry_leaf cf {} (natChars j) v kp homit hna hno
  rw [transformKey_default, addPfx_default] at hbe
  obtain ⟨hdec, hwa, hwl⟩ := leafEntry_decode hdrop hsafe hna hno
  have hkpne : entryKeyPath kp (natChars j) ≠ [] :=
    entryKeyPath_ne_nil kp (natChars_ne_nil j)
  have hkpcl : cleanK (entryKeyPath kp (natChars j)) :=
    cleanK_entry hcl (digits_clean j)
  have hdig := natChars_digits j
  have hdp : decodePath (entryKeyPath kp (natChars j)) = Q ++ [natChars j] :=
    decodePath_entryKeyPath (natChars j)
      (fun hm => absurd rfl (dig_ne (hdig _ hm)).2.2.1)
      (fun hm => absurd rfl (dig_ne (hdig _ hm)).1)
      (Or.inr ⟨hkp0, hQ⟩)
  have hidx : isIndexStr (natChars j) = true := isIndexStr_natChars hj
  have hdv : digVal (natChars j) = ys.length := by
    rw [digVal_natChars, hlen]
  refine ⟨?_, ?_, ?_⟩
  · rw [hbe, runP_cons, runP_nil,
      parseStep_pair cf acc (processValue v) hkpne hkpcl.1, hdp, hdec,
      writeFresh_arr (normEntry v) hget hidx hdv]
  · intro q hq
    rw [hbe, List.mem_singleton] at hq
    subst hq
    exact ⟨entryKeyPath kp (natChars j), processValue v, natChars j, [], rfl,
      hkpne, hkpcl.1, hkpcl.2.1, hkpcl.2.2, hwa, hwl, hdp, hidx⟩
  · rw [hbe]
    simp

/-- One leaf item of a bracketed array: its single pair appends the
normalized item at the next index. -/
theorem item_leaf_total (cf : CaseFuns) {i : Nat} {v : Value} {kp : Str}
    {Q : List Str} {acc : JVal} {ys : List (Option JVal)}
    (hi : i < MAXI) (hsafe : safeItem v = true)
    (hleaf : (isObjectV v && !isDateV v) = false)
    (hget : getAt acc Q = some (.arr ys)) (hlen : ys.length = i)
    (hQ : decodePath kp = Q) (hcl : cleanK kp) :
    runP cf acc [kp ++ '[' :: natChars i ++ [']'] ++ '=' :: processValue v]
        = mapAt acc Q (fun _ => .arr (ys ++ [some (normItem v)])) ∧
      pairFacts Q true (kp ++ '[' :: natChars i ++ [']'] ++ '=' :: processValue v) := by
  obtain ⟨hdec, hwa, hwl⟩ := leafItem_decode hsafe hleaf
  have hakne : kp ++ '[' :: natChars i ++ [']'] ≠ [] := by simp
  have hakcl : cleanK (kp ++ '[' :: natChars i ++ [']']) := cleanK_arrayKey i hcl
  have hdp : decodePath (kp ++ '[' :: natChars i ++ [']']) = Q ++ [natChars i] :=
    decodePath_arrayKey i hQ
  have hidx : isIndexStr (natChars i) = true := isIndexStr_natChars hi
  have hdv : digVal (natChars i) = ys.length := by
    rw [digVal_natChars, hlen]
  constructor
  · rw [runP_cons, runP_nil,
      parseStep_pair cf acc (processValue v) hakne hakcl.1, hdp, hdec,
      writeFresh_arr (normItem v) hget hidx hdv]
  · exact ⟨kp ++ '[' :: natChars i ++ [']'], processValue v, natChars i, [],
      rfl, hakne, hakcl.1, hakcl.2.1, hakcl.2.2, hwa, hwl, hdp, hidx⟩


/-! ### Remaining safety equations and dropped-field lemmas -/

theorem safeItem_map (es : List (Json × Json)) : safeItem (.vmap es) = false := by
  show safeItemV (sizeOf (Value.vmap es)) _ = _
  have hs : sizeOf (Value.vmap es) = sizeOf es + 1 := by simp; omega
  rw [hs]
  rfl

theorem safeItem_set (es : List Json) : safeItem (.vset es) = false := by
  show safeItemV (sizeOf (Value.vset es)) _ = _
  have hs : sizeOf (Value.vset es) = sizeOf es + 1 := by simp; omega
  rw [hs]
  rfl

theorem normFields_dropped : ∀ (fs : List (Str × Value)),
    (∀ f ∈ fs, dropV f.2 = true) → normFields fs = []
  | [], _ => rfl
  | f :: t, h => by
    rw [normFields_cons, if_pos (h f (List.mem_cons_self ..))]
    exact normFields_dropped t fun g hg => h g (List.mem_cons_of_mem f hg)

theorem buildFields_dropped : ∀ (fs : List (Str × Value)) (cf : CaseFuns) (p : Str),
    (∀ f ∈ fs, dropV f.2 = true) → buildFields cf {} fs p = []
  | [], _, _, _ => rfl
  | f :: t, cf, p, h => by
    rw [buildFields_cons,
      buildEntry_omit cf {} f.1 f.2 p
        (by rw [shouldOmit_default]; exact h f (List.mem_cons_self ..)),
      List.nil_append]
    exact buildFields_dropped t cf p fun g hg => h g (List.mem_cons_of_mem f hg)

/-! ### Reading a freshly created slot -/

theorem getAt_snoc_obj {acc : JVal} {P : List Str} {gs : List (Str × JVal)}
    {k : Str} (c : JVal) (hget : getAt acc P = some (.obj gs))
    (hfr : (gs.any fun g => g.1 == k) = false) :
    getAt (mapAt acc P fun _ => .obj (gs ++ [(k, c)])) (P ++ [k]) = some c := by
  rw [getAt_append_ex P [k] _ _ (getAt_mapAt P acc _ _ hget), getAt_obj_cons]
  simp only [lookupF_append_fresh c hfr]
  exact getAt_nil c

theorem getAt_snoc_arr {acc : JVal} {Q : List Str} {ys : List (Option JVal)}
    {kk : Str} (c : JVal) (hget : getAt acc Q = some (.arr ys))
    (hidx : isIndexStr kk = true) (hdv : digVal kk = ys.length) :
    getAt (mapAt acc Q fun _ => .arr (ys ++ [some c])) (Q ++ [kk]) = some c := by
  rw [getAt_append_ex Q [kk] _ _ (getAt_mapAt Q acc _ _ hget), getAt_arr_cons,
    if_pos hidx, hdv,
    show ys ++ [some c] = updAt ys ys.length c from (updAt_at_length _ _).symm]
  simp only [updAt_getD]
  exact getAt_nil c

/-! ### Pre-creating the container the first nested pair would create -/

theorem runP_shift_obj (cf : CaseFuns) {acc : JVal} {P : List Str}
    {gs : List (Str × JVal)} {k : Str} {C : JVal} (ps : List Str)
    (hget : getAt acc P = some (.obj gs))
    (hfr : (gs.any fun g => g.1 == k) = false) (hps : ps ≠ [])
    (hC : ∀ q ∈ ps, ∃ kq w r1 R, q = kq ++ '=' :: w ∧ kq ≠ [] ∧ '=' ∉ kq ∧
      decodePath kq = (P ++ [k]) ++ r1 :: R ∧ contOf none r1 = C) :
    runP cf acc ps = runP cf (mapAt acc P fun _ => .obj (gs ++ [(k, C)])) ps := by
  obtain ⟨q0, qs, rfl⟩ := List.exists_cons_of_ne_nil hps
  obtain ⟨kq, w, r1, R, rfl, hkqne, hkqe, hdp, hcont⟩ :=
    hC q0 (List.mem_cons_self ..)
  rw [runP_cons, runP_cons, parseStep_pair cf acc w hkqne hkqe,
    parseStep_pair cf _ w hkqne hkqe, hdp,
    show (P ++ [k]) ++ r1 :: R = P ++ k :: r1 :: R from by
      rw [List.append_assoc]; rfl,
    preCreate_obj r1 R _ hget hfr, hcont]

theorem runP_shift_arr (cf : CaseFuns) {acc : JVal} {Q : List Str}
    {ys : List (Option JVal)} {kk : Str} {C : JVal} (ps : List Str)
    (hget : getAt acc Q = some (.arr ys)) (hidx : isIndexStr kk = true)
    (hdv : digVal kk = ys.length) (hps : ps ≠ [])
    (hC : ∀ q ∈ ps, ∃ kq w r1 R, q = kq ++ '=' :: w ∧ kq ≠ [] ∧ '=' ∉ kq ∧
      decodePath kq = (Q ++ [kk]) ++ r1 :: R ∧ contOf none r1 = C) :
    runP cf acc ps
      = runP cf (mapAt acc Q fun _ => .arr (ys ++ [some C])) ps := by
  obtain ⟨q0, qs, rfl⟩ := List.exists_cons_of_ne_nil hps
  obtain ⟨kq, w, r1, R, rfl, hkqne, hkqe, hdp, hcont⟩ :=
    hC q0 (List.mem_cons_self ..)
  rw [runP_cons, runP_cons, parseStep_pair cf acc w hkqne hkqe,
    parseStep_pair cf _ w hkqne hkqe, hdp,
    show (Q ++ [kk]) ++ r1 :: R = Q ++ kk :: r1 :: R from by
      rw [List.append_assoc]; rfl,
    preCreate_arr r1 R _ hget hidx hdv, hcont]


/-! ### Tail composition of the item folds -/

theorem items_tail_combine (cf : CaseFuns) {acc : JVal} {Q : List Str}
    {ys : List (Option JVal)} {x : Value} {t : List Value}
    (pairsA pairsB : List Str) (hget : getAt acc Q = some (.arr ys))
    (hA : runP cf acc pairsA
      = mapAt acc Q fun _ => .arr (ys ++ [some (normItem x)]))
    (hSh : ∀ q ∈ pairsA, pairFacts Q true q) (hAne : pairsA ≠ [])
    (hT : (t = [] ∧
        runP cf (mapAt acc Q fun _ => .arr (ys ++ [some (normItem x)])) pairsB
          = mapAt acc Q fun _ => .arr (ys ++ [some (normItem x)])) ∨
      runP cf (mapAt acc Q fun _ => .arr (ys ++ [some (normItem x)])) pairsB
        = mapAt (mapAt acc Q fun _ => .arr (ys ++ [some (normItem x)])) Q
            (fun _ => .arr ((ys ++ [some (normItem x)]) ++ normItems t)))
    (hShT : ∀ q ∈ pairsB, pairFacts Q true q) :
    ((x :: t = [] ∧ runP cf acc (pairsA ++ pairsB) = acc) ∨
      runP cf acc (pairsA ++ pairsB)
        = mapAt acc Q fun _ => .arr (ys ++ normItems (x :: t))) ∧
    (∀ q ∈ pairsA ++ pairsB, pairFacts Q true q) ∧
    (x :: t ≠ [] → pairsA ++ pairsB ≠ []) := by
  refine ⟨Or.inr ?_, ?_, ?_⟩
  · rw [runP_append, hA]
    rcases hT with ⟨ht0, haccT⟩ | hmapT
    · subst ht0
      rw [haccT, normItems_cons, show normItems ([] : List Value) = [] from rfl]
    · rw [hmapT, mapAt_mapAt Q acc (.arr ys) _ _ hget]
      refine mapAt_congr Q acc (.arr ys) _ _ hget ?_
      show JVal.arr ((ys ++ [some (normItem x)]) ++ normItems t)
          = .arr (ys ++ normItems (x :: t))
      rw [normItems_cons, List.append_assoc, List.singleton_append]
  · intro q hq
    rcases List.mem_append.1 hq with h | h
    · exact hSh q h
    · exact hShT q h
  · intro _
    intro hnil
    exact hAne (List.append_eq_nil.1 hnil).1

theorem idx_tail_combine (cf : CaseFuns) {acc : JVal} {Q : List Str}
    {ys : List (Option JVal)} {x : Value} {t : List Value}
    (pairsA pairsB : List Str) (hget : getAt acc Q = some (.arr ys))
    (hA : runP cf acc pairsA
      = mapAt acc Q fun _ => .arr (ys ++ [some (normEntry x)]))
    (hSh : ∀ q ∈ pairsA, pairFacts Q true q) (hAne : pairsA ≠ [])
    (hT : (t = [] ∧
        runP cf (mapAt acc Q fun _ => .arr (ys ++ [some (normEntry x)])) pairsB
          = mapAt acc Q fun _ => .arr (ys ++ [some (normEntry x)])) ∨
      runP cf (mapAt acc Q fun _ => .arr (ys ++ [some (normEntry x)])) pairsB
        = mapAt (mapAt acc Q fun _ => .arr (ys ++ [some (normEntry x)])) Q
            (fun _ => .arr ((ys ++ [some (normEntry x)]) ++ normIdx t)))
    (hShT : ∀ q ∈ pairsB, pairFacts Q true q) :
    ((x :: t = [] ∧ runP cf acc (pairsA ++ pairsB) = acc) ∨
      runP cf acc (pairsA ++ pairsB)
        = mapAt acc Q fun _ => .arr (ys ++ normIdx (x :: t))) ∧
    (∀ q ∈ pairsA ++ pairsB, pairFacts Q true q) ∧
    (x :: t ≠ [] → pairsA ++ pairsB ≠ []) := by
  refine ⟨Or.inr ?_, ?_, ?_⟩
  · rw [runP_append, hA]
    rcases hT with ⟨ht0, haccT⟩ | hmapT
    · subst ht0
      rw [haccT, normIdx_cons, show normIdx ([] : List Value) = [] from rfl]
    · rw [hmapT, mapAt_mapAt Q acc (.arr ys) _ _ hget]
      refine mapAt_congr Q acc (.arr ys) _ _ hget ?_
      show JVal.arr ((ys ++ [some (normEntry x)]) ++ normIdx t)
          = .arr (ys ++ normIdx (x :: t))
      rw [normIdx_cons, List.append_assoc, List.singleton_append]
  · intro q hq
    rcases List.mem_append.1 hq with h | h
    · exact hSh q h
    · exact hShT q h
  · intro _
    intro hnil
    exact hAne (List.append_eq_nil.1 hnil).1

/-! ### The round-trip fold induction

Parsing the pairs `stringify` emits for a safe structure rebuilds exactly
the normalized image, one container slot at a time. -/

mutual

theorem famEntry : ∀ (fu : Nat) (cf : CaseFuns) (k : Str) (v : Value) (p : Str)
    (P : List Str) (acc : JVal) (gs : List (Str × JVal)),
    sizeOf v < fu → safeKey k = true → dropV v = false → safeEntry v = true →
    getAt acc P = some (.obj gs) → (gs.any fun g => g.1 == k) = false →
    pathOK p P → cleanK p →
    runP cf acc (buildEntry cf {} k v p)
        = mapAt acc P (fun _ => .obj (gs ++ [(k, normEntry v)])) ∧
      (∀ q ∈ buildEntry cf {} k v p, pairFacts P false q) ∧
      buildEntry cf {} k v p ≠ []
  | 0, _, _, v, _, _, _, _ => fun hsz => absurd hsz (by omega)
  | fu + 1, cf, k, v, p, P, acc, gs => by
    intro hsz hk hdrop hsafe hget hfr hpath hcl
    cases v with
    | vnull =>
      exact entry_leaf_total cf hk hdrop hsafe (fun xs h => Value.noConfusion h)
        (fun fs2 h => Value.noConfusion h) hget hfr hpath hcl
    | vbool b =>
      exact entry_leaf_total cf hk hdrop hsafe (fun xs h => Value.noConfusion h)
        (fun fs2 h => Value.noConfusion h) hget hfr hpath hcl
    | vnum n =>
      exact entry_leaf_total cf hk hdrop hsafe (fun xs h => Value.noConfusion h)
        (fun fs2 h => Value.noConfusion h) hget hfr hpath hcl
    | vstr s =>
      exact entry_leaf_total cf hk hdrop hsafe (fun xs h => Value.noConfusion h)
        (fun fs2 h => Value.noConfusion h) hget hfr hpath hcl
    | vdate iso =>
      exact entry_leaf_total cf hk hdrop hsafe (fun xs h => Value.noConfusion h)
        (fun fs2 h => Value.noConfusion h) hget hfr hpath hcl
    | vmap es =>
      exact entry_leaf_total cf hk hdrop hsafe (fun xs h => Value.noConfusion h)
        (fun fs2 h => Value.noConfusion h) hget hfr hpath hcl
    | vset es =>
      exact entry_leaf_total cf hk hdrop hsafe (fun xs h => Value.noConfusion h)
        (fun fs2 h => Value.noConfusion h) hget hfr hpath hcl
    | vobj fs2 =>
      obtain ⟨hk0, hkd, hkb, hkrb, hke, hka, hkq, hki⟩ := safeKey_facts hk
      rw [safeEntry_obj, Bool.and_eq_true, Bool.and_eq_true] at hsafe
      obtain ⟨⟨hne2, hsf2⟩, hany2⟩ := hsafe
      have hie : fs2.isEmpty = false := by rwa [Bool.not_eq_true'] at hne2
      have hbe : buildEntry cf {} k (.vobj fs2) p
          = buildFields cf {} fs2 (entryKeyPath p k) := by
        rw [buildEntry_objE cf {} k fs2 p
            (by rw [shouldOmit_default]; exact hdrop), hie]
        simp only [Bool.false_eq_true, if_false]
        exact build_obj cf {} fs2 (entryKeyPath p k)
      have hsz2 : sizeOf fs2 ≤ fu := by
        have hs : sizeOf (Value.vobj fs2) = 1 + sizeOf fs2 := by simp
        omega
      have hdp2 : decodePath (entryKeyPath p k) = P ++ [k] :=
        decodePath_entryKeyPath k hkd hkb hpath
      have hget2 : getAt (mapAt acc P fun _ => .obj (gs ++ [(k, JVal.obj [])]))
          (P ++ [k]) = some (.obj []) := getAt_snoc_obj (JVal.obj []) hget hfr
      obtain ⟨hrunF, hshapeF, hnonF⟩ := famFields fu cf fs2 (entryKeyPath p k)
        (P ++ [k]) (mapAt acc P fun _ => .obj (gs ++ [(k, JVal.obj [])])) []
        hsz2 hsf2 hget2 (fun f hf => rfl)
        (Or.inr ⟨entryKeyPath_ne_nil p hk0, hdp2⟩)
        (cleanK_entry hcl ⟨hke, hka, hkq⟩)
      have hnonnil : buildFields cf {} fs2 (entryKeyPath p k) ≠ [] :=
        hnonF hany2
      have hC : ∀ q ∈ buildFields cf {} fs2 (entryKeyPath p k),
          ∃ kq w r1 R, q = kq ++ '=' :: w ∧ kq ≠ [] ∧ '=' ∉ kq ∧
            decodePath kq = (P ++ [k]) ++ r1 :: R ∧
            contOf none r1 = JVal.obj [] := by
        intro q hq
        obtain ⟨kq, w, r1, R, h1, h2, h3, -, -, -, -, h8, h9⟩ := hshapeF q hq
        exact ⟨kq, w, r1, R, h1, h2, h3, h8, contOf_none_obj h9⟩
      have hmapF : runP cf
          (mapAt acc P fun _ => .obj (gs ++ [(k, JVal.obj [])]))
          (buildFields cf {} fs2 (entryKeyPath p k))
          = mapAt (mapAt acc P fun _ => .obj (gs ++ [(k, JVal.obj [])]))
              (P ++ [k]) (fun _ => .obj ([] ++ normFields fs2)) := by
        rcases hrunF with ⟨hallF, -⟩ | hm
        · exfalso
          rw [List.any_eq_true] at hany2
          obtain ⟨g, hg, hgnd⟩ := hany2
          rw [hallF g hg] at hgnd
          simp at hgnd
        · exact hm
      rw [hbe]
      refine ⟨?_, ?_, ?_⟩
      · rw [runP_shift_obj cf _ hget hfr hnonnil hC, hmapF]
        simp only [List.nil_append]
        rw [compose_slot_obj (JVal.obj []) (JVal.obj (normFields fs2)) hget hfr,
          normEntry_obj]
      · intro q hq
        exact pairFacts_widen hki (hshapeF q hq)
      · exact hnonnil
    | varr xs2 =>
      obtain ⟨hk0, hkd, hkb, hkrb, hke, hka, hkq, hki⟩ := safeKey_facts hk
      rw [safeEntry_arr, Bool.and_eq_true, Bool.and_eq_true] at hsafe
      obtain ⟨⟨hne2, hmax2⟩, hsi2⟩ := hsafe
      have hie : xs2.isEmpty = false := by rwa [Bool.not_eq_true'] at hne2
      have hxne : xs2 ≠ [] := by
        intro h
        subst h
        cases hie
      have hbe : buildEntry cf {} k (.varr xs2) p
          = buildArrItems cf {} xs2 0 (entryKeyPath p k) := by
        rw [buildEntry_arrE cf {} k xs2 p
            (by rw [shouldOmit_default]; exact hdrop), hie]
        simp only [Bool.false_eq_true, if_false]
      have hsz2 : sizeOf xs2 ≤ fu := by
        have hs : sizeOf (Value.varr xs2) = 1 + sizeOf xs2 := by simp
        omega
      have hdp2 : decodePath (entryKeyPath p k) = P ++ [k] :=
        decodePath_entryKeyPath k hkd hkb hpath
      have hget2 : getAt (mapAt acc P fun _ => .obj (gs ++ [(k, JVal.arr [])]))
          (P ++ [k]) = some (.arr []) := getAt_snoc_obj (JVal.arr []) hget hfr
      obtain ⟨hrunF, hshapeF, hnonF⟩ := famItems fu cf xs2 0 (entryKeyPath p k)
        (P ++ [k]) (mapAt acc P fun _ => .obj (gs ++ [(k, JVal.arr [])])) []
        hsz2 hsi2 (by have := of_decide_eq_true hmax2; omega) hget2 rfl hdp2
        (cleanK_entry hcl ⟨hke, hka, hkq⟩)
      have hnonnil := hnonF hxne
      have hC : ∀ q ∈ buildArrItems cf {} xs2 0 (entryKeyPath p k),
          ∃ kq w r1 R, q = kq ++ '=' :: w ∧ kq ≠ [] ∧ '=' ∉ kq ∧
            decodePath kq = (P ++ [k]) ++ r1 :: R ∧
            contOf none r1 = JVal.arr [] := by
        intro q hq
        obtain ⟨kq, w, r1, R, h1, h2, h3, -, -, -, -, h8, h9⟩ := hshapeF q hq
        exact ⟨kq, w, r1, R, h1, h2, h3, h8, contOf_none_arr h9⟩
      have hmapF : runP cf
          (mapAt acc P fun _ => .obj (gs ++ [(k, JVal.arr [])]))
          (buildArrItems cf {} xs2 0 (entryKeyPath p k))
          = mapAt (mapAt acc P fun _ => .obj (gs ++ [(k, JVal.arr [])]))
              (P ++ [k]) (fun _ => .arr ([] ++ normItems xs2)) := by
        rcases hrunF with ⟨h0, -⟩ | hm
        · exact absurd h0 hxne
        · exact hm
      rw [hbe]
      refine ⟨?_, ?_, ?_⟩
      · rw [runP_shift_obj cf _ hget hfr hnonnil hC, hmapF]
        simp only [List.nil_append]
        rw [compose_slot_obj (JVal.arr []) (JVal.arr (normItems xs2)) hget hfr,
          normEntry_arr]
      · intro q hq
        exact pairFacts_widen hki (hshapeF q hq)
      · exact hnonnil

theorem famFields : ∀ (fu : Nat) (cf : CaseFuns) (fs : List (Str × Value))
    (p : Str) (P : List Str) (acc : JVal) (gs : List (Str × JVal)),
    sizeOf fs ≤ fu → safeFields fs = true →
    getAt acc P = some (.obj gs) →
    (∀ f ∈ fs, (gs.any fun g => g.1 == f.1) = false) →
    pathOK p P → cleanK p →
    ((∀ g ∈ fs, dropV g.2 = true) ∧ runP cf acc (buildFields cf {} fs p) = acc ∨
      runP cf acc (buildFields cf {} fs p)
        = mapAt acc P fun _ => .obj (gs ++ normFields fs)) ∧
    (∀ q ∈ buildFields cf {} fs p, pairFacts P false q) ∧
    ((fs.any fun f => !dropV f.2) = true → buildFields cf {} fs p ≠ [])
  | 0, _, fs, _, _, _, _ => fun hsz =>
    absurd hsz (by have := vfields_sizeOf_pos fs; omega)
  | fu + 1, cf, fs, p, P, acc, gs => by
    intro hsz hsafe hget hfresh hpath hcl
    cases fs with
    | nil =>
      refine ⟨Or.inl ⟨fun g hg => absurd hg (List.not_mem_nil g),
        by rw [buildFields_nil, runP_nil]⟩, ?_, ?_⟩
      · intro q hq
        rw [buildFields_nil] at hq
        cases hq
      · intro hany
        exact absurd hany (by simp)
    | cons f t =>
      rw [safeFields_cons, Bool.and_eq_true, Bool.and_eq_true, Bool.and_eq_true]
        at hsafe
      obtain ⟨⟨⟨hkf, hdist⟩, hdos⟩, hst⟩ := hsafe
      have hb : sizeOf f.2 < fu ∧ sizeOf t ≤ fu := by
        obtain ⟨a, b⟩ := f
        have hj : sizeOf ((a, b) :: t)
            = 1 + (1 + sizeOf a + sizeOf b) + sizeOf t := by simp
        have h1 := str_sizeOf_pos a
        have h2 := value_sizeOf_pos b
        have h3 := vfields_sizeOf_pos t
        rw [hj] at hsz
        show sizeOf b < fu ∧ sizeOf t ≤ fu
        exact ⟨by omega, by omega⟩
      by_cases hdropf : dropV f.2 = true
      · have hbe0 : buildEntry cf {} f.1 f.2 p = [] :=
          buildEntry_omit cf {} f.1 f.2 p
            (by rw [shouldOmit_default]; exact hdropf)
        rw [buildFields_cons, hbe0, List.nil_append]
        obtain ⟨hrunT, hshapeT, hnonT⟩ := famFields fu cf t p P acc gs hb.2 hst
          hget (fun g hg => hfresh g (List.mem_cons_of_mem f hg)) hpath hcl
        refine ⟨?_, hshapeT, ?_⟩
        · rcases hrunT with ⟨hallT, haccT⟩ | hmapT
          · refine Or.inl ⟨fun g hg => ?_, haccT⟩
            rcases List.mem_cons.1 hg with h | h
            · rw [h]
              exact hdropf
            · exact hallT g h
          · refine Or.inr ?_
            rw [hmapT, normFields_cons, if_pos hdropf]
        · intro hany
          apply hnonT
          rw [List.any_cons, hdropf, Bool.not_true, Bool.false_or] at hany
          exact hany
      · have hdropf2 : dropV f.2 = false := Bool.eq_false_iff.2 hdropf
        have hsef : safeEntry f.2 = true := by
          rw [hdropf2, Bool.false_or] at hdos
          exact hdos
        obtain ⟨hrunE, hshapeE, hnonE⟩ := famEntry fu cf f.1 f.2 p P acc gs hb.1
          hkf hdropf2 hsef hget (hfresh f (List.mem_cons_self ..)) hpath hcl
        have hfresh1 : ∀ g ∈ t,
            ((gs ++ [(f.1, normEntry f.2)]).any fun g2 => g2.1 == g.1) = false := by
          intro g hg
          rw [List.any_append, hfresh g (List.mem_cons_of_mem f hg)]
          simp only [Bool.false_or, List.any_cons, List.any_nil, Bool.or_false]
          rw [Bool.not_eq_true', List.any_eq_false] at hdist
          have h1 : (g.1 == f.1) = false := Bool.eq_false_iff.2 (hdist g hg)
          exact beq_eq_false_iff_ne.2 fun he => (beq_eq_false_iff_ne.1 h1) he.symm
        obtain ⟨hrunT, hshapeT, hnonT⟩ := famFields fu cf t p P
          (mapAt acc P fun _ => .obj (gs ++ [(f.1, normEntry f.2)]))
          (gs ++ [(f.1, normEntry f.2)]) hb.2 hst
          (getAt_mapAt P acc _ _ hget) hfresh1 hpath hcl
        rw [buildFields_cons]
        refine ⟨Or.inr ?_, ?_, ?_⟩
        · rw [runP_append, hrunE]
          rcases hrunT with ⟨hallT, haccT⟩ | hmapT
          · rw [haccT, normFields_cons, if_neg hdropf,
              normFields_dropped t hallT]
          · rw [hmapT, mapAt_mapAt P acc (.obj gs) _ _ hget]
            refine mapAt_congr P acc (.obj gs) _ _ hget ?_
            show JVal.obj ((gs ++ [(f.1, normEntry f.2)]) ++ normFields t)
                = .obj (gs ++ normFields (f :: t))
            rw [normFields_cons, if_neg hdropf, List.append_assoc,
              List.singleton_append]
        · intro q hq
          rcases List.mem_append.1 hq with h | h
          · exact hshapeE q h
          · exact hshapeT q h
        · intro _
          intro hnil
          exact hnonE (List.append_eq_nil.1 hnil).1

theorem famItems : ∀ (fu : Nat) (cf : CaseFuns) (xs : List Value) (i : Nat)
    (kp : Str) (Q : List Str) (acc : JVal) (ys : List (Option JVal)),
    sizeOf xs ≤ fu → safeItems xs = true → i + xs.length ≤ MAXI →
    getAt acc Q = some (.arr ys) → ys.length = i →
    decodePath kp = Q → cleanK kp →
    ((xs = [] ∧ runP cf acc (buildArrItems cf {} xs i kp) = acc) ∨
      runP cf acc (buildArrItems cf {} xs i kp)
        = mapAt acc Q fun _ => .arr (ys ++ normItems xs)) ∧
    (∀ q ∈ buildArrItems cf {} xs i kp, pairFacts Q true q) ∧
    (xs ≠ [] → buildArrItems cf {} xs i kp ≠ [])
  | 0, _, xs, _, _, _, _, _ => fun hsz =>
    absurd hsz (by have := vitems_sizeOf_pos xs; omega)
  | fu + 1, cf, xs, i, kp, Q, acc, ys => by
    intro hsz hsafe hbound hget hlen hQ hcl
    cases xs with
    | nil =>
      refine ⟨Or.inl ⟨rfl, by rw [buildArrItems_nil, runP_nil]⟩, ?_, ?_⟩
      · intro q hq
        rw [buildArrItems_nil] at hq
        cases hq
      · intro h
        exact absurd rfl h
    | cons x t =>
      rw [safeItems_cons, Bool.and_eq_true] at hsafe
      obtain ⟨hsx, hst⟩ := hsafe
      have hi : i < MAXI := by
        rw [List.length_cons] at hbound
        omega
      have hbound2 : (i + 1) + t.length ≤ MAXI := by
        rw [List.length_cons] at hbound
        omega
      have hb : sizeOf x ≤ fu ∧ sizeOf t ≤ fu := by
        have hs : sizeOf (x :: t) = 1 + sizeOf x + sizeOf t := by simp
        have h1 := value_sizeOf_pos x
        have h2 := vitems_sizeOf_pos t
        exact ⟨by omega, by omega⟩
      have hidxi : isIndexStr (natChars i) = true := isIndexStr_natChars hi
      have hdvi : digVal (natChars i) = ys.length := by
        rw [digVal_natChars, hlen]
      have hdpak : decodePath (kp ++ '[' :: natChars i ++ [']'])
          = Q ++ [natChars i] := decodePath_arrayKey i hQ
      rw [buildArrItems_cons,
        transformKey_default cf (kp ++ '[' :: natChars i ++ [']']),
        addPfx_default]
      cases x with
      | vmap es =>
        rw [safeItem_map] at hsx
        cases hsx
      | vset es =>
        rw [safeItem_set] at hsx
        cases hsx
      | vnull =>
        rw [if_neg (fun h => Bool.noConfusion h)]
        obtain ⟨hA, hSh1⟩ := item_leaf_total cf hi hsx rfl hget hlen hQ hcl
        obtain ⟨hT, hShT, -⟩ := famItems fu cf t (i + 1) kp Q
          (mapAt acc Q fun _ => .arr (ys ++ [some (normItem .vnull)]))
          (ys ++ [some (normItem .vnull)]) hb.2 hst hbound2
          (getAt_mapAt Q acc _ _ hget) (by simp [hlen]) hQ hcl
        refine items_tail_combine cf _ _ hget hA ?_ (by simp) hT hShT
        intro q hq
        rw [List.mem_singleton] at hq
        subst hq
        exact hSh1
      | vbool b =>
        rw [if_neg (fun h => Bool.noConfusion h)]
        obtain ⟨hA, hSh1⟩ := item_leaf_total cf hi hsx rfl hget hlen hQ hcl
        obtain ⟨hT, hShT, -⟩ := famItems fu cf t (i + 1) kp Q
          (mapAt acc Q fun _ => .arr (ys ++ [some (normItem (.vbool b))]))
          (ys ++ [some (normItem (.vbool b))]) hb.2 hst hbound2
          (getAt_mapAt Q acc _ _ hget) (by simp [hlen]) hQ hcl
        refine items_tail_combine cf _ _ hget hA ?_ (by simp) hT hShT
        intro q hq
        rw [List.mem_singleton] at hq
        subst hq
        exact hSh1
      | vnum n =>
        rw [if_neg (fun h => Bool.noConfusion h)]
        obtain ⟨hA, hSh1⟩ := item_leaf_total cf hi hsx rfl hget hlen hQ hcl
        obtain ⟨hT, hShT, -⟩ := famItems fu cf t (i + 1) kp Q
          (mapAt acc Q fun _ => .arr (ys ++ [some (normItem (.vnum n))]))
          (ys ++ [some (normItem (.vnum n))]) hb.2 hst hbound2
          (getAt_mapAt Q acc _ _ hget) (by simp [hlen]) hQ hcl
        refine items_tail_combine cf _ _ hget hA ?_ (by simp) hT hShT
        intro q hq
        rw [List.mem_singleton] at hq
        subst hq
        exact hSh1
      | vstr s =>
        rw [if_neg (fun h => Bool.noConfusion h)]
        obtain ⟨hA, hSh1⟩ := item_leaf_total cf hi hsx rfl hget hlen hQ hcl
        obtain ⟨hT, hShT, -⟩ := famItems fu cf t (i + 1) kp Q
          (mapAt acc Q fun _ => .arr (ys ++ [some (normItem (.vstr s))]))
          (ys ++ [some (normItem (.vstr s))]) hb.2 hst hbound2
          (getAt_mapAt Q acc _ _ hget) (by simp [hlen]) hQ hcl
        refine items_tail_combine cf _ _ hget hA ?_ (by simp) hT hShT
        intro q hq
        rw [List.mem_singleton] at hq
        subst hq
        exact hSh1
      | vdate iso =>
        rw [if_neg (fun h => Bool.noConfusion h)]
        obtain ⟨hA, hSh1⟩ := item_leaf_total cf hi hsx rfl hget hlen hQ hcl
        obtain ⟨hT, hShT, -⟩ := famItems fu cf t (i + 1) kp Q
          (mapAt acc Q fun _ => .arr (ys ++ [some (normItem (.vdate iso))]))
          (ys ++ [some (normItem (.vdate iso))]) hb.2 hst hbound2
          (getAt_mapAt Q acc _ _ hget) (by simp [hlen]) hQ hcl
        refine items_tail_combine cf _ _ hget hA ?_ (by simp) hT hShT
        intro q hq
        rw [List.mem_singleton] at hq
        subst hq
        exact hSh1
      | vobj fs2 =>
        rw [safeItem_obj, Bool.and_eq_true, Bool.and_eq_true] at hsx
        obtain ⟨⟨hne2, hsf2⟩, hany2⟩ := hsx
        rw [if_pos (show (isObjectV (Value.vobj fs2)
            && !isDateV (Value.vobj fs2)) = true from rfl), build_obj]
        have hget2 : getAt
            (mapAt acc Q fun _ => .arr (ys ++ [some (JVal.obj [])]))
            (Q ++ [natChars i]) = some (.obj []) :=
          getAt_snoc_arr (JVal.obj []) hget hidxi hdvi
        have hsz2 : sizeOf fs2 ≤ fu := by
          have hs : sizeOf (Value.vobj fs2) = 1 + sizeOf fs2 := by simp
          have := hb.1
          omega
        obtain ⟨hrunF, hshapeF, hnonF⟩ := famFields fu cf fs2
          (kp ++ '[' :: natChars i ++ [']']) (Q ++ [natChars i])
          (mapAt acc Q fun _ => .arr (ys ++ [some (JVal.obj [])])) []
          hsz2 hsf2 hget2 (fun f hf => rfl) (Or.inr ⟨by simp, hdpak⟩)
          (cleanK_arrayKey i hcl)
        have hnonnil := hnonF hany2
        have hC : ∀ q ∈ buildFields cf {} fs2 (kp ++ '[' :: natChars i ++ [']']),
            ∃ kq w r1 R, q = kq ++ '=' :: w ∧ kq ≠ [] ∧ '=' ∉ kq ∧
              decodePath kq = (Q ++ [natChars i]) ++ r1 :: R ∧
              contOf none r1 = JVal.obj [] := by
          intro q hq
          obtain ⟨kq, w, r1, R, h1, h2, h3, -, -, -, -, h8, h9⟩ := hshapeF q hq
          exact ⟨kq, w, r1, R, h1, h2, h3, h8, contOf_none_obj h9⟩
        have hmapF : runP cf
            (mapAt acc Q fun _ => .arr (ys ++ [some (JVal.obj [])]))
            (buildFields cf {} fs2 (kp ++ '[' :: natChars i ++ [']']))
            = mapAt (mapAt acc Q fun _ => .arr (ys ++ [some (JVal.obj [])]))
                (Q ++ [natChars i]) (fun _ => .obj ([] ++ normFields fs2)) := by
          rcases hrunF with ⟨hallF, -⟩ | hm
          · exfalso
            rw [List.any_eq_true] at hany2
            obtain ⟨g, hg, hgnd⟩ := hany2
            rw [hallF g hg] at hgnd
            simp at hgnd
          · exact hm
        have hA : runP cf acc
            (buildFields cf {} fs2 (kp ++ '[' :: natChars i ++ [']']))
            = mapAt acc Q fun _ => .arr (ys ++ [some (normItem (.vobj fs2))]) := by
          rw [runP_shift_arr cf _ hget hidxi hdvi hnonnil hC, hmapF]
          simp only [List.nil_append]
          rw [compose_slot_arr (JVal.obj []) (JVal.obj (normFields fs2)) hget
            hidxi hdvi, normItem_obj]
        obtain ⟨hT, hShT, -⟩ := famItems fu cf t (i + 1) kp Q
          (mapAt acc Q fun _ => .arr (ys ++ [some (normItem (.vobj fs2))]))
          (ys ++ [some (normItem (.vobj fs2))]) hb.2 hst hbound2
          (getAt_mapAt Q acc _ _ hget) (by simp [hlen]) hQ hcl
        exact items_tail_combine cf _ _ hget hA
          (fun q hq => pairFacts_widen_idx hidxi (hshapeF q hq)) hnonnil hT hShT
      | varr xs2 =>
        rw [safeItem_arr, Bool.and_eq_true, Bool.and_eq_true] at hsx
        obtain ⟨⟨hne2, hmax2⟩, hsi2⟩ := hsx
        have hie2 : xs2.isEmpty = false := by rwa [Bool.not_eq_true'] at hne2
        have hxne2 : xs2 ≠ [] := by
          intro h
          subst h
          cases hie2
        rw [if_pos (show (isObjectV (Value.varr xs2)
            && !isDateV (Value.varr xs2)) = true from rfl), build_arr]
        have hget2 : getAt
            (mapAt acc Q fun _ => .arr (ys ++ [some (JVal.arr [])]))
            (Q ++ [natChars i]) = some (.arr []) :=
          getAt_snoc_arr (JVal.arr []) hget hidxi hdvi
        have hsz2 : sizeOf xs2 ≤ fu := by
          have hs : sizeOf (Value.varr xs2) = 1 + sizeOf xs2 := by simp
          have := hb.1
          omega
        obtain ⟨hrunI, hshapeI, hnonI⟩ := famIdx fu cf xs2 0
          (kp ++ '[' :: natChars i ++ [']']) (Q ++ [natChars i])
          (mapAt acc Q fun _ => .arr (ys ++ [some (JVal.arr [])])) []
          hsz2 hsi2 (by have := of_decide_eq_true hmax2; omega) hget2 rfl
          (by simp) hdpak (cleanK_arrayKey i hcl)
        have hnonnil := hnonI hxne2
        have hC : ∀ q ∈ buildIdxEntries cf {} xs2 0
            (kp ++ '[' :: natChars i ++ [']']),
            ∃ kq w r1 R, q = kq ++ '=' :: w ∧ kq ≠ [] ∧ '=' ∉ kq ∧
              decodePath kq = (Q ++ [natChars i]) ++ r1 :: R ∧
              contOf none r1 = JVal.arr [] := by
          intro q hq
          obtain ⟨kq, w, r1, R, h1, h2, h3, -, -, -, -, h8, h9⟩ := hshapeI q hq
          exact ⟨kq, w, r1, R, h1, h2, h3, h8, contOf_none_arr h9⟩
        have hmapI : runP cf
            (mapAt acc Q fun _ => .arr (ys ++ [some (JVal.arr [])]))
            (buildIdxEntries cf {} xs2 0 (kp ++ '[' :: natChars i ++ [']']))
            = mapAt (mapAt acc Q fun _ => .arr (ys ++ [some (JVal.arr [])]))
                (Q ++ [natChars i]) (fun _ => .arr ([] ++ normIdx xs2)) := by
          rcases hrunI with ⟨h0, -⟩ | hm
          · exact absurd h0 hxne2
          · exact hm
        have hA : runP cf acc
            (buildIdxEntries cf {} xs2 0 (kp ++ '[' :: natChars i ++ [']']))
            = mapAt acc Q fun _ => .arr (ys ++ [some (normItem (.varr xs2))]) := by
          rw [runP_shift_arr cf _ hget hidxi hdvi hnonnil hC, hmapI]
          simp only [List.nil_append]
          rw [compose_slot_arr (JVal.arr []) (JVal.arr (normIdx xs2)) hget
            hidxi hdvi, normItem_arr]
        obtain ⟨hT, hShT, -⟩ := famItems fu cf t (i + 1) kp Q
          (mapAt acc Q fun _ => .arr (ys ++ [some (normItem (.varr xs2))]))
          (ys ++ [some (normItem (.varr xs2))]) hb.2 hst hbound2
          (getAt_mapAt Q acc _ _ hget) (by simp [hlen]) hQ hcl
        exact items_tail_combine cf _ _ hget hA
          (fun q hq => pairFacts_widen_idx hidxi (hshapeI q hq)) hnonnil hT hShT

theorem famIdxEntry : ∀ (fu : Nat) (cf : CaseFuns) (j : Nat) (v : Value)
    (kp : Str) (Q : List Str) (acc : JVal) (ys : List (Option JVal)),
    sizeOf v < fu → j < MAXI → dropV v = false → safeEntry v = true →
    getAt acc Q = some (.arr ys) → ys.length = j → kp ≠ [] →
    decodePath kp = Q → cleanK kp →
    runP cf acc (buildEntry cf {} (natChars j) v kp)
        = mapAt acc Q (fun _ => .arr (ys ++ [some (normEntry v)])) ∧
      (∀ q ∈ buildEntry cf {} (natChars j) v kp, pairFacts Q true q) ∧
      buildEntry cf {} (natChars j) v kp ≠ []
  | 0, _, _, v, _, _, _, _ => fun hsz => absurd hsz (by omega)
  | fu + 1, cf, j, v, kp, Q, acc, ys => by
    intro hsz hj hdrop hsafe hget hlen hkp0 hQ hcl
    cases v with
    | vnull =>
      exact idx_leaf_total cf hj hdrop hsafe (fun xs h => Value.noConfusion h)
        (fun fs2 h => Value.noConfusion h) hget hlen hkp0 hQ hcl
    | vbool b =>
      exact idx_leaf_total cf hj hdrop hsafe (fun xs h => Value.noConfusion h)
        (fun fs2 h => Value.noConfusion h) hget hlen hkp0 hQ hcl
    | vnum n =>
      exact idx_leaf_total cf hj hdrop hsafe (fun xs h => Value.noConfusion h)
        (fun fs2 h => Value.noConfusion h) hget hlen hkp0 hQ hcl
    | vstr s =>
      exact idx_leaf_total cf hj hdrop hsafe (fun xs h => Value.noConfusion h)
        (fun fs2 h => Value.noConfusion h) hget hlen hkp0 hQ hcl
    | vdate iso =>
      exact idx_leaf_total cf hj hdrop hsafe (fun xs h => Value.noConfusion h)
        (fun fs2 h => Value.noConfusion h) hget hlen hkp0 hQ hcl
    | vmap es =>
      exact idx_leaf_total cf hj hdrop hsafe (fun xs h => Value.noConfusion h)
        (fun fs2 h => Value.noConfusion h) hget hlen hkp0 hQ hcl
    | vset es =>
      exact idx_leaf_total cf hj hdrop hsafe (fun xs h => Value.noConfusion h)
        (fun fs2 h => Value.noConfusion h) hget hlen hkp0 hQ hcl
    | vobj fs2 =>
      rw [safeEntry_obj, Bool.and_eq_true, Bool.and_eq_true] at hsafe
      obtain ⟨⟨hne2, hsf2⟩, hany2⟩ := hsafe
      have hie : fs2.isEmpty = false := by rwa [Bool.not_eq_true'] at hne2
      have hbe : buildEntry cf {} (natChars j) (.vobj fs2) kp
          = buildFields cf {} fs2 (entryKeyPath kp (natChars j)) := by
        rw [buildEntry_objE cf {} (natChars j) fs2 kp
            (by rw [shouldOmit_default]; exact hdrop), hie]
        simp only [Bool.false_eq_true, if_false]
        exact build_obj cf {} fs2 (entryKeyPath kp (natChars j))
      have hsz2 : sizeOf fs2 ≤ fu := by
        have hs : sizeOf (Value.vobj fs2) = 1 + sizeOf fs2 := by simp
        omega
      have hdig := natChars_digits j
      have hdp2 : decodePath (entryKeyPath kp (natChars j)) = Q ++ [natChars j] :=
        decodePath_entryKeyPath (natChars j)
          (fun hm => absurd rfl (dig_ne (hdig _ hm)).2.2.1)
          (fun hm => absurd rfl (dig_ne (hdig _ hm)).1)
          (Or.inr ⟨hkp0, hQ⟩)
      have hidxj : isIndexStr (natChars j) = true := isIndexStr_natChars hj
      have hdvj : digVal (natChars j) = ys.length := by
        rw [digVal_natChars, hlen]
      have hget2 : getAt (mapAt acc Q fun _ => .arr (ys ++ [some (JVal.obj [])]))
          (Q ++ [natChars j]) = some (.obj []) :=
        getAt_snoc_arr (JVal.obj []) hget hidxj hdvj
      obtain ⟨hrunF, hshapeF, hnonF⟩ := famFields fu cf fs2
        (entryKeyPath kp (natChars j)) (Q ++ [natChars j])
        (mapAt acc Q fun _ => .arr (ys ++ [some (JVal.obj [])])) []
        hsz2 hsf2 hget2 (fun f hf => rfl)
        (Or.inr ⟨entryKeyPath_ne_nil kp (natChars_ne_nil j), hdp2⟩)
        (cleanK_entry hcl (digits_clean j))
      have hnonnil := hnonF hany2
      have hC : ∀ q ∈ buildFields cf {} fs2 (entryKeyPath kp (natChars j)),
          ∃ kq w r1 R, q = kq ++ '=' :: w ∧ kq ≠ [] ∧ '=' ∉ kq ∧
            decodePath kq = (Q ++ [natChars j]) ++ r1 :: R ∧
            contOf none r1 = JVal.obj [] := by
        intro q hq
        obtain ⟨kq, w, r1, R, h1, h2, h3, -, -, -, -, h8, h9⟩ := hshapeF q hq
        exact ⟨kq, w, r1, R, h1, h2, h3, h8, contOf_none_obj h9⟩
      have hmapF : runP cf
          (mapAt acc Q fun _ => .arr (ys ++ [some (JVal.obj [])]))
          (buildFields cf {} fs2 (entryKeyPath kp (natChars j)))
          = mapAt (mapAt acc Q fun _ => .arr (ys ++ [some (JVal.obj [])]))
              (Q ++ [natChars j]) (fun _ => .obj ([] ++ normFields fs2)) := by
        rcases hrunF with ⟨hallF, -⟩ | hm
        · exfalso
          rw [List.any_eq_true] at hany2
          obtain ⟨g, hg, hgnd⟩ := hany2
          rw [hallF g hg] at hgnd
          simp at hgnd
        · exact hm
      rw [hbe]
      refine ⟨?_, ?_, ?_⟩
      · rw [runP_shift_arr cf _ hget hidxj hdvj hnonnil hC, hmapF]
        simp only [List.nil_append]
        rw [compose_slot_arr (JVal.obj []) (JVal.obj (normFields fs2)) hget
          hidxj hdvj, normEntry_obj]
      · intro q hq
        exact pairFacts_widen_idx hidxj (hshapeF q hq)
      · exact hnonnil
    | varr xs2 =>
      rw [safeEntry_arr, Bool.and_eq_true, Bool.and_eq_true] at hsafe
      obtain ⟨⟨hne2, hmax2⟩, hsi2⟩ := hsafe
      have hie : xs2.isEmpty = false := by rwa [Bool.not_eq_true'] at hne2
      have hxne : xs2 ≠ [] := by
        intro h
        subst h
        cases hie
      have hbe : buildEntry cf {} (natChars j) (.varr xs2) kp
          = buildArrItems cf {} xs2 0 (entryKeyPath kp (natChars j)) := by
        rw [buildEntry_arrE cf {} (natChars j) xs2 kp
            (by rw [shouldOmit_default]; exact hdrop), hie]
        simp only [Bool.false_eq_true, if_false]
      have hsz2 : sizeOf xs2 ≤ fu := by
        have hs : sizeOf (Value.varr xs2) = 1 + sizeOf xs2 := by simp
        omega
      have hdig := natChars_digits j
      have hdp2 : decodePath (entryKeyPath kp (natChars j)) = Q ++ [natChars j] :=
        decodePath_entryKeyPath (natChars j)
          (fun hm => absurd rfl (dig_ne (hdig _ hm)).2.2.1)
          (fun hm => absurd rfl (dig_ne (hdig _ hm)).1)
          (Or.inr ⟨hkp0, hQ⟩)
      have hidxj : isIndexStr (natChars j) = true := isIndexStr_natChars hj
      have hdvj : digVal (natChars j) = ys.length := by
        rw [digVal_natChars, hlen]
      have hget2 : getAt (mapAt acc Q fun _ => .arr (ys ++ [some (JVal.arr [])]))
          (Q ++ [natChars j]) = some (.arr []) :=
        getAt_snoc_arr (JVal.arr []) hget hidxj hdvj
      obtain ⟨hrunF, hshapeF, hnonF⟩ := famItems fu cf xs2 0
        (entryKeyPath kp (natChars j)) (Q ++ [natChars j])
        (mapAt acc Q fun _ => .arr (ys ++ [some (JVal.arr [])])) []
        hsz2 hsi2 (by have := of_decide_eq_true hmax2; omega) hget2 rfl hdp2
        (cleanK_entry hcl (digits_clean j))
      have hnonnil := hnonF hxne
      have hC : ∀ q ∈ buildArrItems cf {} xs2 0 (entryKeyPath kp (natChars j)),
          ∃ kq w r1 R, q = kq ++ '=' :: w ∧ kq ≠ [] ∧ '=' ∉ kq ∧
            decodePath kq = (Q ++ [natChars j]) ++ r1 :: R ∧
            contOf none r1 = JVal.arr [] := by
        intro q hq
        obtain ⟨kq, w, r1, R, h1, h2, h3, -, -, -, -, h8, h9⟩ := hshapeF q hq
        exact ⟨kq, w, r1, R, h1, h2, h3, h8, contOf_none_arr h9⟩
      have hmapF : runP cf
          (mapAt acc Q fun _ => .arr (ys ++ [some (JVal.arr [])]))
          (buildArrItems cf {} xs2 0 (entryKeyPath kp (natChars j)))
          = mapAt (mapAt acc Q fun _ => .arr (ys ++ [some (JVal.arr [])]))
              (Q ++ [natChars j]) (fun _ => .arr ([] ++ normItems xs2)) := by
        rcases hrunF with ⟨h0, -⟩ | hm
        · exact absurd h0 hxne
        · exact hm
      rw [hbe]
      refine ⟨?_, ?_, ?_⟩
      · rw [runP_shift_arr cf _ hget hidxj hdvj hnonnil hC, hmapF]
        simp only [List.nil_append]
        rw [compose_slot_arr (JVal.arr []) (JVal.arr (normItems xs2)) hget
          hidxj hdvj, normEntry_arr]
      · intro q hq
        exact pairFacts_widen_idx hidxj (hshapeF q hq)
      · exact hnonnil

theorem famIdx : ∀ (fu : Nat) (cf : CaseFuns) (xs : List Value) (j : Nat)
    (kp : Str) (Q : List Str) (acc : JVal) (ys : List (Option JVal)),
    sizeOf xs ≤ fu → safeIdx xs = true → j + xs.length ≤ MAXI →
    getAt acc Q = some (.arr ys) → ys.length = j → kp ≠ [] →
    decodePath kp = Q → cleanK kp →
    ((xs = [] ∧ runP cf acc (buildIdxEntries cf {} xs j kp) = acc) ∨
      runP cf acc (buildIdxEntries cf {} xs j kp)
        = mapAt acc Q fun _ => .arr (ys ++ normIdx xs)) ∧
    (∀ q ∈ buildIdxEntries cf {} xs j kp, pairFacts Q true q) ∧
    (xs ≠ [] → buildIdxEntries cf {} xs j kp ≠ [])
  | 0, _, xs, _, _, _, _, _ => fun hsz =>
    absurd hsz (by have := vitems_sizeOf_pos xs; omega)
  | fu + 1, cf, xs, j, kp, Q, acc, ys => by
    intro hsz hsafe hbound hget hlen hkp0 hQ hcl
    cases xs with
    | nil =>
      refine ⟨Or.inl ⟨rfl, by rw [buildIdxEntries_nil, runP_nil]⟩, ?_, ?_⟩
      · intro q hq
        rw [buildIdxEntries_nil] at hq
        cases hq
      · intro h
        exact absurd rfl h
    | cons x t =>
      rw [safeIdx_cons, Bool.and_eq_true, Bool.and_eq_true] at hsafe
      obtain ⟨⟨hndx, hsex⟩, hst⟩ := hsafe
      have hnd : dropV x = false := by rwa [Bool.not_eq_true'] at hndx
      have hj : j < MAXI := by
        rw [List.length_cons] at hbound
        omega
      have hbound2 : (j + 1) + t.length ≤ MAXI := by
        rw [List.length_cons] at hbound
        omega
      have hs : sizeOf (x :: t) = 1 + sizeOf x + sizeOf t := by simp
      have h2 := vitems_sizeOf_pos t
      have hszx : sizeOf x < fu := by omega
      have hszt : sizeOf t ≤ fu := by
        have := value_sizeOf_pos x
        omega
      rw [buildIdxEntries_cons]
      obtain ⟨hA, hShA, hAne⟩ := famIdxEntry fu cf j x kp Q acc ys hszx hj hnd
        hsex hget hlen hkp0 hQ hcl
      obtain ⟨hT, hShT, -⟩ := famIdx fu cf t (j + 1) kp Q
        (mapAt acc Q fun _ => .arr (ys ++ [some (normEntry x)]))
        (ys ++ [some (normEntry x)]) hszt hst hbound2
        (getAt_mapAt Q acc _ _ hget) (by simp [hlen]) hkp0 hQ hcl
      exact idx_tail_combine cf _ _ hget hA hShA hAne hT hShT

end


/-! ### Wire framing: `stringify` output through the `parse` front end -/

theorem intercalate_cons2 (a b : Str) (l : List Str) :
    List.intercalate ['&'] (a :: b :: l)
      = a ++ '&' :: List.intercalate ['&'] (b :: l) := by
  simp [List.intercalate, List.intersperse_cons_cons]

theorem intercalate_one (a : Str) : List.intercalate ['&'] [a] = a := by
  simp [List.intercalate]

theorem intercalate_facts : ∀ (ps : List Str), ps ≠ [] → (∀ q ∈ ps, q ≠ []) →
    (∀ q ∈ ps, q.getLast? ≠ some ' ') →
    List.intercalate ['&'] ps ≠ [] ∧
    (List.intercalate ['&'] ps).head? = (ps.headD []).head? ∧
    (List.intercalate ['&'] ps).getLast? ≠ some ' '
  | [], hne, _, _ => absurd rfl hne
  | [a], _, hq, hl => by
    rw [intercalate_one]
    exact ⟨hq a (List.mem_singleton.2 rfl), rfl, hl a (List.mem_singleton.2 rfl)⟩
  | a :: b :: l, _, hq, hl => by
    obtain ⟨ihne, -, ihlast⟩ := intercalate_facts (b :: l) (by simp)
      (fun q hqm => hq q (List.mem_cons_of_mem a hqm))
      (fun q hqm => hl q (List.mem_cons_of_mem a hqm))
    rw [intercalate_cons2]
    refine ⟨by simp, ?_, ?_⟩
    · rw [List.headD_cons]
      obtain ⟨c, t, hct⟩ : ∃ c t, a = c :: t := by
        cases ha : a with
        | nil => exact absurd ha (hq a (List.mem_cons_self ..))
        | cons c t => exact ⟨c, t, rfl⟩
      rw [hct]
      rfl
    · rw [List.getLast?_append_of_ne_nil _ (by simp),
        show ('&' : Char) :: List.intercalate ['&'] (b :: l)
          = ['&'] ++ List.intercalate ['&'] (b :: l) from rfl,
        List.getLast?_append_of_ne_nil _ ihne]
      exact ihlast

theorem trimSpaces_id {s : Str} (h1 : s.head? ≠ some ' ')
    (h2 : s.getLast? ≠ some ' ') : trimSpaces s = s := by
  unfold trimSpaces
  have hd : s.dropWhile (fun c => c == ' ') = s := by
    cases s with
    | nil => rfl
    | cons a t =>
      rw [List.dropWhile_cons]
      have ha : (a == ' ') = false := by
        rw [beq_eq_false_iff_ne]
        intro he
        exact h1 (by rw [List.head?_cons, he])
      rw [ha]
      simp
  rw [hd]
  have hr : s.reverse.dropWhile (fun c => c == ' ') = s.reverse := by
    cases hrev : s.reverse with
    | nil => rfl
    | cons a t =>
      rw [List.dropWhile_cons]
      have ha : (a == ' ') = false := by
        rw [beq_eq_false_iff_ne]
        intro he
        apply h2
        rw [← List.head?_reverse, hrev, List.head?_cons, he]
      rw [ha]
      simp
  rw [hr, List.reverse_reverse]

theorem trimStartQ_qcons {body : Str} (h : body.head? ≠ some '?') :
    trimStartQ ('?' :: body) = body := by
  unfold trimStartQ
  rw [List.dropWhile_cons]
  simp only [beq_self_eq_true, if_true]
  cases body with
  | nil => rfl
  | cons a t =>
    rw [List.dropWhile_cons]
    have ha : (a == '?') = false := by
      rw [beq_eq_false_iff_ne]
      intro he
      exact h (by rw [List.head?_cons, he])
    rw [ha]
    simp

theorem parse_pos (cf : CaseFuns) (s : Str) (h : s.isEmpty = false) :
    parse cf s {}
      = ((trimStartQ (trimSpaces s)).splitOn '&').foldl (parseStep cf {})
          (.obj []) := by
  unfold parse
  rw [h]
  rfl

theorem stringify_pos (cf : CaseFuns) (fs : List (Str × Value))
    (hie : fs.isEmpty = false) (hne : buildFields cf {} fs [] ≠ []) :
    stringify cf fs {}
      = '?' :: List.intercalate ['&'] (buildFields cf {} fs []) := by
  unfold stringify
  rw [hie]
  simp only [Bool.false_eq_true, if_false]
  rw [build_obj,
    if_pos (show (buildFields cf {} fs []).length ≠ 0 from
      fun h0 => hne (List.length_eq_zero.1 h0))]
  rfl

theorem stringify_dropped (cf : CaseFuns) (fs : List (Str × Value))
    (hall : ∀ g ∈ fs, dropV g.2 = true) : stringify cf fs {} = [] := by
  unfold stringify
  rw [build_obj, buildFields_dropped fs cf [] hall]
  split
  · rfl
  · rw [if_neg (by simp)]

/-! ## C1 -/

/-- C1 (amended): for every plain object whose field tree is built from
booleans, integers, raw strings, raw ISO date strings, well-formed
distinct-keyed Maps, distinct Sets, nonempty plain objects and nonempty
arrays — Maps and Sets in object-entry position only, because an array
item that is a Map or Set is silently dropped by `stringify`
(`{a: [1, new Map(…)]}` emits just `?a[0]=1`), so such items are excluded
— and with every key nonempty, free of the wire-special characters
`.`, `[`, `]`, `&`, `=`, `?` (non-ASCII keys are fine: keys are never
percent-coded), and not index-shaped — `parse` of `stringify` under
default options returns exactly the normalized image `normFields`:
droppable leaves (null, empty string, empty Map, empty Set) are omitted
at entry positions, dates come back as their ISO strings, Maps and Sets
round-trip through their wrapper encoding, and a `null` array item comes
back as the empty string. -/
theorem claim_C1 : ∀ (cf : CaseFuns) (fs : List (Str × Value)),
    safeFields fs = true →
    parse cf (stringify cf fs {}) {} = .obj (normFields fs) := by
  intro cf fs hsafe
  by_cases hany : (fs.any fun f => !dropV f.2) = true
  case neg =>
    have hall : ∀ g ∈ fs, dropV g.2 = true := by
      intro g hg
      by_contra hcon
      refine hany (List.any_eq_true.2 ⟨g, hg, ?_⟩)
      rw [Bool.eq_false_iff.2 hcon]
      rfl
    rw [stringify_dropped cf fs hall, normFields_dropped fs hall]
    rfl
  case pos =>
    have hie : fs.isEmpty = false := by
      cases fs with
      | nil =>
        rw [List.any_nil] at hany
        cases hany
      | cons f t => rfl
    obtain ⟨hrun, hshape, hnon⟩ := famFields (sizeOf fs) cf fs [] [] (.obj [])
      [] (Nat.le_refl _) hsafe (getAt_nil _) (fun f hf => rfl)
      (Or.inl ⟨rfl, rfl⟩) cleanK_nil
    have hpne : buildFields cf {} fs [] ≠ [] := hnon hany
    have hmap : runP cf (.obj []) (buildFields cf {} fs [])
        = .obj (normFields fs) := by
      rcases hrun with ⟨hallF, -⟩ | hm
      · exfalso
        rw [List.any_eq_true] at hany
        obtain ⟨g, hg, hgnd⟩ := hany
        rw [hallF g hg] at hgnd
        simp at hgnd
      · rw [hm, mapAt_nil, List.nil_append]
    have hqne : ∀ q ∈ buildFields cf {} fs [], q ≠ [] :=
      fun q hq => pairFacts_ne_nil (hshape q hq)
    have hqa : ∀ q ∈ buildFields cf {} fs [], '&' ∉ q :=
      fun q hq => pairFacts_no_amp (hshape q hq)
    have hql : ∀ q ∈ buildFields cf {} fs [], q.getLast? ≠ some ' ' :=
      fun q hq => pairFacts_last (hshape q hq)
    obtain ⟨hbne, hbhead, hblast⟩ := intercalate_facts (buildFields cf {} fs [])
      hpne hqne hql
    have hbh2 : (List.intercalate ['&'] (buildFields cf {} fs [])).head?
        ≠ some '?' := by
      rw [hbhead]
      obtain ⟨q0, qs, hq0⟩ := List.exists_cons_of_ne_nil hpne
      rw [hq0, List.headD_cons]
      exact pairFacts_head (hshape q0 (by rw [hq0]; exact List.mem_cons_self ..))
    have hhead1 : ('?' :: List.intercalate ['&'] (buildFields cf {} fs [])).head?
        ≠ some ' ' := by
      rw [List.head?_cons]
      intro he
      injection he with he
      cases he
    have hlast1 : ('?' :: List.intercalate ['&'] (buildFields cf {} fs [])).getLast?
        ≠ some ' ' := by
      rw [show ('?' : Char) :: List.intercalate ['&'] (buildFields cf {} fs [])
          = ['?'] ++ List.intercalate ['&'] (buildFields cf {} fs []) from rfl,
        List.getLast?_append_of_ne_nil _ hbne]
      exact hblast
    rw [stringify_pos cf fs hie hpne,
      parse_pos cf ('?' :: List.intercalate ['&'] (buildFields cf {} fs [])) rfl,
      trimSpaces_id hhead1 hlast1, trimStartQ_qcons hbh2,
      List.splitOn_intercalate (buildFields cf {} fs []) '&' hqa hpne]
    exact hmap

/-- A concrete safe object exercising strings, nesting, arrays, nested
arrays, booleans, dropped null fields, and a non-ASCII key. -/
def wfs : List (Str × Value) :=
  [(lit "a", .vstr (lit "hi")),
   (lit "b", .vobj [(lit "c", .vnum 5), (lit "d", .vnull)]),
   (lit "e", .varr [.vnum 1, .vnull, .varr [.vnum 2]]),
   (lit "f", .vbool true),
   (lit "é", .vnum 7),
   (lit "g", .vnull)]

theorem claim_C1_wit :
    safeFields wfs = true ∧
    parse idCF (stringify idCF wfs {}) {} = .obj (normFields wfs) :=
  ⟨by decide, claim_C1 idCF wfs (by decide)⟩


end UseQs
